import Mathlib

/-!
Verification of the P2P-DHTs repository (Chord + DHash in C++) against its
natural-language specification.  The definitions below are shallow embeddings
of the C++ source: `GenericKey` arithmetic and `InBetween` from
`data_structures/thread_safe.h` (key.h section), the bucketed `MerkleTree`
from the same header, the IDA codec from `ida/ida.cpp` and `matrix_math`,
`FingerTable::AdjustFingers`, `RemotePeerList::Insert`, and
`DHashPeer::Create`.  Machine integers are modelled as unbounded `Nat`/`Int`;
the 256-bit key type holds values on the ring of size `16 ^ 32 = 2 ^ 128`.
-/

/-! ### Ring keys: `GenericKey<16, 32>` (key.h)

`keys_in_ring_ = 16 ^ 32`.  Key values are stored in a `uint256_t`; we model
the stored value as a `Nat`.
-/

/-- Size of the identifier ring, `keys_in_ring_ = pow(16, 32)` in the source. -/
def keysInRing : Nat := 16 ^ 32

/-- `GenericKey::InBetween(lower_bound, upper_bound, inclusive)` from key.h.
Faithful to the source, including the quirk that in the `lo < hi` branch the
upper comparison uses the unreduced `upper_bound` while the lower uses
`lower_bound % keys_in_ring_`. -/
def inBetween (value lo hi : Nat) (inclusive : Bool) : Bool :=
  if lo = hi then decide (value = hi)
  else
    let ml := lo % keysInRing
    let mu := hi % keysInRing
    let mv := value % keysInRing
    if lo < hi then
      if inclusive then decide (ml ≤ mv ∧ mv ≤ hi) else decide (ml < mv ∧ mv < hi)
    else
      !(if inclusive then decide (mu < mv ∧ mv < ml) else decide (mu ≤ mv ∧ mv ≤ ml))

/-- `operator+` on keys: `(key1.value_ + key2.value_) % keys_in_ring_`. -/
def keyAdd (a b : Nat) : Nat := (a + b) % keysInRing

/-- `operator-` on keys: the source computes the signed difference
`diff = cpp_int(a) - cpp_int(b)` and returns `diff` when `diff > 0`, else
`keys_in_ring_ + diff`.  We return the mathematical value of the resulting
key (for ring-valued operands it fits the `uint256_t` without wrapping). -/
def keySub (a b : Nat) : Int :=
  let diff : Int := (a : Int) - (b : Int)
  if diff > 0 then diff else (keysInRing : Int) + diff

/-- Arithmetic characterisation of `InBetween` on ring-reduced inputs:
used by several claims below. -/
theorem inBetween_eq (k lo hi : Nat) (inc : Bool)
    (hk : k < keysInRing) (hlo : lo < keysInRing) (hhi : hi < keysInRing) :
    inBetween k lo hi inc =
      if lo = hi then decide (k = hi)
      else if lo < hi then
        (if inc then decide (lo ≤ k ∧ k ≤ hi) else decide (lo < k ∧ k < hi))
      else
        !(if inc then decide (hi < k ∧ k < lo) else decide (hi ≤ k ∧ k ≤ lo)) := by
  unfold inBetween
  rw [Nat.mod_eq_of_lt hk, Nat.mod_eq_of_lt hlo, Nat.mod_eq_of_lt hhi]

/-- Clockwise displacement of `x` from `s` on the ring. -/
def dispFrom (s x : Nat) : Nat := (x + keysInRing - s) % keysInRing

theorem keysInRing_pos : 0 < keysInRing := by
  unfold keysInRing
  positivity

theorem dispFrom_lt (s x : Nat) : dispFrom s x < keysInRing :=
  Nat.mod_lt _ keysInRing_pos

/-- Closed form of the displacement on ring-reduced inputs. -/
theorem dispFrom_eq (s x : Nat) (hx : x < keysInRing) (hs : s < keysInRing) :
    dispFrom s x = if s ≤ x then x - s else x + keysInRing - s := by
  unfold dispFrom
  split
  · rw [show x + keysInRing - s = (x - s) + keysInRing by omega,
        Nat.add_mod_right, Nat.mod_eq_of_lt (by omega)]
  · rw [Nat.mod_eq_of_lt (by omega)]

theorem dispFrom_self (s : Nat) (hs : s < keysInRing) : dispFrom s s = 0 := by
  rw [dispFrom_eq s s hs hs]
  simp

theorem dispFrom_inj (s x y : Nat) (hx : x < keysInRing) (hy : y < keysInRing)
    (hs : s < keysInRing) (h : dispFrom s x = dispFrom s y) : x = y := by
  rw [dispFrom_eq s x hx hs, dispFrom_eq s y hy hs] at h
  split at h <;> split at h <;> omega

/-- `InBetween k a b true` on ring-reduced inputs is exactly
"the clockwise displacement of `k` from `a` is at most that of `b`". -/
theorem inBetween_true_iff_disp (k a b : Nat)
    (hk : k < keysInRing) (ha : a < keysInRing) (hb : b < keysInRing) :
    inBetween k a b true = true ↔ dispFrom a k ≤ dispFrom a b := by
  have expand : inBetween k a b true = true ↔
      (if a = b then k = b else if a < b then a ≤ k ∧ k ≤ b
       else ¬(b < k ∧ k < a)) := by
    rw [inBetween_eq k a b true hk ha hb]
    split_ifs <;> simp_all <;> omega
  rw [expand, dispFrom_eq a k hk ha, dispFrom_eq a b hb ha]
  split_ifs <;> omega

/-! ### Claim C3: `InBetween` case analysis -/

/-- C3: for ring-reduced `k, lo, hi`, `in_between` follows the spec's case
analysis: `lo == hi` gives `k == hi` regardless of the flag; `lo < hi` gives
the plain (in)clusive interval; `lo > hi` gives the complement of the
opposite-exclusivity interval `[hi, lo]`, i.e. the wrap segment containing its
endpoints iff inclusive; and `in_between(0, N-1, 1, true) = true`. -/
theorem c3_inBetween_cases :
    (∀ k lo hi : Nat, ∀ inc : Bool,
      k < keysInRing → lo < keysInRing → hi < keysInRing →
      ((lo = hi → (inBetween k lo hi inc = true ↔ k = hi)) ∧
       (lo < hi → (inBetween k lo hi true = true ↔ lo ≤ k ∧ k ≤ hi)) ∧
       (lo < hi → (inBetween k lo hi false = true ↔ lo < k ∧ k < hi)) ∧
       (hi < lo → (inBetween k lo hi true = true ↔ ¬(hi < k ∧ k < lo))) ∧
       (hi < lo → (inBetween k lo hi false = true ↔ ¬(hi ≤ k ∧ k ≤ lo))))) ∧
    inBetween 0 (keysInRing - 1) 1 true = true := by
  constructor
  · intro k lo hi inc hk hlo hhi
    refine ⟨?_, ?_, ?_, ?_, ?_⟩
    · intro h
      subst h
      simp [inBetween_eq k lo lo inc hk hlo hlo]
    · intro h
      rw [inBetween_eq k lo hi true hk hlo hhi]
      simp [Nat.ne_of_lt h, h]
    · intro h
      rw [inBetween_eq k lo hi false hk hlo hhi]
      simp [Nat.ne_of_lt h, h]
    · intro h
      rw [inBetween_eq k lo hi true hk hlo hhi]
      simp [Nat.ne_of_gt h, Nat.lt_asymm h, not_lt_of_gt h]
      omega
    · intro h
      rw [inBetween_eq k lo hi false hk hlo hhi]
      simp [Nat.ne_of_gt h, Nat.lt_asymm h, not_lt_of_gt h]
      omega
  · have h1 : (1 : Nat) < keysInRing - 1 := by
      have := keysInRing_pos
      unfold keysInRing at *
      norm_num
    rw [inBetween_eq 0 (keysInRing - 1) 1 true (keysInRing_pos)
          (Nat.sub_lt keysInRing_pos (by norm_num)) (by omega)]
    simp [Nat.ne_of_gt h1, Nat.lt_asymm h1, not_lt_of_gt h1]

/-- Witness for C3 at concrete inputs. -/
theorem c3_inBetween_cases_witness :
    inBetween 4 2 7 true = true ∧ inBetween 1 7 2 true = true := by
  have h := (c3_inBetween_cases.1 4 2 7 true (by norm_num [keysInRing])
    (by norm_num [keysInRing]) (by norm_num [keysInRing])).2.1 (by norm_num)
  have h' := ((c3_inBetween_cases.1 1 7 2 true (by norm_num [keysInRing])
    (by norm_num [keysInRing]) (by norm_num [keysInRing])).2.2.2.1 (by norm_num))
  exact ⟨h.mpr (by norm_num), h'.mpr (by omega)⟩

/-! ### Claim C8: modular key arithmetic (code bug in `operator-`)

The source computes `diff = a - b` and returns `keys_in_ring_ + diff` whenever
`diff` is NOT strictly positive; for `a = b` this yields `N`, a value outside
the ring, instead of `0 = (a - b + N) mod N`. -/

/-- C8: evaluating the code at the failing input `a = b = 0`:
`sub(0, 0)` returns `N = 16^32` itself, while the claimed specification value
`(0 - 0 + N) mod N` is `0`; `add` does satisfy the claimed equation. -/
theorem c8_keySub_self_bug :
    keySub 0 0 = (keysInRing : Int) ∧
    ((0 : Int) - 0 + keysInRing) % keysInRing = 0 ∧
    (keysInRing : Int) ≠ 0 ∧
    (∀ a b : Nat, a < keysInRing → b < keysInRing →
      keyAdd a b = (a + b) % keysInRing ∧
      (a ≠ b → keySub a b = ((a : Int) - b + keysInRing) % keysInRing)) := by
  refine ⟨?_, ?_, ?_, ?_⟩
  · simp [keySub]
  · simp
  · have := keysInRing_pos
    omega
  · intro a b ha hb
    refine ⟨rfl, ?_⟩
    intro hne
    unfold keySub
    have hN : (0 : Int) < (keysInRing : Int) := by exact_mod_cast keysInRing_pos
    rcases Nat.lt_or_ge b a with h | h
    · have hpos : (0 : Int) < (a : Int) - b := by
        omega
      rw [if_pos hpos]
      have step : ((a : Int) - b + keysInRing) = ((a : Int) - b) + 1 * keysInRing := by
        ring
      rw [step, Int.add_mul_emod_self]
      have h1 : (0 : Int) ≤ (a : Int) - b := by omega
      have h2 : (a : Int) - b < (keysInRing : Int) := by omega
      rw [Int.emod_eq_of_lt h1 h2]
    · have hb' : a < b := by omega
      have hneg : ¬ ((0 : Int) < (a : Int) - b) := by omega
      rw [if_neg hneg]
      have h1 : (0 : Int) ≤ (a : Int) - b + keysInRing := by omega
      have h2 : (a : Int) - b + keysInRing < (keysInRing : Int) := by omega
      rw [show (keysInRing : Int) + ((a : Int) - b) = (a : Int) - b + keysInRing by ring,
        Int.emod_eq_of_lt h1 h2]

/-! ### Claim C4: `GetSuccessor` local-ownership short-circuit

`AbstractChordPeer::GetSuccessor` first tests `StoredLocally(key)` (membership
of the key in `[min_key_, id_]` clockwise-inclusive) and only on failure
builds a `GET_SUCC` request and forwards it; `StartChord` sets
`min_key_ = id_ + 1`. -/

/-- Result of a successor lookup: either the peer itself (local ownership) or
a forwarded RPC (whose outcome depends on the network, abstracted here). -/
inductive SuccLookup where
  | selfPeer : SuccLookup
  | forwarded : SuccLookup
deriving DecidableEq, Repr

/-- `AbstractChordPeer::StoredLocally`: `key.InBetween(min_key_, id_, true)`. -/
def storedLocally (minKey selfId k : Nat) : Bool :=
  inBetween k minKey selfId true

/-- `AbstractChordPeer::GetSuccessor`: the local-ownership test comes first;
everything after it is the forwarding path. -/
def getSuccessor (minKey selfId k : Nat) : SuccLookup :=
  if storedLocally minKey selfId k then .selfPeer else .forwarded

/-- `AbstractChordPeer::StartChord`: `min_key_.Set(id_ + 1)` (ring add). -/
def startChordMinKey (selfId : Nat) : Nat := keyAdd selfId 1

/-- C4: if `k` lies clockwise-inclusive in `[min_key, id]` the lookup returns
the peer itself without consulting any routing table, and after `StartChord`
(`min_key = id + 1`) every key is owned locally, so a single-node peer
returns itself as the successor of every key. -/
theorem c4_getSuccessor_local_first :
    (∀ minKey selfId k : Nat,
      storedLocally minKey selfId k = true →
      getSuccessor minKey selfId k = .selfPeer) ∧
    (∀ selfId k : Nat, selfId < keysInRing → k < keysInRing →
      getSuccessor (startChordMinKey selfId) selfId k = .selfPeer) := by
  constructor
  · intro minKey selfId k h
    unfold getSuccessor
    rw [h]
    rfl
  · intro selfId k hid hk
    have hstored : storedLocally (startChordMinKey selfId) selfId k = true := by
      unfold storedLocally startChordMinKey keyAdd
      rcases Nat.lt_or_ge (selfId + 1) keysInRing with hlt | hge
      · rw [Nat.mod_eq_of_lt hlt]
        rw [inBetween_eq k (selfId + 1) selfId true hk hlt hid]
        have hne : selfId + 1 ≠ selfId := by omega
        have hnlt : ¬ (selfId + 1 < selfId) := by omega
        simp [hne, hnlt]
        omega
      · have hsel : selfId = keysInRing - 1 := by
          have := keysInRing_pos
          omega
        have hmod : (selfId + 1) % keysInRing = 0 := by
          have := keysInRing_pos
          rw [hsel]
          rw [show keysInRing - 1 + 1 = keysInRing by omega]
          exact Nat.mod_self _
        rw [hmod]
        rw [inBetween_eq k 0 selfId true hk keysInRing_pos hid]
        have h2 : (1:Nat) < keysInRing := by
          unfold keysInRing
          norm_num
        have hne : (0:Nat) ≠ selfId := by omega
        have hlt : (0:Nat) < selfId := by omega
        simp [hne, hlt]
        omega
    unfold getSuccessor
    rw [hstored]
    rfl

/-- Witness for C4 at concrete inputs. -/
theorem c4_getSuccessor_local_first_witness :
    getSuccessor (startChordMinKey 42) 42 7 = .selfPeer :=
  c4_getSuccessor_local_first.2 42 7 (by norm_num [keysInRing]) (by norm_num [keysInRing])

/-! ### Claim C7: `FingerTable::AdjustFingers`

The source replaces the successor of every finger whose `lower_bound_`
satisfies `InBetween(new_peer.min_key_, new_peer.id_)` — with the DEFAULT
inclusive flag, i.e. the clockwise-INCLUSIVE interval `[min_key, id]`, not
the claim's `(min_key, id]`. -/

/-- Remote peer descriptor as used by the finger table (`id_`, `min_key_`). -/
structure FPeer where
  pid : Nat
  minKey : Nat
deriving DecidableEq, Repr

/-- One finger: lower bound, upper bound, successor. -/
structure Finger where
  lower : Nat
  upper : Nat
  succ : FPeer
deriving DecidableEq, Repr

/-- `FingerTable::AdjustFingers(new_peer)`: for every finger, if
`finger.lower_bound_.InBetween(new_peer.min_key_, new_peer.id_)` (inclusive
default) replace its successor by `new_peer`. -/
def adjustFingers (p : FPeer) (fingers : List Finger) : List Finger :=
  fingers.map fun f =>
    if inBetween f.lower p.minKey p.pid true then { f with succ := p } else f

/-- C7 counterexample: a finger whose lower bound equals `p.min_key` IS
replaced by the code, although the claim's interval `(p.min_key, p.id]`
excludes it. -/
theorem c7_adjustFingers_counterexample :
    adjustFingers ⟨9, 5⟩ [⟨5, 6, ⟨100, 50⟩⟩] ≠ [⟨5, 6, ⟨100, 50⟩⟩] ∧
    (⟨5, 6, ⟨100, 50⟩⟩ : Finger).lower = (⟨9, 5⟩ : FPeer).minKey ∧
    adjustFingers ⟨9, 5⟩ [⟨5, 6, ⟨100, 50⟩⟩] = [⟨5, 6, ⟨9, 5⟩⟩] := by
  refine ⟨?_, rfl, ?_⟩ <;> decide

/-- C7 amended: `AdjustFingers(p)` replaces the successor of exactly those
fingers whose lower bound lies in the clockwise interval `[p.min_key, p.id]`,
INCLUSIVE at both endpoints (a single point when `min_key = id`), and leaves
every other finger unchanged. -/
theorem c7_adjustFingers_amended (p : FPeer) (fingers : List Finger)
    (hid : p.pid < keysInRing) (hmin : p.minKey < keysInRing) :
    (adjustFingers p fingers).length = fingers.length ∧
    (∀ i : Nat, ∀ f : Finger, i < fingers.length →
      fingers.getD i f = f → f.lower < keysInRing →
      (adjustFingers p fingers).getD i f =
        (if (if p.minKey = p.pid then f.lower = p.pid
             else if p.minKey < p.pid then p.minKey ≤ f.lower ∧ f.lower ≤ p.pid
             else ¬ (p.pid < f.lower ∧ f.lower < p.minKey))
         then { f with succ := p } else f)) := by
  constructor
  · simp [adjustFingers]
  · intro i f hi hf hfl
    have hmap : (adjustFingers p fingers).getD i f =
        (if inBetween f.lower p.minKey p.pid true then { f with succ := p } else f) := by
      unfold adjustFingers
      rw [List.getD_eq_getElem?_getD, List.getElem?_map]
      rw [List.getD_eq_getElem?_getD] at hf
      rcases List.getElem?_eq_some_iff.mpr ⟨hi, rfl⟩ with h
      rw [h]
      rw [h] at hf
      simp at hf
      simp [hf]
    rw [hmap, inBetween_eq f.lower p.minKey p.pid true hfl hmin hid]
    split_ifs <;> simp_all

theorem c7_adjustFingers_amended_witness :
    (adjustFingers ⟨9, 5⟩ [⟨5, 6, ⟨100, 50⟩⟩]).length = 1 ∧
    (adjustFingers ⟨9, 5⟩ [⟨5, 6, ⟨100, 50⟩⟩]).getD 0 ⟨5, 6, ⟨100, 50⟩⟩ =
      ⟨5, 6, ⟨9, 5⟩⟩ := by
  have h := c7_adjustFingers_amended ⟨9, 5⟩ [⟨5, 6, ⟨100, 50⟩⟩]
    (by norm_num [keysInRing]) (by norm_num [keysInRing])
  refine ⟨h.1, ?_⟩
  have h2 := h.2 0 ⟨5, 6, ⟨100, 50⟩⟩ (by norm_num) (by rfl)
    (by norm_num [keysInRing])
  rw [h2]
  decide

/-! ### Claim C6: `RemotePeerList` (successor list)

`RemotePeerList::Insert` from remote_peer_list.cpp: positional insertion by
clockwise scan from `starting_key_` (which is the peer's own id `id_`),
duplicate ids ignored, tail eviction on overflow.  `Delete` erases the first
entry with matching id; `Erase` clears the list. -/

/-- Remote peer as relevant to the successor list (`id_`, `port_`). -/
structure RPeer where
  rid : Nat
  port : Nat
deriving DecidableEq, Repr

/-- Outcome of the scan loop inside `RemotePeerList::Insert`. -/
inductive ScanRes where
  | dup : ScanRes
  | pos (i : Nat) : ScanRes
  | noPos : ScanRes
deriving DecidableEq, Repr

/-- The scan loop of `RemotePeerList::Insert`: walk the entries with the
running `previous_key`, returning `dup` on an id match, the insertion
position on the first clockwise segment hit, or `noPos`. -/
def insertScan (newId : Nat) (prev : Nat) : List RPeer → ScanRes
  | [] => .noPos
  | e :: rest =>
    if newId = e.rid then .dup
    else if inBetween newId prev e.rid true then .pos 0
    else
      match insertScan newId e.rid rest with
      | .dup => .dup
      | .pos i => .pos (i + 1)
      | .noPos => .noPos

/-- `RemotePeerList::Insert`.  Returns `error` for the corrupted-JSON throw
(`port == 0`), else the `(inserted?, new list)` pair. -/
def insertPeer (maxEntries startKey : Nat) (peers : List RPeer) (newPeer : RPeer) :
    Except Unit (Bool × List RPeer) :=
  if newPeer.port = 0 then .error ()
  else if peers.isEmpty then .ok (true, [newPeer])
  else
    match insertScan newPeer.rid startKey peers with
    | .dup => .ok (false, peers)
    | .pos i =>
        let l1 := peers.take i ++ newPeer :: peers.drop i
        .ok (true, if l1.length > maxEntries then l1.dropLast else l1)
    | .noPos =>
        if peers.length < maxEntries then .ok (true, peers ++ [newPeer])
        else .ok (false, peers)

/-- `RemotePeerList::Delete(id)`: erase the first entry with matching id. -/
def deletePeer (pid : Nat) (peers : List RPeer) : List RPeer :=
  peers.eraseP (fun e => decide (e.rid = pid))

/-- Displacements of the entries from the list's starting key. -/
def dispList (s : Nat) (l : List RPeer) : List Nat :=
  l.map (fun e => dispFrom s e.rid)

/-- Ids held in the list. -/
def peerIds (l : List RPeer) : List Nat := l.map (fun e => e.rid)

/-- Invariant of the successor list: at most `maxE` entries, all ids on the
ring, displacements from the starting key strictly increasing (hence ids
pairwise distinct). -/
def SuccListInv (maxE s : Nat) (l : List RPeer) : Prop :=
  l.length ≤ maxE ∧ (∀ e ∈ l, e.rid < keysInRing) ∧
    List.Chain' (· < ·) (dispList s l)

/-- Composition of displacements: walking from `prev` expressed through the
displacements from `s`. -/
theorem dispFrom_trans (s prev x : Nat) (hs : s < keysInRing)
    (hprev : prev < keysInRing) (hx : x < keysInRing) :
    dispFrom prev x =
      if dispFrom s prev ≤ dispFrom s x then dispFrom s x - dispFrom s prev
      else dispFrom s x + keysInRing - dispFrom s prev := by
  rw [dispFrom_eq prev x hx hprev, dispFrom_eq s x hx hs, dispFrom_eq s prev hprev hs]
  split_ifs <;> omega

/-- Segment characterisation: for `prev` clockwise-before `e` (seen from `s`),
`InBetween(k, prev, e, true)` holds exactly when `k`'s displacement from `s`
lies between those of `prev` and `e`. -/
theorem inBetween_segment (s prev e k : Nat) (hs : s < keysInRing)
    (hprev : prev < keysInRing) (he : e < keysInRing) (hk : k < keysInRing)
    (hab : dispFrom s prev ≤ dispFrom s e) :
    (inBetween k prev e true = true ↔
      dispFrom s prev ≤ dispFrom s k ∧ dispFrom s k ≤ dispFrom s e) := by
  rw [inBetween_true_iff_disp k prev e hk hprev he,
      dispFrom_trans s prev k hs hprev hk, dispFrom_trans s prev e hs hprev he]
  have h1 := dispFrom_lt s k
  have h2 := dispFrom_lt s e
  have h3 := dispFrom_lt s prev
  split_ifs <;> omega

theorem take_of_takeWhile_length {α : Type} (p : α → Bool) (l : List α) :
    l.take (l.takeWhile p).length = l.takeWhile p := by
  induction l with
  | nil => rfl
  | cons a t ih =>
    by_cases h : p a
    · simp [List.takeWhile_cons, h, ih]
    · simp [List.takeWhile_cons, h]

theorem drop_of_takeWhile_length {α : Type} (p : α → Bool) (l : List α) :
    l.drop (l.takeWhile p).length = l.dropWhile p := by
  induction l with
  | nil => rfl
  | cons a t ih =>
    by_cases h : p a
    · simp [List.takeWhile_cons, List.dropWhile_cons, h, ih]
    · simp [List.takeWhile_cons, List.dropWhile_cons, h]

/-- Specification of the scan loop on a sorted list: a duplicate id is always
detected; otherwise the scan finds exactly the first position whose
displacement reaches the candidate's, or `noPos` when the candidate lies
beyond every entry. -/
theorem insertScan_eq (s : Nat) (newId : Nat) (prev : Nat) (l : List RPeer)
    (hs : s < keysInRing) (hnew : newId < keysInRing) (hprev : prev < keysInRing)
    (hl : ∀ e ∈ l, e.rid < keysInRing)
    (hchain : List.Chain' (· < ·) (dispList s l))
    (hstart : ∀ e0, l.head? = some e0 → dispFrom s prev ≤ dispFrom s e0.rid)
    (hprevnd : dispFrom s prev ≤ dispFrom s newId) :
    insertScan newId prev l =
      if newId ∈ peerIds l then .dup
      else
        (let i := ((dispList s l).takeWhile
            (fun d => decide (d < dispFrom s newId))).length
         if i = l.length then .noPos else .pos i) := by
  induction l generalizing prev with
  | nil => simp [insertScan, peerIds, dispList]
  | cons e rest ih =>
    have he : e.rid < keysInRing := hl e (by simp)
    by_cases h1 : newId = e.rid
    · simp [insertScan, h1, peerIds]
    · have hd0 : dispFrom s newId ≠ dispFrom s e.rid := by
        intro hEq
        exact h1 (dispFrom_inj s newId e.rid hnew he hs hEq)
      have hseg := inBetween_segment s prev e.rid newId hs hprev he hnew
        (hstart e rfl)
      by_cases h2 : dispFrom s newId < dispFrom s e.rid
      · have hib : inBetween newId prev e.rid true = true :=
          hseg.mpr ⟨hprevnd, Nat.le_of_lt h2⟩
        have hnodup : newId ∉ peerIds (e :: rest) := by
          intro hmem
          rcases List.mem_map.mp hmem with ⟨e', he', hEq⟩
          rcases List.mem_cons.mp he' with rfl | he'r
          · exact h1 hEq.symm
          · have he'k : e'.rid < keysInRing := hl e' (by simp [he'r])
            have : dispFrom s e'.rid = dispFrom s newId := by rw [hEq]
            -- e' is a later entry, so its displacement exceeds that of e
            have hgt : dispFrom s e.rid < dispFrom s e'.rid := by
              have hch := hchain
              unfold dispList at hch
              rw [List.map_cons] at hch
              have hrel := List.chain'_cons'.mp hch
              have hall : ∀ d ∈ (rest.map (fun x => dispFrom s x.rid)),
                  dispFrom s e.rid < d := by
                intro d hd
                have hsorted := List.chain'_iff_pairwise.mp hch
                have := (List.pairwise_cons.mp hsorted).1 d hd
                exact this
              exact hall _ (List.mem_map.mpr ⟨e', he'r, rfl⟩)
            omega
        rw [if_neg hnodup]
        unfold insertScan
        rw [if_neg h1, if_pos hib]
        have htw : ((dispList s (e :: rest)).takeWhile
            (fun d => decide (d < dispFrom s newId))).length = 0 := by
          unfold dispList
          rw [List.map_cons, List.takeWhile_cons]
          simp [Nat.not_lt_of_gt h2, Nat.le_of_lt h2]
        simp only [htw]
        rw [if_neg (by simp)]
      · have hgt : dispFrom s e.rid < dispFrom s newId := by omega
        have hib : inBetween newId prev e.rid true = false := by
          rw [Bool.eq_false_iff]
          intro hc
          exact absurd (hseg.mp hc).2 (by omega)
        have hchainr : List.Chain' (· < ·) (dispList s rest) := by
          have := hchain
          unfold dispList at this ⊢
          rw [List.map_cons] at this
          exact (List.chain'_cons'.mp this).2
        have hstartr : ∀ e0, rest.head? = some e0 →
            dispFrom s e.rid ≤ dispFrom s e0.rid := by
          intro e0 he0
          have := hchain
          unfold dispList at this
          rw [List.map_cons] at this
          have hrel := (List.chain'_cons'.mp this).1
          have : dispFrom s e.rid < dispFrom s e0.rid := by
            apply hrel
            rw [List.head?_map, he0]
            rfl
          omega
        have ihr := ih e.rid he (fun x hx => hl x (by simp [hx])) hchainr hstartr
          (Nat.le_of_lt hgt)
        unfold insertScan
        rw [if_neg h1, hib]
        simp only [Bool.false_eq_true, if_false]
        rw [ihr]
        by_cases h3 : newId ∈ peerIds rest
        · rw [if_pos h3, if_pos (by simp [peerIds, List.mem_map] at h3 ⊢; tauto)]
        · rw [if_neg h3]
          have hmem : newId ∉ peerIds (e :: rest) := by
            simp [peerIds] at h3 ⊢
            refine ⟨?_, h3⟩
            intro h
            first
            | exact h1 h
            | exact h1 h.symm
          rw [if_neg hmem]
          have htw : ((dispList s (e :: rest)).takeWhile
              (fun d => decide (d < dispFrom s newId))).length =
              ((dispList s rest).takeWhile
              (fun d => decide (d < dispFrom s newId))).length + 1 := by
            unfold dispList
            rw [List.map_cons, List.takeWhile_cons]
            simp [hgt]
          simp only [htw]
          by_cases h4 : ((dispList s rest).takeWhile
              (fun d => decide (d < dispFrom s newId))).length = rest.length
          · rw [if_pos h4, if_pos (by simp [h4])]
          · rw [if_neg h4, if_neg (by simp [h4])]

theorem head_dropWhile_false {α : Type} (p : α → Bool) (l : List α) (x : α)
    (h : (l.dropWhile p).head? = some x) : p x = false := by
  induction l with
  | nil => simp [List.dropWhile] at h
  | cons a t ih =>
    rw [List.dropWhile_cons] at h
    by_cases hp : p a
    · exact ih (by simpa [hp] using h)
    · simp [hp] at h
      subst h
      simpa using hp

theorem takeWhile_all_of_length_eq {α : Type} (p : α → Bool) (l : List α)
    (h : (l.takeWhile p).length = l.length) : ∀ x ∈ l, p x = true := by
  have hpre : l.takeWhile p = l :=
    (List.takeWhile_prefix p).eq_of_length h
  intro x hx
  exact List.mem_takeWhile_imp (hpre ▸ hx)

theorem chain'_of_sublist {l l' : List Nat} (h : List.Chain' (· < ·) l)
    (hsub : List.Sublist l' l) : List.Chain' (· < ·) l' :=
  List.chain'_iff_pairwise.mpr ((List.chain'_iff_pairwise.mp h).sublist hsub)

/-- Inserting a fresh value at its `takeWhile` position keeps the
displacement list strictly increasing. -/
theorem chain'_insert_sorted (dl : List Nat) (nd : Nat)
    (h : List.Chain' (· < ·) dl) (hnotin : nd ∉ dl) :
    List.Chain' (· < ·)
      (dl.take ((dl.takeWhile (fun d => decide (d < nd))).length) ++
        nd :: dl.drop ((dl.takeWhile (fun d => decide (d < nd))).length)) := by
  rw [take_of_takeWhile_length, drop_of_takeWhile_length]
  set p : Nat → Bool := fun d => decide (d < nd) with hp
  have hsplit : dl.takeWhile p ++ dl.dropWhile p = dl :=
    List.takeWhile_append_dropWhile p dl
  have h' : List.Chain' (· < ·) (dl.takeWhile p ++ dl.dropWhile p) := by
    rw [hsplit]; exact h
  rcases List.chain'_append.mp h' with ⟨ht, hr, hlink⟩
  apply List.chain'_append.mpr
  refine ⟨ht, ?_, ?_⟩
  · apply List.chain'_cons'.mpr
    refine ⟨?_, hr⟩
    intro y hy
    have hpy : p y = false := head_dropWhile_false p dl y hy
    have hyl : y ∈ dl := by
      have : y ∈ dl.dropWhile p := List.mem_of_mem_head? hy
      exact (List.dropWhile_sublist p).mem this
    have hne : nd ≠ y := fun hEq => hnotin (hEq ▸ hyl)
    simp [hp] at hpy
    omega
  · intro x hx y hy
    simp at hy
    subst hy
    have hxmem : x ∈ dl.takeWhile p := List.mem_of_mem_getLast? hx
    have := List.mem_takeWhile_imp hxmem
    simpa [hp] using this

/-- C6 counterexample: with starting key (self id) `10`, inserting a peer
whose id equals the starting key places it at the FRONT of the list; in
clockwise order from `self_id + 1 = 11` its displacement is `N - 1`, the
largest possible, so the resulting list is NOT strictly increasing clockwise
from `self_id + 1` as the claim's invariant demands. -/
theorem c6_counterexample :
    insertPeer 4 10 [⟨20, 1⟩] ⟨10, 1⟩ = .ok (true, [⟨10, 1⟩, ⟨20, 1⟩]) ∧
    ¬ dispFrom (keyAdd 10 1) 10 < dispFrom (keyAdd 10 1) 20 := by
  constructor
  · rfl
  · decide

/-- Unfolding of `insertPeer` on a non-empty list with a valid port. -/
theorem insertPeer_nonempty (maxE s : Nat) (e : RPeer) (rest : List RPeer)
    (p : RPeer) (hport : p.port ≠ 0) :
    insertPeer maxE s (e :: rest) p =
      match insertScan p.rid s (e :: rest) with
      | .dup => .ok (false, e :: rest)
      | .pos i =>
          let l1 := (e :: rest).take i ++ p :: (e :: rest).drop i
          .ok (true, if l1.length > maxE then l1.dropLast else l1)
      | .noPos =>
          if (e :: rest).length < maxE then .ok (true, (e :: rest) ++ [p])
          else .ok (false, e :: rest) := by
  unfold insertPeer
  rw [if_neg hport]
  rfl

/-- Positional description of one `Insert` call on a list satisfying the
invariant, for a fresh (non-duplicate) candidate. -/
theorem insertPeer_positional (maxE s : Nat) (hmax : 0 < maxE) (hs : s < keysInRing)
    (l : List RPeer) (p : RPeer) (hInv : SuccListInv maxE s l)
    (hport : p.port ≠ 0) (hrid : p.rid < keysInRing) (hnot : p.rid ∉ peerIds l) :
    (let i := ((dispList s l).takeWhile
        (fun d => decide (d < dispFrom s p.rid))).length
     if i = l.length then
       (if l.length < maxE then insertPeer maxE s l p = .ok (true, l ++ [p])
        else insertPeer maxE s l p = .ok (false, l))
     else
       insertPeer maxE s l p =
         .ok (true, if l.length + 1 > maxE
           then (l.take i ++ p :: l.drop i).dropLast
           else (l.take i ++ p :: l.drop i))) := by
  rcases hInv with ⟨hlen, hkeys, hchain⟩
  rcases l with _ | ⟨e, rest⟩
  · simp only [dispList, List.map_nil, List.takeWhile_nil, List.length_nil, if_pos rfl]
    rw [if_pos hmax]
    simp [insertPeer, hport]
  · have hscan := insertScan_eq s p.rid s (e :: rest) hs hrid hs hkeys hchain
      (fun e0 he0 => by rw [dispFrom_self s hs]; exact Nat.zero_le _)
      (by rw [dispFrom_self s hs]; exact Nat.zero_le _)
    rw [if_neg hnot] at hscan
    simp only at hscan
    rw [insertPeer_nonempty maxE s e rest p hport]
    set i := ((dispList s (e :: rest)).takeWhile
        (fun d => decide (d < dispFrom s p.rid))).length with hi
    have hilen : i ≤ (e :: rest).length := by
      have h1 : i ≤ (dispList s (e :: rest)).length := (List.takeWhile_prefix _).length_le
      simpa [dispList] using h1
    by_cases hil : i = (e :: rest).length
    · rw [if_pos hil] at hscan
      rw [hscan]
      simp only [if_pos hil]
      split_ifs with h <;> rfl
    · rw [if_neg hil] at hscan
      rw [hscan]
      simp only [if_neg hil]
      have hlen1 : ((e :: rest).take i ++ p :: (e :: rest).drop i).length =
          (e :: rest).length + 1 := by
        simp only [List.length_append, List.length_take, List.length_cons,
          List.length_drop]
        omega
      simp only [hlen1, gt_iff_lt]

/-- C6 amended: with the clockwise order measured from the starting key
`self_id` itself (an entry whose id equals `self_id` sorts first), `Insert`
preserves the invariant "at most K entries, ring ids, strictly increasing
clockwise"; it inserts a fresh candidate before the first entry whose id
clockwise-exceeds it, evicts the tail entry when the insertion overflows the
capacity, ignores (returns `false` for) duplicates, and `Delete`/`Erase`
preserve the invariant as well. -/
theorem c6_succ_list_amended (maxE s : Nat) (hmax : 0 < maxE) (hs : s < keysInRing) :
    (∀ l p, SuccListInv maxE s l → p.rid < keysInRing →
      ∀ b l', insertPeer maxE s l p = .ok (b, l') → SuccListInv maxE s l') ∧
    (∀ l p, SuccListInv maxE s l → p.port ≠ 0 → p.rid ∈ peerIds l →
      insertPeer maxE s l p = .ok (false, l)) ∧
    (∀ l p, SuccListInv maxE s l → p.port ≠ 0 → p.rid < keysInRing →
      p.rid ∉ peerIds l →
      (let i := ((dispList s l).takeWhile
          (fun d => decide (d < dispFrom s p.rid))).length
       if i = l.length then
         (if l.length < maxE then insertPeer maxE s l p = .ok (true, l ++ [p])
          else insertPeer maxE s l p = .ok (false, l))
       else
         insertPeer maxE s l p =
           .ok (true, if l.length + 1 > maxE
             then (l.take i ++ p :: l.drop i).dropLast
             else (l.take i ++ p :: l.drop i)))) ∧
    (∀ l pid, SuccListInv maxE s l → SuccListInv maxE s (deletePeer pid l)) ∧
    SuccListInv maxE s [] := by
  have hdup : ∀ l p, SuccListInv maxE s l → p.port ≠ 0 → p.rid ∈ peerIds l →
      insertPeer maxE s l p = .ok (false, l) := by
    intro l p hInv hport hmem
    rcases hInv with ⟨hlen, hkeys, hchain⟩
    rcases l with _ | ⟨e, rest⟩
    · simp [peerIds] at hmem
    have hrid : p.rid < keysInRing := by
      rcases List.mem_map.mp hmem with ⟨e', he', hEq⟩
      exact hEq ▸ hkeys e' he'
    have hscan := insertScan_eq s p.rid s (e :: rest) hs hrid hs hkeys hchain
      (fun e0 he0 => by rw [dispFrom_self s hs]; exact Nat.zero_le _)
      (by rw [dispFrom_self s hs]; exact Nat.zero_le _)
    rw [if_pos hmem] at hscan
    rw [insertPeer_nonempty maxE s e rest p hport, hscan]
  have hfresh : ∀ l p, SuccListInv maxE s l → p.port ≠ 0 → p.rid < keysInRing →
      p.rid ∉ peerIds l →
      (let i := ((dispList s l).takeWhile
          (fun d => decide (d < dispFrom s p.rid))).length
       if i = l.length then
         (if l.length < maxE then insertPeer maxE s l p = .ok (true, l ++ [p])
          else insertPeer maxE s l p = .ok (false, l))
       else
         insertPeer maxE s l p =
           .ok (true, if l.length + 1 > maxE
             then (l.take i ++ p :: l.drop i).dropLast
             else (l.take i ++ p :: l.drop i))) :=
    fun l p hInv hport hrid hnot =>
      insertPeer_positional maxE s hmax hs l p hInv hport hrid hnot
  refine ⟨?_, hdup, hfresh, ?_, ?_⟩
  · -- invariant preservation by Insert
    intro l p hInv hrid b l' hEq
    by_cases hport : p.port = 0
    · rw [insertPeer, if_pos hport] at hEq
      exact absurd hEq (by simp)
    by_cases hmem : p.rid ∈ peerIds l
    · rw [hdup l p hInv hport hmem] at hEq
      injection hEq with hEq'
      injection hEq' with h1 h2
      subst h2
      exact hInv
    · have hpos := hfresh l p hInv hport hrid hmem
      rcases hInv with ⟨hlen, hkeys, hchain⟩
      simp only at hpos
      set i := ((dispList s l).takeWhile
          (fun d => decide (d < dispFrom s p.rid))).length with hi
      have hilen : i ≤ l.length := by
        have h1 : i ≤ (dispList s l).length := (List.takeWhile_prefix _).length_le
        simpa [dispList] using h1
      have hndnotin : dispFrom s p.rid ∉ dispList s l := by
        intro hmem'
        rcases List.mem_map.mp hmem' with ⟨e, he, hEq'⟩
        have : e.rid = p.rid :=
          dispFrom_inj s e.rid p.rid (hkeys e he) hrid hs hEq'
        exact hmem (List.mem_map.mpr ⟨e, he, this⟩)
      by_cases hil : i = l.length
      · rw [if_pos hil] at hpos
        by_cases hroom : l.length < maxE
        · rw [if_pos hroom] at hpos
          rw [hpos] at hEq
          injection hEq with hEq'
          injection hEq' with h1 h2
          subst h2
          refine ⟨by simp; omega, ?_, ?_⟩
          · intro e he
            rcases List.mem_append.mp he with h | h
            · exact hkeys e h
            · simp at h
              subst h
              exact hrid
          · have hall : ∀ d ∈ dispList s l, d < dispFrom s p.rid := by
              intro d hd
              have := takeWhile_all_of_length_eq
                (fun d => decide (d < dispFrom s p.rid)) (dispList s l)
                (by rw [← hi, hil]; simp [dispList]) d hd
              simpa using this
            have heq2 : dispList s (l ++ [p]) = dispList s l ++ [dispFrom s p.rid] := by
              simp [dispList]
            rw [heq2]
            apply List.chain'_append.mpr
            refine ⟨hchain, List.chain'_singleton _, ?_⟩
            intro x hx y hy
            simp at hy
            subst hy
            exact hall x (List.mem_of_mem_getLast? hx)
        · rw [if_neg hroom] at hpos
          rw [hpos] at hEq
          injection hEq with hEq'
          injection hEq' with h1 h2
          subst h2
          exact ⟨hlen, hkeys, hchain⟩
      · rw [if_neg hil] at hpos
        rw [hpos] at hEq
        injection hEq with hEq'
        injection hEq' with h1 h2
        subst h2
        have hmid : dispList s (l.take i ++ p :: l.drop i) =
            (dispList s l).take i ++ dispFrom s p.rid :: (dispList s l).drop i := by
          simp [dispList, List.map_take, List.map_drop]
        have hchain1 : List.Chain' (· < ·)
            (dispList s (l.take i ++ p :: l.drop i)) := by
          rw [hmid, hi]
          have := chain'_insert_sorted (dispList s l) (dispFrom s p.rid) hchain hndnotin
          simpa [dispList] using this
        have hkeys1 : ∀ e ∈ l.take i ++ p :: l.drop i, e.rid < keysInRing := by
          intro e he
          rcases List.mem_append.mp he with h | h
          · exact hkeys e (List.mem_of_mem_take h)
          · rcases List.mem_cons.mp h with rfl | h
            · exact hrid
            · exact hkeys e (List.mem_of_mem_drop h)
        have hlen1 : (l.take i ++ p :: l.drop i).length = l.length + 1 := by
          simp only [List.length_append, List.length_take, List.length_cons,
            List.length_drop]
          omega
        by_cases hover : l.length + 1 > maxE
        · rw [if_pos hover]
          refine ⟨?_, ?_, ?_⟩
          · rw [List.length_dropLast, hlen1]
            omega
          · intro e he
            exact hkeys1 e ((List.dropLast_sublist _).mem he)
          · have heq3 : dispList s ((l.take i ++ p :: l.drop i).dropLast) =
                (dispList s (l.take i ++ p :: l.drop i)).dropLast := by
              simp [dispList, List.map_dropLast]
            rw [heq3]
            exact chain'_of_sublist hchain1 (List.dropLast_sublist _)
        · rw [if_neg hover]
          exact ⟨by omega, hkeys1, hchain1⟩
  · -- Delete preserves the invariant
    intro l pid hInv
    rcases hInv with ⟨hlen, hkeys, hchain⟩
    refine ⟨?_, ?_, ?_⟩
    · calc (deletePeer pid l).length ≤ l.length := (List.eraseP_sublist l).length_le
        _ ≤ maxE := hlen
    · intro e he
      exact hkeys e ((List.eraseP_sublist l).mem he)
    · have hsub : List.Sublist (dispList s (deletePeer pid l)) (dispList s l) := by
        unfold dispList deletePeer
        exact (List.eraseP_sublist l).map _
      exact chain'_of_sublist hchain hsub
  · -- Erase leaves the empty list, which satisfies the invariant
    exact ⟨by simp, by simp, by simp [dispList]⟩

/-- Witness for C6 at concrete inputs: inserting a duplicate id is ignored. -/
theorem c6_succ_list_amended_witness :
    insertPeer 3 0 [⟨5, 9⟩] ⟨5, 7⟩ = .ok (false, [⟨5, 9⟩]) :=
  (c6_succ_list_amended 3 0 (by norm_num) keysInRing_pos).2.1
    [⟨5, 9⟩] ⟨5, 7⟩
    ⟨by norm_num, by
      intro e he
      simp at he
      subst he
      norm_num [keysInRing], by simp [dispList]⟩
    (by norm_num) (by simp [peerIds])

/-! ### Claim C2: `DHashPeer::Create`

`DHashPeer::Create(key, DataBlock)` from the DHash peer source: get the `n`
successors of the key, error when fewer than `m`; store fragment `i` at
successor `i` (local db insert when the successor is the peer itself, else a
`CREATE_KEY` RPC counted only when alive and acknowledged); error after the
loop when fewer than `m` stores were counted.  The network is abstracted by
the oracles `alive` (is the i-th successor reachable) and `ack` (did its
`CREATE_KEY` return success); `GetNSuccessors`'s result is the input list. -/

/-- Error outcomes of `Create` (and of the calls it makes). -/
inductive CreateErr where
  | insufficientSuccs : CreateErr
  | tooFewAcks : CreateErr
  | localKeyExists : CreateErr
  | fragOob : CreateErr
deriving DecidableEq, Repr

/-- One store performed by the placement loop. -/
inductive StoreAction (F : Type) where
  | localStore (key : Nat) (f : F) : StoreAction F
  | remoteStore (peer : Nat) (f : F) : StoreAction F
deriving DecidableEq, Repr

/-- The storing loop of `Create`: walk the successor list with index `i`;
the peer itself gets a local `db_.Insert` (which throws when the key already
exists), a live remote peer gets a `CREATE_KEY` whose acknowledgement is
counted; `fragments_.at(i)` throws when out of range. -/
def createLoop {F : Type} (selfId key : Nat) (frags : List F)
    (alive ack : Nat → Bool) :
    Nat → List Nat → List (Nat × F) →
    (List (Nat × F) × List (StoreAction F) × Nat × Option CreateErr)
  | _, [], db => (db, [], 0, none)
  | i, sc :: rest, db =>
    if sc = selfId then
      match frags.get? i with
      | none => (db, [], 0, some .fragOob)
      | some f =>
        if key ∈ db.map Prod.fst then (db, [], 0, some .localKeyExists)
        else
          let r := createLoop selfId key frags alive ack (i + 1) rest ((key, f) :: db)
          (r.1, .localStore key f :: r.2.1, r.2.2.1 + 1, r.2.2.2)
    else if alive i then
      match frags.get? i with
      | none => (db, [], 0, some .fragOob)
      | some f =>
        if ack i then
          let r := createLoop selfId key frags alive ack (i + 1) rest db
          (r.1, .remoteStore sc f :: r.2.1, r.2.2.1 + 1, r.2.2.2)
        else
          createLoop selfId key frags alive ack (i + 1) rest db
    else
      createLoop selfId key frags alive ack (i + 1) rest db

/-- Outcome of one `Create` call: raised error (if any), final local db,
stores performed, acknowledgement count. -/
structure CreateOutcome (F : Type) where
  err : Option CreateErr
  db : List (Nat × F)
  actions : List (StoreAction F)
  acks : Nat
deriving DecidableEq, Repr

/-- `DHashPeer::Create(key, block)`: error before the loop when fewer than
`m` successors were found, else run the loop and error after it when fewer
than `m` stores were counted. -/
def dhashCreate {F : Type} (selfId key m : Nat) (frags : List F)
    (succs : List Nat) (alive ack : Nat → Bool) (db : List (Nat × F)) :
    CreateOutcome F :=
  if succs.length < m then ⟨some .insufficientSuccs, db, [], 0⟩
  else
    let r := createLoop selfId key frags alive ack 0 succs db
    match r.2.2.2 with
    | some e => ⟨some e, r.1, r.2.1, r.2.2.1⟩
    | none =>
      if r.2.2.1 < m then ⟨some .tooFewAcks, r.1, r.2.1, r.2.2.1⟩
      else ⟨none, r.1, r.2.1, r.2.2.1⟩

/-- Local inserts recorded in a list of store actions. -/
def localInserts {F : Type} (acts : List (StoreAction F)) : List (Nat × F) :=
  acts.filterMap fun a =>
    match a with
    | .localStore k f => some (k, f)
    | .remoteStore _ _ => none

/-- Closed form of the storing loop under the placement hypotheses. -/
theorem createLoop_eq {F : Type} (selfId key : Nat) (frags : List F)
    (alive ack : Nat → Bool) (succs : List Nat) (i0 : Nat) (db : List (Nat × F))
    (hguard : succs.countP (fun s => decide (s = selfId)) = 0 ∨
      key ∉ db.map Prod.fst)
    (hself : succs.countP (fun s => decide (s = selfId)) ≤ 1)
    (hoob : i0 + succs.length ≤ frags.length) :
    createLoop selfId key frags alive ack i0 succs db =
      (let acts := (List.range succs.length).filterMap (fun j =>
        match succs.get? j, frags.get? (i0 + j) with
        | some sc, some f =>
          if sc = selfId then some (StoreAction.localStore key f)
          else if alive (i0 + j) && ack (i0 + j) then
            some (StoreAction.remoteStore sc f)
          else none
        | _, _ => none);
       ((localInserts acts).reverse ++ db, acts, acts.length, none)) := by
  induction succs generalizing i0 db with
  | nil => simp [createLoop, localInserts]
  | cons sc rest ih =>
    have hfrag : ∃ f, frags.get? i0 = some f := by
      have : i0 < frags.length := by
        simp only [List.length_cons] at hoob
        omega
      exact ⟨frags.get ⟨i0, this⟩, List.get?_eq_get this⟩
    rcases hfrag with ⟨f, hf⟩
    have hcount : (sc :: rest).countP (fun s => decide (s = selfId)) =
        (if sc = selfId then 1 else 0) + rest.countP (fun s => decide (s = selfId)) := by
      rw [List.countP_cons]
      by_cases h : sc = selfId <;> simp [h, Nat.add_comm]
    have hacts : ∀ g : Nat → Option (StoreAction F),
        (List.range (rest.length + 1)).filterMap g =
          (match g 0 with
           | some a => a :: (List.range rest.length).filterMap (fun j => g (j + 1))
           | none => (List.range rest.length).filterMap (fun j => g (j + 1))) := by
      intro g
      rw [List.range_succ_eq_map, List.filterMap_cons, List.filterMap_map]
      cases g 0 <;> rfl
    by_cases hsc : sc = selfId
    · have hkey : key ∉ db.map Prod.fst := by
        rcases hguard with h | h
        · rw [hcount, if_pos hsc] at h
          omega
        · exact h
      have hrest0 : rest.countP (fun s => decide (s = selfId)) = 0 := by
        rw [hcount, if_pos hsc] at hself
        omega
      have hrec := ih (i0 + 1) ((key, f) :: db) (Or.inl hrest0)
        (by omega) (by simp only [List.length_cons] at hoob; omega)
      unfold createLoop
      rw [if_pos hsc, hf]
      simp only
      rw [if_neg hkey, hrec]
      simp only [List.length_cons]
      rw [hacts]
      have hcongr : ∀ j, (fun j =>
            match (sc :: rest).get? j, frags.get? (i0 + j) with
            | some sc', some f' =>
              if sc' = selfId then some (StoreAction.localStore key f')
              else if alive (i0 + j) && ack (i0 + j) then
                some (StoreAction.remoteStore sc' f')
              else none
            | _, _ => none) (j + 1) =
          (fun j =>
            match rest.get? j, frags.get? (i0 + 1 + j) with
            | some sc', some f' =>
              if sc' = selfId then some (StoreAction.localStore key f')
              else if alive (i0 + 1 + j) && ack (i0 + 1 + j) then
                some (StoreAction.remoteStore sc' f')
              else none
            | _, _ => none) j := by
        intro j
        simp only [List.get?_cons_succ]
        rw [show i0 + (j + 1) = i0 + 1 + j by omega]
      have hf2 : frags[i0]? = some f := by
        rw [← List.get?_eq_getElem?]
        exact hf
      rw [List.filterMap_congr (fun j _ => hcongr j)]
      simp [localInserts, List.filterMap_cons, hf, hf2, hsc]
    · have hguard' : rest.countP (fun s => decide (s = selfId)) = 0 ∨
          key ∉ db.map Prod.fst := by
        rcases hguard with h | h
        · left
          rw [hcount, if_neg hsc] at h
          omega
        · right
          exact h
      have hself' : rest.countP (fun s => decide (s = selfId)) ≤ 1 := by
        rw [hcount, if_neg hsc] at hself
        omega
      have hrec := ih (i0 + 1) db hguard' hself' (by simp only [List.length_cons] at hoob; omega)
      unfold createLoop
      rw [if_neg hsc]
      have hcongr : ∀ j, (fun j =>
            match (sc :: rest).get? j, frags.get? (i0 + j) with
            | some sc', some f' =>
              if sc' = selfId then some (StoreAction.localStore key f')
              else if alive (i0 + j) && ack (i0 + j) then
                some (StoreAction.remoteStore sc' f')
              else none
            | _, _ => none) (j + 1) =
          (fun j =>
            match rest.get? j, frags.get? (i0 + 1 + j) with
            | some sc', some f' =>
              if sc' = selfId then some (StoreAction.localStore key f')
              else if alive (i0 + 1 + j) && ack (i0 + 1 + j) then
                some (StoreAction.remoteStore sc' f')
              else none
            | _, _ => none) j := by
        intro j
        simp only [List.get?_cons_succ]
        rw [show i0 + (j + 1) = i0 + 1 + j by omega]
      by_cases hal : alive i0
      · rw [if_pos hal, hf]
        simp only
        by_cases hack : ack i0
        · rw [if_pos hack, hrec]
          simp only [List.length_cons]
          rw [hacts]
          have hf2 : frags[i0]? = some f := by
            rw [← List.get?_eq_getElem?]
            exact hf
          rw [List.filterMap_congr (fun j _ => hcongr j)]
          simp [localInserts, List.filterMap_cons, hf, hf2, hsc, hal, hack]
        · rw [if_neg hack, hrec]
          simp only [List.length_cons]
          rw [hacts]
          have hf2 : frags[i0]? = some f := by
            rw [← List.get?_eq_getElem?]
            exact hf
          rw [List.filterMap_congr (fun j _ => hcongr j)]
          simp [localInserts, List.filterMap_cons, hf, hf2, hsc, hal, hack]
      · rw [if_neg hal, hrec]
        simp only [List.length_cons]
        rw [hacts]
        have hf2 : frags[i0]? = some f := by
          rw [← List.get?_eq_getElem?]
          exact hf
        rw [List.filterMap_congr (fun j _ => hcongr j)]
        simp [localInserts, List.filterMap_cons, hf, hf2, hsc, hal]

/-- C2: `Create` stores the j-th fragment (0-indexed here, 1-indexed in the
spec) at the j-th successor of the key — a local db insert when that
successor is the peer itself, a counted remote store when it is alive and
acknowledges — errors with "insufficient succs" before the loop when fewer
than `m` successors were found, errors with "too few acks" after the loop
when fewer than `m` stores were counted, and otherwise returns normally. -/
theorem c2_dhash_create {F : Type} (selfId key m : Nat) (frags : List F)
    (succs : List Nat) (alive ack : Nat → Bool) (db : List (Nat × F))
    (hlen : succs.length ≤ frags.length)
    (hself : succs.countP (fun s => decide (s = selfId)) ≤ 1)
    (hkey : key ∉ db.map Prod.fst) :
    (succs.length < m →
      dhashCreate selfId key m frags succs alive ack db =
        ⟨some .insufficientSuccs, db, [], 0⟩) ∧
    (m ≤ succs.length →
      (let acts := (List.range succs.length).filterMap (fun j =>
          match succs.get? j, frags.get? j with
          | some sc, some f =>
            if sc = selfId then some (StoreAction.localStore key f)
            else if alive j && ack j then some (StoreAction.remoteStore sc f)
            else none
          | _, _ => none)
       (dhashCreate selfId key m frags succs alive ack db).actions = acts ∧
       (dhashCreate selfId key m frags succs alive ack db).acks = acts.length ∧
       (dhashCreate selfId key m frags succs alive ack db).db =
         (localInserts acts).reverse ++ db ∧
       (dhashCreate selfId key m frags succs alive ack db).err =
         (if acts.length < m then some .tooFewAcks else none))) := by
  constructor
  · intro h
    unfold dhashCreate
    rw [if_pos h]
  · intro h
    have hnl : ¬ succs.length < m := not_lt.mpr h
    have hloop := createLoop_eq selfId key frags alive ack succs 0 db
      (Or.inr hkey) hself (by omega)
    simp only [Nat.zero_add] at hloop
    unfold dhashCreate
    rw [if_neg hnl, hloop]
    dsimp only
    refine ⟨?_, ?_, ?_, ?_⟩ <;> split_ifs <;> rfl

/-- Witness for C2 at concrete inputs: a three-successor ring where the first
successor is the peer itself. -/
theorem c2_dhash_create_witness :
    (dhashCreate 1 10 2 [100, 200, 300] [1, 2, 3]
      (fun _ => true) (fun _ => true) ([] : List (Nat × Nat))).err = none ∧
    (dhashCreate 1 10 2 [100, 200, 300] [1, 2, 3]
      (fun _ => true) (fun _ => true) ([] : List (Nat × Nat))).actions =
      [.localStore 10 100, .remoteStore 2 200, .remoteStore 3 300] := by
  have h := (c2_dhash_create 1 10 2 [100, 200, 300] [1, 2, 3]
    (fun _ => true) (fun _ => true) [] (by norm_num) (by decide) (by simp)).2
    (by norm_num)
  simp only at h
  constructor
  · rw [h.2.2.2]
    decide
  · rw [h.1]
    decide

/-! ### Bucketed Merkle tree (`MerkleTree<ValType>` from merkle_tree.h)

Keys are `ChordKey = GenericKey<16, 32>` values, i.e. naturals below
`2^128`; `num_children_ = 8`; the root covers `[0, 16^32)`.  SHA-1 (used by
`Rehash` through `ChordKey(s, false)`) is modelled symbolically: a hash value
is either the zero sentinel, the hash of the concatenated hex strings of a
leaf's keys, or the hash of the concatenation of the children's hash
strings.  Equality of symbolic hashes entails equality of the real SHA-1
values, which is the direction every claim about hashes needs. -/

/-- Symbolic hash value. -/
inductive MHash where
  | zero : MHash
  | leafH (s : String) : MHash
  | nodeH (hs : List MHash) : MHash

/-- Is this the zero sentinel (`ChordKey(0)`)? -/
def MHash.isZero : MHash → Bool
  | .zero => true
  | _ => false

/-- `IntToHexStr`: lowercase hex string of a value, no leading zeros. -/
def hexStr (n : Nat) : String := String.mk (Nat.toDigits 16 n)

/-- The Merkle tree node: key range `[minK, maxK)`, position from the root,
stored hash, children (empty at leaves), leaf data (ordered map as a sorted
association list), and the cached largest key of the subtree. -/
inductive MTree (V : Type) where
  | node (minK maxK : Nat) (pos : List Nat) (hash : MHash)
      (children : List (MTree V)) (data : List (Nat × V))
      (largest : Option Nat) : MTree V

namespace MTree

variable {V W : Type}

def minKeyv : MTree V → Nat
  | .node mn _ _ _ _ _ _ => mn

def maxKeyv : MTree V → Nat
  | .node _ mx _ _ _ _ _ => mx

def posv : MTree V → List Nat
  | .node _ _ p _ _ _ _ => p

def hashv : MTree V → MHash
  | .node _ _ _ h _ _ _ => h

def childrenv : MTree V → List (MTree V)
  | .node _ _ _ _ cs _ _ => cs

def datav : MTree V → List (Nat × V)
  | .node _ _ _ _ _ d _ => d

def largestv : MTree V → Option Nat
  | .node _ _ _ _ _ _ lg => lg

/-- Concatenation of the hex strings of the data keys (leaf `Rehash`). -/
def hashStrOfKeys (d : List (Nat × V)) : String :=
  String.join (d.map fun kv => hexStr kv.1)

/-- `MerkleTree::Rehash`: recompute this node's hash from its children (or
its data when it is a leaf).  An internal node whose eight children all hash
to the zero sentinel (concatenated hash strings `"00000000"`) is zero. -/
def rehashVal (cs : List (MTree V)) (d : List (Nat × V)) : MHash :=
  if cs.isEmpty then
    if d.isEmpty then .zero else .leafH (hashStrOfKeys d)
  else
    let hs := cs.map hashv
    if hs.length = 8 ∧ hs.all MHash.isZero then .zero else .nodeH hs

/-- Replace this node's stored hash by the recomputed one. -/
def rehash : MTree V → MTree V
  | .node mn mx pos _ cs d lg => .node mn mx pos (rehashVal cs d) cs d lg

/-- `MerkleTree::ChildNum`: clamp to the last/first child outside the range,
else extract the three ID bits just below this node's depth.  (`x &&& 7` in
the source via `& (num_children_ - 1)`; `128` is `ChordKey::BinaryLen()`.) -/
def childNumF (mn mx depth k : Nat) : Nat :=
  if k ≥ mx then 7
  else if k < mn then 0
  else (k >>> (128 - 3 * (depth + 1))) &&& 7

/-- Ordered-map insertion into leaf data (`std::map::insert`; the key is
checked absent before any call). -/
def insData (k : Nat) (v : V) : List (Nat × V) → List (Nat × V)
  | [] => [(k, v)]
  | (k', v') :: rest =>
    if k < k' then (k, v) :: (k', v') :: rest else (k', v') :: insData k v rest

/-- The loop of `CreateChildren`: for each of the eight equal subranges, the
child takes the maximal prefix of the (ordered) data whose keys satisfy
`InBetween(last_key, ub - 1, true)`; entries matching no child remain
behind. -/
def buildKids (step : Nat) (pos : List Nat) :
    Nat → Nat → Nat → List (Nat × V) → (List (MTree V) × List (Nat × V))
  | 0, _, _, data => ([], data)
  | r + 1, i, lastK, data =>
    let ub := lastK + step
    let p := fun kv : Nat × V => inBetween kv.1 lastK (ub - 1) true
    let taken := data.takeWhile p
    let rest := data.dropWhile p
    let child : MTree V := .node lastK ub (pos ++ [i]) (rehashVal [] taken) [] taken none
    let r' := buildKids step pos r (i + 1) ub rest
    (child :: r'.1, r'.2)

/-- `MerkleTree::CreateChildren` (also `ToInternal`): subdivide the range in
eight, distribute the data, rehash each child.  Children carry no largest-key
cache. -/
def createChildren (mn mx : Nat) (pos : List Nat) (data : List (Nat × V)) :
    (List (MTree V) × List (Nat × V)) :=
  buildKids ((mx - mn) / 8) pos 8 0 mn data

/-- `MerkleTree::Insert`, with the in-place mutation semantics made explicit:
returns the post-state of the tree and whether the key-already-exists error
was raised.  The largest-key cache update precedes the leaf check, so it
survives a throw; `Rehash` runs only on success.  (`children.at(i)` out of
range, impossible on well-formed trees, is reported as an error.) -/
def insertEx : MTree V → Nat → V → MTree V × Bool
  | .node mn mx pos h cs d lg, k, v =>
    let lg' : Option Nat :=
      match lg with
      | some l => if k > l then some k else some l
      | none => some k
    if cs.isEmpty then
      if d.any (fun kv => decide (kv.1 = k)) then
        (.node mn mx pos h cs d lg', true)
      else
        let d' := insData k v d
        if d'.length > 8 then
          let pr := createChildren mn mx pos d'
          (rehash (.node mn mx pos h pr.1 pr.2 lg'), false)
        else
          (rehash (.node mn mx pos h cs d' lg'), false)
    else
      match hc : cs.get? (childNumF mn mx pos.length k) with
      | none => (.node mn mx pos h cs d lg', true)
      | some c =>
        let r := insertEx c k v
        let cs' := cs.set (childNumF mn mx pos.length k) r.1
        if r.2 then (.node mn mx pos h cs' d lg', true)
        else (rehash (.node mn mx pos h cs' d lg'), false)
termination_by t _ _ => sizeOf t
decreasing_by
  have hmem : c ∈ cs := List.get?_mem hc
  have hsz := List.sizeOf_lt_of_mem hmem
  simp only [node.sizeOf_spec]
  omega

/-- `MerkleTree::Lookup`. -/
def lookup : MTree V → Nat → Except Unit V
  | .node mn mx pos _ cs d _, k =>
    if cs.isEmpty then
      match d.find? (fun kv => decide (kv.1 = k)) with
      | some kv => .ok kv.2
      | none => .error ()
    else
      match hc : cs.get? (childNumF mn mx pos.length k) with
      | none => .error ()
      | some c => lookup c k
termination_by t _ => sizeOf t
decreasing_by
  have hmem : c ∈ cs := List.get?_mem hc
  have hsz := List.sizeOf_lt_of_mem hmem
  simp only [node.sizeOf_spec]
  omega

/-- `MerkleTree::Contains`. -/
def containsKey : MTree V → Nat → Bool
  | .node mn mx pos _ cs d _, k =>
    if cs.isEmpty then d.any (fun kv => decide (kv.1 = k))
    else
      match hc : cs.get? (childNumF mn mx pos.length k) with
      | none => false
      | some c => containsKey c k
termination_by t _ => sizeOf t
decreasing_by
  have hmem : c ∈ cs := List.get?_mem hc
  have hsz := List.sizeOf_lt_of_mem hmem
  simp only [node.sizeOf_spec]
  omega

/-- `MerkleTree::Delete`: erase at the leaf (error before any mutation when
the key is absent), rehash on the way up, and recompute the largest-key
cache from `GetLargestEntry` at each internal node on the path. -/
def getLargestEntry : MTree V → Option (Nat × V)
  | .node _ _ _ h cs d _ =>
    if h.isZero then none
    else if cs.isEmpty then d.getLast?
    else cs.reverse.attach.findSome? (fun c => getLargestEntry c.1)
termination_by t => sizeOf t
decreasing_by
  have hmem := (List.mem_reverse).mp c.2
  have hsz := List.sizeOf_lt_of_mem hmem
  simp only [node.sizeOf_spec]
  omega

def deleteEx : MTree V → Nat → MTree V × Bool
  | .node mn mx pos h cs d lg, k =>
    if cs.isEmpty then
      if d.any (fun kv => decide (kv.1 = k)) then
        (rehash (.node mn mx pos h cs (d.eraseP (fun kv => decide (kv.1 = k))) lg), false)
      else (.node mn mx pos h cs d lg, true)
    else
      match hc : cs.get? (childNumF mn mx pos.length k) with
      | none => (.node mn mx pos h cs d lg, true)
      | some c =>
        let r := deleteEx c k
        if r.2 then (.node mn mx pos h cs d lg, true)
        else
          let t1 := rehash (.node mn mx pos h (cs.set (childNumF mn mx pos.length k) r.1) d lg)
          match t1 with
          | .node mn1 mx1 pos1 h1 cs1 d1 _ =>
            match getLargestEntry (.node mn1 mx1 pos1 h1 cs1 d1 lg) with
            | some kv => (.node mn1 mx1 pos1 h1 cs1 d1 (some kv.1), false)
            | none => (.node mn1 mx1 pos1 h1 cs1 d1 none, false)
termination_by t _ => sizeOf t
decreasing_by
  have hmem : c ∈ cs := List.get?_mem hc
  have hsz := List.sizeOf_lt_of_mem hmem
  simp only [node.sizeOf_spec]
  omega

/-- `MerkleTree::Update`: replace the value at the leaf, error when the key
is absent, rehash the path. -/
def updateEx : MTree V → Nat → V → MTree V × Bool
  | .node mn mx pos h cs d lg, k, v =>
    if cs.isEmpty then
      if d.any (fun kv => decide (kv.1 = k)) then
        (rehash (.node mn mx pos h cs
          (d.map fun kv => if kv.1 = k then (k, v) else kv) lg), false)
      else (.node mn mx pos h cs d lg, true)
    else
      match hc : cs.get? (childNumF mn mx pos.length k) with
      | none => (.node mn mx pos h cs d lg, true)
      | some c =>
        let r := updateEx c k v
        if r.2 then (.node mn mx pos h cs d lg, true)
        else (rehash (.node mn mx pos h (cs.set (childNumF mn mx pos.length k) r.1) d lg), false)
termination_by t _ _ => sizeOf t
decreasing_by
  have hmem : c ∈ cs := List.get?_mem hc
  have hsz := List.sizeOf_lt_of_mem hmem
  simp only [node.sizeOf_spec]
  omega

/-- `MerkleTree::GetEntries` (children of a well-formed node cover disjoint
ascending ranges, so concatenation equals the accumulated map). -/
def entries : MTree V → List (Nat × V)
  | .node _ _ _ h cs d _ =>
    if h.isZero then []
    else if cs.isEmpty then d
    else (cs.attach.map (fun c => entries c.1)).flatten
termination_by t => sizeOf t
decreasing_by
  have hsz := List.sizeOf_lt_of_mem c.2
  simp only [node.sizeOf_spec]
  omega

/-- `MerkleTree::GetSmallestEntry`. -/
def getSmallestEntry : MTree V → Option (Nat × V)
  | .node _ _ _ h cs d _ =>
    if h.isZero then none
    else if cs.isEmpty then d.head?
    else cs.attach.findSome? (fun c => getSmallestEntry c.1)
termination_by t => sizeOf t
decreasing_by
  have hsz := List.sizeOf_lt_of_mem c.2
  simp only [node.sizeOf_spec]
  omega

/-- `MerkleTree::Next`: for keys at or beyond the cached largest key the
ROOT wraps around to the smallest entry (`key >= largest_key_` compares the
optional, an empty optional comparing below every key); a leaf scans for the
first larger key; an internal node tries the child covering the key and then
its right siblings. -/
def next : MTree V → Nat → Option (Nat × V)
  | .node mn mx pos h cs d lg, k =>
    if h.isZero then none
    else if (match lg with | none => true | some l => decide (k ≥ l)) && pos.isEmpty then
      getSmallestEntry (.node mn mx pos h cs d lg)
    else if cs.isEmpty then d.find? (fun kv => decide (kv.1 > k))
    else (cs.attach.drop (childNumF mn mx pos.length k)).findSome?
      (fun c => next c.1 k)
termination_by t _ => sizeOf t
decreasing_by
  have hmem : c.1 ∈ cs := by
    have := c.2
    exact this
  have hsz := List.sizeOf_lt_of_mem hmem
  simp only [node.sizeOf_spec]
  omega

/-- `MerkleTree::LookupByPosition`. -/
def byPos : MTree V → List Nat → Option (MTree V)
  | t, [] => some t
  | .node _ _ _ _ cs _ _, dir :: rest =>
    if cs.isEmpty then none
    else
      match hc : cs.get? dir with
      | none => none
      | some c => if rest.isEmpty then some c else byPos c rest
termination_by t _ => sizeOf t
decreasing_by
  have hmem : c ∈ cs := List.get?_mem hc
  have hsz := List.sizeOf_lt_of_mem hmem
  simp only [node.sizeOf_spec]
  omega

/-- Strip every largest-key cache (used to state that a failed insert
changes nothing else). -/
def eraseLargest : MTree V → MTree V
  | .node mn mx pos h cs d _ =>
    .node mn mx pos h (cs.attach.map fun c => eraseLargest c.1) d none
termination_by t => sizeOf t
decreasing_by
  have hsz := List.sizeOf_lt_of_mem c.2
  simp only [node.sizeOf_spec]
  omega

/-- Constructor 1 of `MerkleTree`: the root covers the whole keyspace and is
subdivided immediately (`CreateChildren` on no data); its own hash is the
default `ChordKey()`, i.e. zero. -/
def emptyTree : MTree V :=
  .node 0 (16 ^ 32) [] .zero (createChildren 0 (16 ^ 32) [] ([] : List (Nat × V))).1 [] none

end MTree

namespace MTree

variable {V W : Type}

/-- Well-formedness of reachable trees: ranges are the aligned power-of-two
subdivisions determined by the position, leaf data is sorted within range,
internal nodes have exactly eight children in subdivision order, and the
stored hash is the recomputed one.  The largest-key cache is unconstrained
(splits create children with data but no cache). -/
inductive WF : MTree V → Prop where
  | leaf : ∀ (mn : Nat) (pos : List Nat) (h : MHash) (d : List (Nat × V))
      (lg : Option Nat),
      pos.length ≤ 42 →
      mn % 2 ^ (128 - 3 * pos.length) = 0 →
      mn + 2 ^ (128 - 3 * pos.length) ≤ 2 ^ 128 →
      List.Chain' (fun a b => a.1 < b.1) d →
      (∀ kv ∈ d, mn ≤ kv.1 ∧ kv.1 < mn + 2 ^ (128 - 3 * pos.length)) →
      h = rehashVal [] d →
      WF (.node mn (mn + 2 ^ (128 - 3 * pos.length)) pos h [] d lg)
  | internal : ∀ (mn : Nat) (pos : List Nat) (h : MHash)
      (cs : List (MTree V)) (lg : Option Nat),
      pos.length ≤ 41 →
      mn % 2 ^ (128 - 3 * pos.length) = 0 →
      mn + 2 ^ (128 - 3 * pos.length) ≤ 2 ^ 128 →
      cs.length = 8 →
      (∀ i, ∀ hi : i < cs.length,
        minKeyv (cs.get ⟨i, hi⟩) = mn + i * 2 ^ (128 - 3 * (pos.length + 1)) ∧
        maxKeyv (cs.get ⟨i, hi⟩) = mn + (i + 1) * 2 ^ (128 - 3 * (pos.length + 1)) ∧
        posv (cs.get ⟨i, hi⟩) = pos ++ [i]) →
      (∀ c ∈ cs, WF c) →
      h = rehashVal cs ([] : List (Nat × V)) →
      WF (.node mn (mn + 2 ^ (128 - 3 * pos.length)) pos h cs [] lg)

/-- Power bookkeeping: one subdivision step splits the range in eight. -/
theorem pow_step (dep : Nat) (hd : dep ≤ 41) :
    2 ^ (128 - 3 * dep) = 8 * 2 ^ (128 - 3 * (dep + 1)) := by
  have h1 : 128 - 3 * dep = (128 - 3 * (dep + 1)) + 3 := by omega
  rw [h1, pow_add]
  ring

/-- `ChildNum` on an in-range key of a well-formed internal node returns the
index of the subrange containing the key. -/
theorem childNumF_eq (mn dep k : Nat) (hd : dep ≤ 41)
    (halign : mn % 2 ^ (128 - 3 * dep) = 0)
    (hk1 : mn ≤ k) (hk2 : k < mn + 2 ^ (128 - 3 * dep)) :
    childNumF mn (mn + 2 ^ (128 - 3 * dep)) dep k =
      (k - mn) / 2 ^ (128 - 3 * (dep + 1)) ∧
    (k - mn) / 2 ^ (128 - 3 * (dep + 1)) < 8 := by
  set s : Nat := 128 - 3 * (dep + 1) with hs
  have hstep : 2 ^ (128 - 3 * dep) = 8 * 2 ^ s := pow_step dep hd
  have hspos : 0 < 2 ^ s := Nat.pos_pow_of_pos s (by norm_num)
  have hlt8 : (k - mn) / 2 ^ s < 8 := by
    apply Nat.div_lt_of_lt_mul
    omega
  refine ⟨?_, hlt8⟩
  unfold childNumF
  rw [if_neg (by omega), if_neg (by omega)]
  have hshift : k >>> s = k / 2 ^ s := Nat.shiftRight_eq_div_pow k s
  have hand : (k / 2 ^ s) &&& 7 = (k / 2 ^ s) % 8 := by
    have := Nat.and_pow_two_sub_one_eq_mod (k / 2 ^ s) 3
    norm_num at this
    exact this
  have h3 : 3 * (dep + 1) ≤ 128 := by omega
  have hsdef : 128 - 3 * (dep + 1) = s := rfl
  rw [hsdef, hshift, hand]
  -- mn is aligned to the parent range, hence to 8 * 2^s
  rcases Nat.dvd_of_mod_eq_zero halign with ⟨A, hA⟩
  have hmn2 : mn = (A * 8) * 2 ^ s := by
    rw [hA, hstep]
    ring
  have hkdiv : k / 2 ^ s = A * 8 + (k - mn) / 2 ^ s := by
    conv_lhs => rw [show k = (A * 8) * 2 ^ s + (k - mn) by omega]
    rw [Nat.add_comm, Nat.add_mul_div_right _ _ hspos, Nat.add_comm]
  rw [hkdiv]
  rw [show A * 8 + (k - mn) / 2 ^ s = (k - mn) / 2 ^ s + 8 * A by ring]
  rw [Nat.add_mul_mod_self_left, Nat.mod_eq_of_lt hlt8]

/-- Equation lemma for `eraseLargest` free of `attach`. -/
theorem eraseLargest_node (mn mx : Nat) (pos : List Nat) (h : MHash)
    (cs : List (MTree V)) (d : List (Nat × V)) (lg : Option Nat) :
    eraseLargest (.node mn mx pos h cs d lg) =
      .node mn mx pos h (cs.map eraseLargest) d none := by
  rw [eraseLargest]
  rw [List.attach_map_val cs eraseLargest]

/-- Equation lemma for `entries` free of `attach`. -/
theorem entries_node (mn mx : Nat) (pos : List Nat) (h : MHash)
    (cs : List (MTree V)) (d : List (Nat × V)) (lg : Option Nat) :
    entries (.node mn mx pos h cs d lg) =
      (if h.isZero then []
       else if cs.isEmpty then d
       else (cs.map entries).flatten) := by
  rw [entries]
  rw [List.attach_map_val cs entries]

theorem findSome?_subtype {α β : Type _} {l : List α}
    (L : List {x // x ∈ l}) (f : α → Option β) :
    L.findSome? (fun c => f c.1) = (L.map Subtype.val).findSome? f := by
  induction L with
  | nil => rfl
  | cons a t ih =>
    rw [List.map_cons, List.findSome?_cons, List.findSome?_cons]
    cases f a.1 <;> simp [ih]

theorem attach_map_subval {α : Type _} (l : List α) :
    l.attach.map Subtype.val = l := by
  have h := List.attach_map_val l (fun x => x)
  simpa using h

/-- Equation lemma for `getSmallestEntry` free of `attach`. -/
theorem getSmallestEntry_node (mn mx : Nat) (pos : List Nat) (h : MHash)
    (cs : List (MTree V)) (d : List (Nat × V)) (lg : Option Nat) :
    getSmallestEntry (.node mn mx pos h cs d lg) =
      (if h.isZero then none
       else if cs.isEmpty then d.head?
       else cs.findSome? getSmallestEntry) := by
  rw [getSmallestEntry, findSome?_subtype cs.attach getSmallestEntry,
    attach_map_subval]

/-- Equation lemma for `next` free of `attach`. -/
theorem next_node (mn mx : Nat) (pos : List Nat) (h : MHash)
    (cs : List (MTree V)) (d : List (Nat × V)) (lg : Option Nat) (k : Nat) :
    next (.node mn mx pos h cs d lg) k =
      (if h.isZero then none
       else if (match lg with | none => true | some l => decide (k ≥ l)) && pos.isEmpty then
         getSmallestEntry (.node mn mx pos h cs d lg)
       else if cs.isEmpty then d.find? (fun kv => decide (kv.1 > k))
       else ((cs.drop (childNumF mn mx pos.length k)).findSome? (fun c => next c k))) := by
  rw [next.eq_def]
  dsimp only
  rw [findSome?_subtype (cs.attach.drop (childNumF mn mx pos.length k))
    (fun c => next c k)]
  rw [List.map_drop, attach_map_subval]

/-! #### Small list lemmas for leaf data -/

theorem insData_length (k : Nat) (v : V) (d : List (Nat × V)) :
    (insData k v d).length = d.length + 1 := by
  induction d with
  | nil => rfl
  | cons kv rest ih =>
    rcases kv with ⟨k', v'⟩
    rw [insData]
    split_ifs <;> simp [ih]

theorem insData_mem (k : Nat) (v : V) (d : List (Nat × V)) (kv : Nat × V)
    (h : kv ∈ insData k v d) : kv = (k, v) ∨ kv ∈ d := by
  induction d with
  | nil => simpa [insData] using h
  | cons kv' rest ih =>
    rcases kv' with ⟨k', v'⟩
    rw [insData] at h
    split_ifs at h with hlt
    · simp only [List.mem_cons] at h ⊢
      tauto
    · simp only [List.mem_cons] at h ⊢
      rcases h with h | h
      · tauto
      · rcases ih h with h2 | h2 <;> tauto

theorem mem_insData_self (k : Nat) (v : V) (d : List (Nat × V)) :
    (k, v) ∈ insData k v d := by
  induction d with
  | nil => simp [insData]
  | cons kv rest ih =>
    rcases kv with ⟨k', v'⟩
    rw [insData]
    split_ifs with hlt
    · simp
    · simp [ih]

theorem insData_sorted (k : Nat) (v : V) (d : List (Nat × V))
    (hs : List.Chain' (fun a b : Nat × V => a.1 < b.1) d)
    (hnot : d.all (fun kv => decide (kv.1 ≠ k))) :
    List.Chain' (fun a b : Nat × V => a.1 < b.1) (insData k v d) := by
  induction d with
  | nil => simp [insData]
  | cons kv rest ih =>
    rcases kv with ⟨k', v'⟩
    have hk' : k' ≠ k := by
      have := hnot
      simp [List.all_cons] at this
      exact this.1
    rw [insData]
    have hrest := (List.chain'_cons'.mp hs).2
    have hhead := (List.chain'_cons'.mp hs).1
    split_ifs with hlt
    · apply List.chain'_cons'.mpr
      exact ⟨by simp [hlt], hs⟩
    · apply List.chain'_cons'.mpr
      refine ⟨?_, ih hrest (by simp [List.all_cons] at hnot ⊢; exact hnot.2)⟩
      intro y hy
      rcases rest with _ | ⟨kv2, rest2⟩
      · simp [insData] at hy
        subst hy
        omega
      · rcases kv2 with ⟨k2, v2⟩
        rw [insData] at hy
        split_ifs at hy with hlt2
        · simp at hy
          subst hy
          omega
        · simp at hy
          subst hy
          exact hhead (k2, v2) rfl

theorem find?_of_mem_unique {α : Type} (p : α → Bool) (l : List α) (x : α)
    (hmem : x ∈ l) (hx : p x = true)
    (huniq : ∀ y ∈ l, p y = true → y = x) :
    l.find? p = some x := by
  induction l with
  | nil => simp at hmem
  | cons a t ih =>
    by_cases ha : p a
    · have : a = x := huniq a (by simp) ha
      subst this
      simp [List.find?_cons, ha]
    · have ha' : p a = false := by simpa using ha
      simp only [List.find?_cons, ha']
      rcases List.mem_cons.mp hmem with rfl | hmem'
      · rw [hx] at ha'
        simp at ha'
      · exact ih hmem' (fun y hy hp => huniq y (by simp [hy]) hp)

theorem find?_eq_none_of_all {α : Type} (p : α → Bool) (l : List α)
    (h : ∀ y ∈ l, p y = false) : l.find? p = none := by
  induction l with
  | nil => rfl
  | cons a t ih =>
    rw [List.find?_cons]
    have := h a (by simp)
    simp only [this]
    exact ih (fun y hy => h y (by simp [hy]))

/-- A strictly increasing list of naturals inside `[lo, lo + R)` has at most
`R` elements. -/
theorem chain_length_le (l : List Nat) (lo R : Nat)
    (hs : List.Chain' (· < ·) l) (hr : ∀ x ∈ l, lo ≤ x ∧ x < lo + R) :
    l.length ≤ R := by
  induction l generalizing lo R with
  | nil => simp
  | cons a t ih =>
    have hpw := List.chain'_iff_pairwise.mp hs
    have hta : ∀ x ∈ t, a < x := (List.pairwise_cons.mp hpw).1
    have hts : List.Chain' (· < ·) t :=
      List.chain'_iff_pairwise.mpr (List.pairwise_cons.mp hpw).2
    have ha := hr a (by simp)
    have hR : 1 ≤ R := by omega
    have := ih (a + 1) (lo + R - (a + 1)) hts (by
      intro x hx
      have h1 := hta x hx
      have h2 := hr x (by simp [hx])
      omega)
    simp only [List.length_cons]
    omega

theorem chain_fst_all_gt (a : Nat × V) (t : List (Nat × V))
    (hs : List.Chain' (fun x y : Nat × V => x.1 < y.1) (a :: t)) :
    ∀ x ∈ t, a.1 < x.1 := by
  induction t generalizing a with
  | nil => simp
  | cons b t2 ih =>
    intro x hx
    have h1 : a.1 < b.1 := (List.chain'_cons.mp hs).1
    have h2 := (List.chain'_cons.mp hs).2
    rcases List.mem_cons.mp hx with rfl | hx2
    · exact h1
    · exact lt_trans h1 (ih b h2 x hx2)

theorem eraseP_not_contains (k : Nat) (d : List (Nat × V))
    (hs : List.Chain' (fun a b : Nat × V => a.1 < b.1) d) :
    (d.eraseP (fun kv => decide (kv.1 = k))).all (fun kv => decide (kv.1 ≠ k)) := by
  induction d with
  | nil => rfl
  | cons kv rest ih =>
    rcases kv with ⟨k', v'⟩
    have hta := chain_fst_all_gt (k', v') rest hs
    have hts : List.Chain' (fun a b : Nat × V => a.1 < b.1) rest :=
      (List.chain'_cons'.mp hs).2
    by_cases hk : k' = k
    · have hd : (decide (((k', v') : Nat × V).1 = k)) = true := by simp [hk]
      simp only [List.eraseP_cons, hd, cond_true]
      simp only [List.all_eq_true]
      intro kv2 hkv2
      have := hta kv2 hkv2
      simp only [decide_eq_true_eq]
      omega
    · have hd : (decide (((k', v') : Nat × V).1 = k)) = false := by simp [hk]
      simp only [List.eraseP_cons, hd, cond_false, List.all_cons]
      rw [Bool.and_eq_true]
      exact ⟨by simp [hk], ih hts⟩

/-! #### Unfolding lemmas for the tree operations -/

/-- The largest-key cache update performed at the top of `Insert`. -/
def updLg (lg : Option Nat) (k : Nat) : Option Nat :=
  match lg with
  | some l => if k > l then some k else some l
  | none => some k

theorem lookup_leaf (mn mx : Nat) (pos : List Nat) (h : MHash)
    (d : List (Nat × V)) (lg : Option Nat) (k : Nat) :
    lookup (.node mn mx pos h [] d lg) k =
      (match d.find? (fun kv => decide (kv.1 = k)) with
       | some kv => .ok kv.2
       | none => .error ()) := by
  rw [lookup.eq_def]
  simp only [List.isEmpty_nil, if_true]

theorem lookup_internal (mn mx : Nat) (pos : List Nat) (h : MHash)
    (cs : List (MTree V)) (d : List (Nat × V)) (lg : Option Nat) (k : Nat)
    (c : MTree V) (hemp : cs.isEmpty = false)
    (hget : cs.get? (childNumF mn mx pos.length k) = some c) :
    lookup (.node mn mx pos h cs d lg) k = lookup c k := by
  rw [lookup.eq_def]
  simp only [hemp, Bool.false_eq_true, if_false]
  split
  · rename_i heq
    rw [hget] at heq
    simp at heq
  · rename_i c' heq
    rw [hget] at heq
    injection heq with heq
    rw [heq]

theorem containsKey_leaf (mn mx : Nat) (pos : List Nat) (h : MHash)
    (d : List (Nat × V)) (lg : Option Nat) (k : Nat) :
    containsKey (.node mn mx pos h [] d lg) k =
      d.any (fun kv => decide (kv.1 = k)) := by
  rw [containsKey.eq_def]
  simp only [List.isEmpty_nil, if_true]

theorem containsKey_internal (mn mx : Nat) (pos : List Nat) (h : MHash)
    (cs : List (MTree V)) (d : List (Nat × V)) (lg : Option Nat) (k : Nat)
    (c : MTree V) (hemp : cs.isEmpty = false)
    (hget : cs.get? (childNumF mn mx pos.length k) = some c) :
    containsKey (.node mn mx pos h cs d lg) k = containsKey c k := by
  rw [containsKey.eq_def]
  simp only [hemp, Bool.false_eq_true, if_false]
  split
  · rename_i heq
    rw [hget] at heq
    simp at heq
  · rename_i c' heq
    rw [hget] at heq
    injection heq with heq
    rw [heq]

theorem insertEx_leaf_dup (mn mx : Nat) (pos : List Nat) (h : MHash)
    (d : List (Nat × V)) (lg : Option Nat) (k : Nat) (v : V)
    (hdup : d.any (fun kv => decide (kv.1 = k)) = true) :
    insertEx (.node mn mx pos h [] d lg) k v =
      (.node mn mx pos h [] d (updLg lg k), true) := by
  cases lg <;>
    (rw [insertEx.eq_def]
     simp only [List.isEmpty_nil, if_true, hdup, updLg])

theorem insertEx_leaf_fresh_small (mn mx : Nat) (pos : List Nat) (h : MHash)
    (d : List (Nat × V)) (lg : Option Nat) (k : Nat) (v : V)
    (hdup : d.any (fun kv => decide (kv.1 = k)) = false)
    (hlen : ¬ (insData k v d).length > 8) :
    insertEx (.node mn mx pos h [] d lg) k v =
      (.node mn mx pos (rehashVal [] (insData k v d)) [] (insData k v d)
        (updLg lg k), false) := by
  cases lg <;>
    (rw [insertEx.eq_def]
     simp only [List.isEmpty_nil, if_true, hdup, Bool.false_eq_true, if_false,
       updLg]
     rw [if_neg hlen]
     rfl)

theorem insertEx_leaf_fresh_split (mn mx : Nat) (pos : List Nat) (h : MHash)
    (d : List (Nat × V)) (lg : Option Nat) (k : Nat) (v : V)
    (hdup : d.any (fun kv => decide (kv.1 = k)) = false)
    (hlen : (insData k v d).length > 8) :
    insertEx (.node mn mx pos h [] d lg) k v =
      (.node mn mx pos
        (rehashVal (createChildren mn mx pos (insData k v d)).1
          (createChildren mn mx pos (insData k v d)).2)
        (createChildren mn mx pos (insData k v d)).1
        (createChildren mn mx pos (insData k v d)).2
        (updLg lg k), false) := by
  cases lg <;>
    (rw [insertEx.eq_def]
     simp only [List.isEmpty_nil, if_true, hdup, Bool.false_eq_true, if_false,
       updLg]
     rw [if_pos hlen]
     rfl)

theorem insertEx_internal_err (mn mx : Nat) (pos : List Nat) (h : MHash)
    (cs : List (MTree V)) (d : List (Nat × V)) (lg : Option Nat) (k : Nat)
    (v : V) (c : MTree V) (hemp : cs.isEmpty = false)
    (hget : cs.get? (childNumF mn mx pos.length k) = some c)
    (herr : (insertEx c k v).2 = true) :
    insertEx (.node mn mx pos h cs d lg) k v =
      (.node mn mx pos h
        (cs.set (childNumF mn mx pos.length k) (insertEx c k v).1) d
        (updLg lg k), true) := by
  cases lg <;>
    (rw [insertEx.eq_def]
     simp only [hemp, Bool.false_eq_true, if_false, updLg]
     split
     · rename_i heq
       rw [hget] at heq
       simp at heq
     · rename_i c' heq
       rw [hget] at heq
       injection heq with heq
       subst heq
       simp only [herr, if_true])

theorem insertEx_internal_ok (mn mx : Nat) (pos : List Nat) (h : MHash)
    (cs : List (MTree V)) (d : List (Nat × V)) (lg : Option Nat) (k : Nat)
    (v : V) (c : MTree V) (hemp : cs.isEmpty = false)
    (hget : cs.get? (childNumF mn mx pos.length k) = some c)
    (hok : (insertEx c k v).2 = false) :
    insertEx (.node mn mx pos h cs d lg) k v =
      (.node mn mx pos
        (rehashVal (cs.set (childNumF mn mx pos.length k) (insertEx c k v).1) d)
        (cs.set (childNumF mn mx pos.length k) (insertEx c k v).1) d
        (updLg lg k), false) := by
  cases lg <;>
    (rw [insertEx.eq_def]
     simp only [hemp, Bool.false_eq_true, if_false, updLg]
     split
     · rename_i heq
       rw [hget] at heq
       simp at heq
     · rename_i c' heq
       rw [hget] at heq
       injection heq with heq
       subst heq
       simp only [hok, Bool.false_eq_true, if_false]
       rfl)

theorem deleteEx_leaf_present (mn mx : Nat) (pos : List Nat) (h : MHash)
    (d : List (Nat × V)) (lg : Option Nat) (k : Nat)
    (hdup : d.any (fun kv => decide (kv.1 = k)) = true) :
    deleteEx (.node mn mx pos h [] d lg) k =
      (.node mn mx pos (rehashVal [] (d.eraseP (fun kv => decide (kv.1 = k))))
        [] (d.eraseP (fun kv => decide (kv.1 = k))) lg, false) := by
  rw [deleteEx.eq_def]
  simp only [List.isEmpty_nil, if_true, hdup]
  rfl

theorem deleteEx_leaf_absent (mn mx : Nat) (pos : List Nat) (h : MHash)
    (d : List (Nat × V)) (lg : Option Nat) (k : Nat)
    (hdup : d.any (fun kv => decide (kv.1 = k)) = false) :
    deleteEx (.node mn mx pos h [] d lg) k =
      (.node mn mx pos h [] d lg, true) := by
  rw [deleteEx.eq_def]
  simp only [List.isEmpty_nil, if_true, hdup, Bool.false_eq_true, if_false]

theorem deleteEx_internal_err (mn mx : Nat) (pos : List Nat) (h : MHash)
    (cs : List (MTree V)) (d : List (Nat × V)) (lg : Option Nat) (k : Nat)
    (c : MTree V) (hemp : cs.isEmpty = false)
    (hget : cs.get? (childNumF mn mx pos.length k) = some c)
    (herr : (deleteEx c k).2 = true) :
    deleteEx (.node mn mx pos h cs d lg) k = (.node mn mx pos h cs d lg, true) := by
  rw [deleteEx.eq_def]
  simp only [hemp, Bool.false_eq_true, if_false]
  split
  · rfl
  · rename_i c' heq
    rw [hget] at heq
    injection heq with heq
    subst heq
    simp only [herr, if_true]

theorem deleteEx_internal_ok (mn mx : Nat) (pos : List Nat) (h : MHash)
    (cs : List (MTree V)) (d : List (Nat × V)) (lg : Option Nat) (k : Nat)
    (c : MTree V) (hemp : cs.isEmpty = false)
    (hget : cs.get? (childNumF mn mx pos.length k) = some c)
    (hok : (deleteEx c k).2 = false) :
    deleteEx (.node mn mx pos h cs d lg) k =
      (.node mn mx pos
        (rehashVal (cs.set (childNumF mn mx pos.length k) (deleteEx c k).1) d)
        (cs.set (childNumF mn mx pos.length k) (deleteEx c k).1) d
        (match getLargestEntry (.node mn mx pos
            (rehashVal (cs.set (childNumF mn mx pos.length k) (deleteEx c k).1) d)
            (cs.set (childNumF mn mx pos.length k) (deleteEx c k).1) d lg) with
         | some kv => some kv.1
         | none => none), false) := by
  rw [deleteEx.eq_def]
  simp only [hemp, Bool.false_eq_true, if_false]
  split
  · rename_i heq
    rw [hget] at heq
    simp at heq
  · rename_i c' heq
    rw [hget] at heq
    injection heq with heq
    subst heq
    simp only [hok, Bool.false_eq_true, if_false, rehash]
    cases hgl : getLargestEntry (.node mn mx pos
        (rehashVal (cs.set (childNumF mn mx pos.length k) (deleteEx c k).1) d)
        (cs.set (childNumF mn mx pos.length k) (deleteEx c k).1) d lg) with
    | none => simp only [hgl]
    | some kv => simp only [hgl]

theorem updateEx_leaf_absent (mn mx : Nat) (pos : List Nat) (h : MHash)
    (d : List (Nat × V)) (lg : Option Nat) (k : Nat) (v : V)
    (hdup : d.any (fun kv => decide (kv.1 = k)) = false) :
    updateEx (.node mn mx pos h [] d lg) k v =
      (.node mn mx pos h [] d lg, true) := by
  rw [updateEx.eq_def]
  simp only [List.isEmpty_nil, if_true, hdup, Bool.false_eq_true, if_false]

theorem updateEx_internal_none (mn mx : Nat) (pos : List Nat) (h : MHash)
    (cs : List (MTree V)) (d : List (Nat × V)) (lg : Option Nat) (k : Nat)
    (v : V) (hemp : cs.isEmpty = false)
    (hget : cs.get? (childNumF mn mx pos.length k) = none) :
    updateEx (.node mn mx pos h cs d lg) k v =
      (.node mn mx pos h cs d lg, true) := by
  rw [updateEx.eq_def]
  simp only [hemp, Bool.false_eq_true, if_false]
  split
  · rfl
  · rename_i c' heq
    rw [hget] at heq
    simp at heq

theorem updateEx_internal_err (mn mx : Nat) (pos : List Nat) (h : MHash)
    (cs : List (MTree V)) (d : List (Nat × V)) (lg : Option Nat) (k : Nat)
    (v : V) (c : MTree V) (hemp : cs.isEmpty = false)
    (hget : cs.get? (childNumF mn mx pos.length k) = some c)
    (herr : (updateEx c k v).2 = true) :
    updateEx (.node mn mx pos h cs d lg) k v =
      (.node mn mx pos h cs d lg, true) := by
  rw [updateEx.eq_def]
  simp only [hemp, Bool.false_eq_true, if_false]
  split
  · rfl
  · rename_i c' heq
    rw [hget] at heq
    injection heq with heq
    subst heq
    simp only [herr, if_true]

/-! #### The `CreateChildren` distribution -/

/-- On a subdivision subrange the child-membership predicate used by
`CreateChildren` is plain interval membership. -/
theorem inBetween_range (k lastK step : Nat) (hstep : 0 < step)
    (hub : lastK + step ≤ keysInRing) (hk : k < keysInRing) :
    inBetween k lastK (lastK + step - 1) true =
      decide (lastK ≤ k ∧ k < lastK + step) := by
  rw [inBetween_eq k lastK (lastK + step - 1) true hk (by omega) (by omega)]
  by_cases h1 : step = 1
  · rw [if_pos (by omega)]
    apply decide_eq_decide.mpr
    omega
  · rw [if_neg (by omega), if_pos (by omega), if_pos rfl]
    apply decide_eq_decide.mpr
    omega

theorem chain_fst_pairwise (l : List (Nat × V))
    (h : List.Chain' (fun a b : Nat × V => a.1 < b.1) l) :
    List.Pairwise (fun a b : Nat × V => a.1 < b.1) l := by
  induction l with
  | nil => exact List.Pairwise.nil
  | cons a t ih =>
    exact List.pairwise_cons.mpr
      ⟨chain_fst_all_gt a t h, ih (List.chain'_cons'.mp h).2⟩

theorem chain_fst_sublist (l l' : List (Nat × V))
    (h : List.Chain' (fun a b : Nat × V => a.1 < b.1) l)
    (hs : List.Sublist l' l) :
    List.Chain' (fun a b : Nat × V => a.1 < b.1) l' :=
  ((chain_fst_pairwise l h).sublist hs).chain'

/-- Full description of the `CreateChildren` loop on sorted in-range data:
no data is left behind, `r` children are created, their data concatenates
back to the input, and the `j`-th child is a hash-fresh cache-free leaf over
the `j`-th subrange holding exactly the (sorted, in-range) entries of that
subrange. -/
theorem buildKids_spec (step : Nat) (pos : List Nat) (r i0 lastK : Nat)
    (data : List (Nat × V)) (hstep : 0 < step)
    (hub : lastK + r * step ≤ keysInRing)
    (hsort : List.Chain' (fun a b : Nat × V => a.1 < b.1) data)
    (hrange : ∀ kv ∈ data, lastK ≤ kv.1 ∧ kv.1 < lastK + r * step) :
    (buildKids step pos r i0 lastK data).2 = [] ∧
    (buildKids step pos r i0 lastK data).1.length = r ∧
    ((buildKids step pos r i0 lastK data).1.map datav).flatten = data ∧
    (∀ j, ∀ hj : j < (buildKids step pos r i0 lastK data).1.length,
      ∃ dj : List (Nat × V),
        (buildKids step pos r i0 lastK data).1.get ⟨j, hj⟩ =
          .node (lastK + j * step) (lastK + (j + 1) * step) (pos ++ [i0 + j])
            (rehashVal [] dj) [] dj none ∧
        List.Chain' (fun a b : Nat × V => a.1 < b.1) dj ∧
        (∀ kv ∈ dj, lastK + j * step ≤ kv.1 ∧ kv.1 < lastK + (j + 1) * step)) := by
  induction r generalizing i0 lastK data with
  | zero =>
    have hdata : data = [] := by
      cases data with
      | nil => rfl
      | cons kv rest =>
        have := hrange kv (by simp)
        omega
    subst hdata
    refine ⟨rfl, rfl, rfl, ?_⟩
    intro j hj
    simp [buildKids] at hj
  | succ r ih =>
    rw [buildKids]
    dsimp only
    set p : Nat × V → Bool :=
      fun kv => inBetween kv.1 lastK (lastK + step - 1) true with hp
    have hpchar : ∀ kv ∈ data, p kv = decide (lastK ≤ kv.1 ∧ kv.1 < lastK + step) := by
      intro kv hkv
      have hkr := hrange kv hkv
      exact inBetween_range kv.1 lastK step hstep (by nlinarith) (by nlinarith)
    have hsplit : data.takeWhile p ++ data.dropWhile p = data :=
      List.takeWhile_append_dropWhile p data
    have htsort : List.Chain' (fun a b : Nat × V => a.1 < b.1) (data.takeWhile p) :=
      chain_fst_sublist data _ hsort (List.takeWhile_sublist p)
    have hrsort : List.Chain' (fun a b : Nat × V => a.1 < b.1) (data.dropWhile p) :=
      chain_fst_sublist data _ hsort (List.dropWhile_sublist p)
    have htmem : ∀ kv ∈ data.takeWhile p, kv ∈ data :=
      fun kv hkv => (List.takeWhile_sublist p).mem hkv
    have hrmem : ∀ kv ∈ data.dropWhile p, kv ∈ data :=
      fun kv hkv => (List.dropWhile_sublist p).mem hkv
    have htrange : ∀ kv ∈ data.takeWhile p, lastK ≤ kv.1 ∧ kv.1 < lastK + step := by
      intro kv hkv
      have := List.mem_takeWhile_imp hkv
      rw [hpchar kv (htmem kv hkv)] at this
      exact of_decide_eq_true this
    have hrlow : ∀ kv ∈ data.dropWhile p, lastK + step ≤ kv.1 := by
      intro kv hkv
      cases hdw : data.dropWhile p with
      | nil => rw [hdw] at hkv; simp at hkv
      | cons a t =>
        have hpa : p a = false := head_dropWhile_false p data a (by rw [hdw]; rfl)
        have hamem : a ∈ data := hrmem a (by rw [hdw]; simp)
        have halow : lastK + step ≤ a.1 := by
          rw [hpchar a hamem] at hpa
          have h1 := of_decide_eq_false hpa
          have h2 := hrange a hamem
          omega
        rw [hdw] at hkv
        rcases List.mem_cons.mp hkv with rfl | hkv2
        · exact halow
        · have := chain_fst_all_gt a t (hdw ▸ hrsort) kv hkv2
          omega
    have hih := ih (i0 + 1) (lastK + step) (data.dropWhile p)
      (by rw [show lastK + step + r * step = lastK + (r + 1) * step by ring]; exact hub)
      hrsort
      (by
        intro kv hkv
        have h1 := hrlow kv hkv
        have h2 := hrange kv (hrmem kv hkv)
        constructor
        · exact h1
        · have : lastK + (r + 1) * step = lastK + step + r * step := by ring
          omega)
    refine ⟨hih.1, by simp [hih.2.1], ?_, ?_⟩
    · simp only [List.map_cons, List.flatten_cons, datav]
      rw [hih.2.2.1, hsplit]
    · intro j hj
      cases j with
      | zero =>
        refine ⟨data.takeWhile p, ?_, htsort, ?_⟩
        · simp only [List.get]
          norm_num
        · intro kv hkv
          have := htrange kv hkv
          omega
      | succ j' =>
        have hj' : j' < (buildKids step pos r (i0 + 1) (lastK + step) (data.dropWhile p)).1.length := by
          simp only [List.length_cons] at hj
          omega
        obtain ⟨dj, hnode, hdsort, hdrange⟩ := hih.2.2.2 j' hj'
        refine ⟨dj, ?_, hdsort, ?_⟩
        · have hget : (((.node lastK (lastK + step) (pos ++ [i0]) (rehashVal [] (data.takeWhile p)) [] (data.takeWhile p) none : MTree V)) ::
              (buildKids step pos r (i0 + 1) (lastK + step) (data.dropWhile p)).1).get ⟨j' + 1, hj⟩ =
              (buildKids step pos r (i0 + 1) (lastK + step) (data.dropWhile p)).1.get ⟨j', hj'⟩ := rfl
          rw [hget, hnode]
          have e1 : lastK + step + j' * step = lastK + (j' + 1) * step := by ring
          have e2 : lastK + step + (j' + 1) * step = lastK + (j' + 1 + 1) * step := by ring
          have e3 : i0 + 1 + j' = i0 + (j' + 1) := by ring
          rw [e1, e2, e3]
        · intro kv hkv
          have := hdrange kv hkv
          have e1 : lastK + step + j' * step = lastK + (j' + 1) * step := by ring
          have e2 : lastK + step + (j' + 1) * step = lastK + (j' + 1 + 1) * step := by ring
          omega

theorem keysInRing_eq_pow : keysInRing = 2 ^ 128 := by norm_num [keysInRing]

theorem insData_find (k : Nat) (v : V) (d : List (Nat × V))
    (hnot : ∀ kv ∈ d, kv.1 ≠ k) (dj : List (Nat × V))
    (hmem : (k, v) ∈ dj)
    (hsub : ∀ y ∈ dj, y ∈ insData k v d) :
    dj.find? (fun kv => decide (kv.1 = k)) = some (k, v) := by
  apply find?_of_mem_unique _ _ _ hmem (by simp)
  intro y hy hp
  rcases insData_mem k v d y (hsub y hy) with h | h
  · exact h
  · exact absurd (of_decide_eq_true hp) (hnot y h)

theorem notMem_of_any_false (d : List (Nat × V)) (k : Nat)
    (habs : d.any (fun kv => decide (kv.1 = k)) = false) :
    ∀ kv ∈ d, kv.1 ≠ k := by
  intro kv hkv heq
  have : d.any (fun kv => decide (kv.1 = k)) = true :=
    List.any_eq_true.mpr ⟨kv, hkv, by simp [heq]⟩
  rw [habs] at this
  exact absurd this (by simp)

theorem get_set_cases {α : Type} (l : List α) (j : Nat) (a : α) (i : Nat)
    (hi : i < (l.set j a).length) :
    (l.set j a).get ⟨i, hi⟩ =
      if j = i then a else l.get ⟨i, by simpa using hi⟩ := by
  rw [List.get_eq_getElem, List.getElem_set]
  split
  · rfl
  · rw [List.get_eq_getElem]

theorem get?_set_self {α : Type} (l : List α) (j : Nat) (a : α)
    (hj : j < l.length) : (l.set j a).get? j = some a := by
  have hj2 : j < (l.set j a).length := by simpa using hj
  rw [List.get?_eq_get hj2, get_set_cases l j a j hj2, if_pos rfl]

/-- Fresh insertion on a well-formed tree: no error, well-formedness and the
range/position are preserved, and the key becomes present with value `v`. -/
theorem insert_fresh (t : MTree V) (hwf : WF t) (k : Nat) (v : V) :
    minKeyv t ≤ k → k < maxKeyv t → containsKey t k = false →
    (insertEx t k v).2 = false ∧
    WF (insertEx t k v).1 ∧
    minKeyv (insertEx t k v).1 = minKeyv t ∧
    maxKeyv (insertEx t k v).1 = maxKeyv t ∧
    posv (insertEx t k v).1 = posv t ∧
    lookup (insertEx t k v).1 k = .ok v ∧
    containsKey (insertEx t k v).1 k = true := by
  induction hwf with
  | leaf mn pos h d lg hp hal hub hsort hrange hhash =>
    intro hk1 hk2 habs
    rw [containsKey_leaf] at habs
    have hk1' : mn ≤ k := hk1
    have hk2' : k < mn + 2 ^ (128 - 3 * pos.length) := hk2
    have hnot := notMem_of_any_false d k habs
    have hd'sort : List.Chain' (fun a b : Nat × V => a.1 < b.1) (insData k v d) :=
      insData_sorted k v d hsort (by
        simp only [List.all_eq_true, decide_eq_true_eq]
        exact fun kv hkv => hnot kv hkv)
    have hd'range : ∀ kv ∈ insData k v d,
        mn ≤ kv.1 ∧ kv.1 < mn + 2 ^ (128 - 3 * pos.length) := by
      intro kv hkv
      rcases insData_mem k v d kv hkv with rfl | hm
      · exact ⟨hk1', hk2'⟩
      · exact hrange kv hm
    by_cases hbig : (insData k v d).length > 8
    · -- the leaf splits
      have hmap : List.Chain' (· < ·) ((insData k v d).map Prod.fst) :=
        (List.chain'_map Prod.fst).mpr hd'sort
      have hlenle : (insData k v d).length ≤ 2 ^ (128 - 3 * pos.length) := by
        have := chain_length_le ((insData k v d).map Prod.fst) mn
          (2 ^ (128 - 3 * pos.length)) hmap (by
            intro x hx
            rcases List.mem_map.mp hx with ⟨kv, hkv, rfl⟩
            exact hd'range kv hkv)
        simpa using this
      have hdep : pos.length ≤ 41 := by
        by_contra hcon
        have h42 : pos.length = 42 := by omega
        rw [h42] at hlenle
        norm_num at hlenle
        omega
      set step : Nat := 2 ^ (128 - 3 * (pos.length + 1)) with hstepdef
      have hstep8 : 2 ^ (128 - 3 * pos.length) = 8 * step := pow_step pos.length hdep
      have hstppos : 0 < step := Nat.pos_pow_of_pos _ (by norm_num)
      have hdiv : (mn + 2 ^ (128 - 3 * pos.length) - mn) / 8 = step := by
        rw [Nat.add_sub_cancel_left, hstep8]
        omega
      have hcc : createChildren mn (mn + 2 ^ (128 - 3 * pos.length)) pos (insData k v d) =
          buildKids step pos 8 0 mn (insData k v d) := by
        rw [createChildren, hdiv]
      have hbk := buildKids_spec step pos 8 0 mn (insData k v d) hstppos
        (by rw [keysInRing_eq_pow]; omega)
        hd'sort
        (by intro kv hkv; have := hd'range kv hkv; constructor <;> omega)
      rw [insertEx_leaf_fresh_split mn _ pos h d lg k v habs hbig, hcc]
      obtain ⟨hleft, hklen, hflat, hkids⟩ := hbk
      set kids : List (MTree V) := (buildKids step pos 8 0 mn (insData k v d)).1 with hkdsdef
      have hemp : kids.isEmpty = false := by
        cases hck : kids with
        | nil => rw [hck] at hklen; simp at hklen
        | cons a t => rfl
      -- the index of the child that received the new key
      obtain ⟨hcnum, hcnlt⟩ := childNumF_eq mn pos.length k hdep hal hk1' hk2'
      set jstar : Nat := (k - mn) / step with hjdef
      have hjlt : jstar < kids.length := by omega
      obtain ⟨dj, hjnode, hjsort, hjrange⟩ := hkids jstar hjlt
      have hget : kids.get? (childNumF mn (mn + 2 ^ (128 - 3 * pos.length)) pos.length k) =
          some (kids.get ⟨jstar, hjlt⟩) := by
        rw [hcnum]
        exact List.get?_eq_get hjlt
      -- the new entry lies in child jstar's data
      have hkvmem : (k, v) ∈ dj := by
        have hmemd' : (k, v) ∈ insData k v d := mem_insData_self k v d
        rw [← hflat] at hmemd'
        rcases List.mem_flatten.mp hmemd' with ⟨l, hl, hkl⟩
        rcases List.mem_map.mp hl with ⟨c, hc, rfl⟩
        rcases List.mem_iff_get.mp hc with ⟨⟨j2, hj2⟩, rfl⟩
        obtain ⟨dj2, hnode2, _, hrange2⟩ := hkids j2 hj2
        rw [hnode2] at hkl
        simp only [datav] at hkl
        have hkr := hrange2 (k, v) hkl
        have hj2eq : j2 = jstar := by
          have he1 : (j2 + 1) * step = j2 * step + step := by ring
          have h1 : j2 * step ≤ k - mn := by omega
          have h2 : k - mn < (j2 + 1) * step := by omega
          have h3 : (k - mn) / step = j2 := Nat.div_eq_of_lt_le h1 (by omega)
          omega
        subst hj2eq
        have hsame : (node (mn + jstar * step) (mn + (jstar + 1) * step)
            (pos ++ [0 + jstar]) (rehashVal [] dj2) [] dj2 none : MTree V) =
            node (mn + jstar * step) (mn + (jstar + 1) * step)
            (pos ++ [0 + jstar]) (rehashVal [] dj) [] dj none := by
          rw [← hnode2, ← hjnode]
        have hdd : dj2 = dj := congrArg datav hsame
        rw [← hdd]
        exact hkl
      have hjsub : ∀ y ∈ dj, y ∈ insData k v d := by
        intro y hy
        rw [← hflat]
        apply List.mem_flatten.mpr
        refine ⟨dj, ?_, hy⟩
        apply List.mem_map.mpr
        refine ⟨kids.get ⟨jstar, hjlt⟩, List.get_mem kids jstar hjlt, ?_⟩
        simp only [hjnode, datav]
      refine ⟨rfl, ?_, rfl, rfl, rfl, ?_, ?_⟩
      · -- well-formedness of the split node
        rw [hleft]
        apply WF.internal mn pos _ kids (updLg lg k) hdep hal hub hklen
        · intro i hi
          obtain ⟨di, hinode, _, _⟩ := hkids i hi
          rw [hinode]
          simp only [minKeyv, maxKeyv, posv]
          refine ⟨by ring, by ring, by simp⟩
        · intro c hc
          rcases List.mem_iff_get.mp hc with ⟨⟨i, hi⟩, rfl⟩
          obtain ⟨di, hinode, hisort, hirange⟩ := hkids i hi
          rw [hinode]
          have hlp : (pos ++ [0 + i]).length = pos.length + 1 := by simp
          have hshape : mn + (i + 1) * step = (mn + i * step) + 2 ^ (128 - 3 * (pos ++ [0 + i]).length) := by
            rw [hlp, ← hstepdef]
            ring
          rw [hshape]
          apply WF.leaf
          · rw [hlp]; omega
          · rw [hlp, ← hstepdef]
            rcases Nat.dvd_of_mod_eq_zero hal with ⟨A, hA⟩
            have : mn + i * step = (A * 8 + i) * step := by
              rw [hA, hstep8]; ring
            rw [this]
            exact Nat.mul_mod_left _ _
          · rw [hlp, ← hstepdef]
            have : mn + i * step + step = mn + (i + 1) * step := by ring
            rw [this]
            have hile : i + 1 ≤ 8 := by omega
            have : mn + (i + 1) * step ≤ mn + 8 * step := by
              have := Nat.mul_le_mul_right step hile
              omega
            omega
          · exact hisort
          · intro kv hkv
            have := hirange kv hkv
            rw [hlp, ← hstepdef]
            have e : mn + i * step + step = mn + (i + 1) * step := by ring
            omega
          · rfl
        · rfl
      · -- lookup finds the fresh value
        rw [hleft]
        rw [lookup_internal mn _ pos _ kids [] (updLg lg k) k _ hemp hget, hjnode,
          lookup_leaf]
        rw [insData_find k v d hnot dj hkvmem hjsub]
      · -- the key is now present
        rw [hleft]
        rw [containsKey_internal mn _ pos _ kids [] (updLg lg k) k _ hemp hget, hjnode,
          containsKey_leaf]
        exact List.any_eq_true.mpr ⟨(k, v), hkvmem, by simp⟩
    · -- the leaf absorbs the key
      rw [insertEx_leaf_fresh_small mn _ pos h d lg k v habs hbig]
      refine ⟨rfl, ?_, rfl, rfl, rfl, ?_, ?_⟩
      · exact WF.leaf mn pos _ (insData k v d) (updLg lg k) hp hal hub hd'sort
          hd'range rfl
      · rw [lookup_leaf]
        rw [insData_find k v d hnot (insData k v d) (mem_insData_self k v d)
          (fun y hy => hy)]
      · rw [containsKey_leaf]
        exact List.any_eq_true.mpr ⟨(k, v), mem_insData_self k v d, by simp⟩
  | internal mn pos h cs lg hdep hal hub hlen hspec hwfc hhash ih =>
    intro hk1 hk2 habs
    have hk1' : mn ≤ k := hk1
    have hk2' : k < mn + 2 ^ (128 - 3 * pos.length) := hk2
    set step : Nat := 2 ^ (128 - 3 * (pos.length + 1)) with hstepdef
    have hstep8 : 2 ^ (128 - 3 * pos.length) = 8 * step := pow_step pos.length hdep
    have hstppos : 0 < step := Nat.pos_pow_of_pos _ (by norm_num)
    obtain ⟨hcnum, hcnlt⟩ := childNumF_eq mn pos.length k hdep hal hk1' hk2'
    set jstar : Nat := (k - mn) / step with hjdef
    have hjlt : jstar < cs.length := by omega
    have hemp : cs.isEmpty = false := by
      cases hck : cs with
      | nil => rw [hck] at hlen; simp at hlen
      | cons a t => rfl
    obtain ⟨hcmin, hcmax, hcpos⟩ := hspec jstar hjlt
    set c : MTree V := cs.get ⟨jstar, hjlt⟩ with hcdef
    have hget : cs.get? (childNumF mn (mn + 2 ^ (128 - 3 * pos.length)) pos.length k) =
        some c := by
      rw [hcnum]
      exact List.get?_eq_get hjlt
    have hdm : step * jstar + (k - mn) % step = k - mn := by
      rw [hjdef]
      exact Nat.div_add_mod (k - mn) step
    have hmd : (k - mn) % step < step := Nat.mod_lt _ hstppos
    have hkin1 : minKeyv c ≤ k := by
      rw [hcmin]
      have hc1 : jstar * step = step * jstar := Nat.mul_comm _ _
      omega
    have hkin2 : k < maxKeyv c := by
      rw [hcmax]
      have he : (jstar + 1) * step = step * jstar + step := by ring
      omega
    have habs' : containsKey c k = false := by
      rw [containsKey_internal mn _ pos h cs [] lg k c hemp hget] at habs
      exact habs
    have hcmem : c ∈ cs := List.get_mem cs jstar hjlt
    obtain ⟨hok, hwfr, hrmin, hrmax, hrpos, hrlook, hrcont⟩ :=
      ih c hcmem hkin1 hkin2 habs'
    rw [insertEx_internal_ok mn _ pos h cs [] lg k v c hemp hget hok, hcnum]
    have hlen2 : (cs.set jstar (insertEx c k v).1).length = 8 := by
      rw [List.length_set]; exact hlen
    have hemp2 : (cs.set jstar (insertEx c k v).1).isEmpty = false := by
      cases hck : cs.set jstar (insertEx c k v).1 with
      | nil => rw [hck] at hlen2; simp at hlen2
      | cons a t => rfl
    have hget2 : (cs.set jstar (insertEx c k v).1).get?
        (childNumF mn (mn + 2 ^ (128 - 3 * pos.length)) pos.length k) =
        some (insertEx c k v).1 := by
      rw [hcnum]
      exact get?_set_self cs jstar (insertEx c k v).1 hjlt
    refine ⟨rfl, ?_, rfl, rfl, rfl, ?_, ?_⟩
    · apply WF.internal mn pos _ (cs.set jstar (insertEx c k v).1) (updLg lg k)
        hdep hal hub hlen2
      · intro i hi
        rw [get_set_cases cs jstar (insertEx c k v).1 i hi]
        split
        · rename_i hij
          subst hij
          exact ⟨hrmin.trans hcmin, hrmax.trans hcmax, hrpos.trans hcpos⟩
        · exact hspec i (by simpa using hi)
      · intro c' hc'
        rcases List.mem_iff_get.mp hc' with ⟨⟨i, hi⟩, rfl⟩
        rw [get_set_cases cs jstar (insertEx c k v).1 i hi]
        split
        · exact hwfr
        · exact hwfc _ (List.get_mem cs i (by simpa using hi))
      · rfl
    · rw [lookup_internal mn _ pos _ (cs.set jstar (insertEx c k v).1) []
        (updLg lg k) k _ hemp2 hget2]
      exact hrlook
    · rw [containsKey_internal mn _ pos _ (cs.set jstar (insertEx c k v).1) []
        (updLg lg k) k _ hemp2 hget2]
      exact hrcont

/-- `ChildNum` always returns a valid child index. -/
theorem childNumF_lt (mn mx depth k : Nat) : childNumF mn mx depth k < 8 := by
  unfold childNumF
  split_ifs
  · norm_num
  · norm_num
  · have h7 : (k >>> (128 - 3 * (depth + 1))) &&& 7 ≤ 7 := Nat.and_le_right
    omega

theorem set_get_self {α : Type} (l : List α) (i : Nat) (a : α)
    (h : l.get? i = some a) : l.set i a = l := by
  induction l generalizing i with
  | nil => rfl
  | cons b t ih =>
    cases i with
    | zero => simp at h; simp [h]
    | succ i' =>
      simp only [List.get?] at h
      simp [List.set_cons_succ, ih i' h]

/-- Deleting a present key on a well-formed tree: no error, and the key is
gone (subsequent `Lookup` errors). -/
theorem delete_present (t : MTree V) (hwf : WF t) (k : Nat) :
    containsKey t k = true →
    (deleteEx t k).2 = false ∧
    lookup (deleteEx t k).1 k = .error () ∧
    containsKey (deleteEx t k).1 k = false := by
  induction hwf with
  | leaf mn pos h d lg hp hal hub hsort hrange hhash =>
    intro hpres
    rw [containsKey_leaf] at hpres
    rw [deleteEx_leaf_present mn _ pos h d lg k hpres]
    have herased := eraseP_not_contains k d hsort
    have hall : ∀ y ∈ d.eraseP (fun kv => decide (kv.1 = k)),
        decide (y.1 = k) = false := by
      intro y hy
      have := List.all_eq_true.mp herased y hy
      simp at this ⊢
      exact this
    refine ⟨rfl, ?_, ?_⟩
    · rw [lookup_leaf]
      rw [find?_eq_none_of_all (fun kv : Nat × V => decide (kv.1 = k))
        (d.eraseP (fun kv => decide (kv.1 = k))) hall]
    · rw [containsKey_leaf]
      cases hany : (d.eraseP (fun kv => decide (kv.1 = k))).any
          (fun kv => decide (kv.1 = k)) with
      | false => rfl
      | true =>
        rcases List.any_eq_true.mp hany with ⟨y, hy, hp'⟩
        rw [hall y hy] at hp'
        exact absurd hp' (by simp)
  | internal mn pos h cs lg hdep hal hub hlen hspec hwfc hhash ih =>
    intro hpres
    have hemp : cs.isEmpty = false := by
      cases hck : cs with
      | nil => rw [hck] at hlen; simp at hlen
      | cons a t => rfl
    have hilt : childNumF mn (mn + 2 ^ (128 - 3 * pos.length)) pos.length k < cs.length := by
      have := childNumF_lt mn (mn + 2 ^ (128 - 3 * pos.length)) pos.length k
      omega
    set i : Nat := childNumF mn (mn + 2 ^ (128 - 3 * pos.length)) pos.length k with hidef
    set c : MTree V := cs.get ⟨i, hilt⟩ with hcdef
    have hget : cs.get? (childNumF mn (mn + 2 ^ (128 - 3 * pos.length)) pos.length k) =
        some c := by
      rw [← hidef]
      exact List.get?_eq_get hilt
    have hpres' : containsKey c k = true := by
      rw [containsKey_internal mn _ pos h cs [] lg k c hemp hget] at hpres
      exact hpres
    have hcmem : c ∈ cs := List.get_mem cs i hilt
    obtain ⟨hok, hlook, hcont⟩ := ih c hcmem hpres'
    rw [deleteEx_internal_ok mn _ pos h cs [] lg k c hemp hget hok]
    have hlen2 : (cs.set (childNumF mn (mn + 2 ^ (128 - 3 * pos.length)) pos.length k)
        (deleteEx c k).1).length = 8 := by
      rw [List.length_set]; exact hlen
    have hemp2 : (cs.set (childNumF mn (mn + 2 ^ (128 - 3 * pos.length)) pos.length k)
        (deleteEx c k).1).isEmpty = false := by
      cases hck2 : cs.set (childNumF mn (mn + 2 ^ (128 - 3 * pos.length)) pos.length k)
          (deleteEx c k).1 with
      | nil => rw [hck2] at hlen2; simp at hlen2
      | cons a t => rfl
    have hget2 : (cs.set (childNumF mn (mn + 2 ^ (128 - 3 * pos.length)) pos.length k)
        (deleteEx c k).1).get?
        (childNumF mn (mn + 2 ^ (128 - 3 * pos.length)) pos.length k) =
        some (deleteEx c k).1 := by
      rw [← hidef]
      exact get?_set_self cs i (deleteEx c k).1 hilt
    refine ⟨rfl, ?_, ?_⟩
    · rw [lookup_internal mn _ pos _ _ [] _ k _ hemp2 hget2]
      exact hlook
    · rw [containsKey_internal mn _ pos _ _ [] _ k _ hemp2 hget2]
      exact hcont

/-- `Update` on an absent key errors and leaves the tree untouched. -/
theorem update_absent (t : MTree V) (hwf : WF t) (k : Nat) (v : V) :
    containsKey t k = false → updateEx t k v = (t, true) := by
  induction hwf with
  | leaf mn pos h d lg hp hal hub hsort hrange hhash =>
    intro habs
    rw [containsKey_leaf] at habs
    exact updateEx_leaf_absent mn _ pos h d lg k v habs
  | internal mn pos h cs lg hdep hal hub hlen hspec hwfc hhash ih =>
    intro habs
    have hemp : cs.isEmpty = false := by
      cases hck : cs with
      | nil => rw [hck] at hlen; simp at hlen
      | cons a t => rfl
    have hilt : childNumF mn (mn + 2 ^ (128 - 3 * pos.length)) pos.length k < cs.length := by
      have := childNumF_lt mn (mn + 2 ^ (128 - 3 * pos.length)) pos.length k
      omega
    set i : Nat := childNumF mn (mn + 2 ^ (128 - 3 * pos.length)) pos.length k with hidef
    set c : MTree V := cs.get ⟨i, hilt⟩ with hcdef
    have hget : cs.get? (childNumF mn (mn + 2 ^ (128 - 3 * pos.length)) pos.length k) =
        some c := by
      rw [← hidef]
      exact List.get?_eq_get hilt
    have habs' : containsKey c k = false := by
      rw [containsKey_internal mn _ pos h cs [] lg k c hemp hget] at habs
      exact habs
    have hcmem : c ∈ cs := List.get_mem cs i hilt
    have hupd := ih c hcmem habs'
    have herr : (updateEx c k v).2 = true := by rw [hupd]
    exact updateEx_internal_err mn _ pos h cs [] lg k v c hemp hget herr

/-- `Delete` on an absent key errors and leaves the tree untouched. -/
theorem delete_absent (t : MTree V) (hwf : WF t) (k : Nat) :
    containsKey t k = false → deleteEx t k = (t, true) := by
  induction hwf with
  | leaf mn pos h d lg hp hal hub hsort hrange hhash =>
    intro habs
    rw [containsKey_leaf] at habs
    exact deleteEx_leaf_absent mn _ pos h d lg k habs
  | internal mn pos h cs lg hdep hal hub hlen hspec hwfc hhash ih =>
    intro habs
    have hemp : cs.isEmpty = false := by
      cases hck : cs with
      | nil => rw [hck] at hlen; simp at hlen
      | cons a t => rfl
    have hilt : childNumF mn (mn + 2 ^ (128 - 3 * pos.length)) pos.length k < cs.length := by
      have := childNumF_lt mn (mn + 2 ^ (128 - 3 * pos.length)) pos.length k
      omega
    set i : Nat := childNumF mn (mn + 2 ^ (128 - 3 * pos.length)) pos.length k with hidef
    set c : MTree V := cs.get ⟨i, hilt⟩ with hcdef
    have hget : cs.get? (childNumF mn (mn + 2 ^ (128 - 3 * pos.length)) pos.length k) =
        some c := by
      rw [← hidef]
      exact List.get?_eq_get hilt
    have habs' : containsKey c k = false := by
      rw [containsKey_internal mn _ pos h cs [] lg k c hemp hget] at habs
      exact habs
    have hcmem : c ∈ cs := List.get_mem cs i hilt
    have hdel := ih c hcmem habs'
    have herr : (deleteEx c k).2 = true := by rw [hdel]
    exact deleteEx_internal_err mn _ pos h cs [] lg k c hemp hget herr

/-- Inserting an already-present key on a well-formed tree raises the error,
and the resulting tree differs at most in largest-key caches. -/
theorem insert_dup (t : MTree V) (hwf : WF t) (k : Nat) (v : V) :
    containsKey t k = true →
    (insertEx t k v).2 = true ∧
    eraseLargest (insertEx t k v).1 = eraseLargest t := by
  induction hwf with
  | leaf mn pos h d lg hp hal hub hsort hrange hhash =>
    intro hpres
    rw [containsKey_leaf] at hpres
    rw [insertEx_leaf_dup mn _ pos h d lg k v hpres]
    exact ⟨rfl, by rw [eraseLargest_node, eraseLargest_node]⟩
  | internal mn pos h cs lg hdep hal hub hlen hspec hwfc hhash ih =>
    intro hpres
    have hemp : cs.isEmpty = false := by
      cases hck : cs with
      | nil => rw [hck] at hlen; simp at hlen
      | cons a t => rfl
    have hilt : childNumF mn (mn + 2 ^ (128 - 3 * pos.length)) pos.length k < cs.length := by
      have := childNumF_lt mn (mn + 2 ^ (128 - 3 * pos.length)) pos.length k
      omega
    set i : Nat := childNumF mn (mn + 2 ^ (128 - 3 * pos.length)) pos.length k with hidef
    set c : MTree V := cs.get ⟨i, hilt⟩ with hcdef
    have hget : cs.get? (childNumF mn (mn + 2 ^ (128 - 3 * pos.length)) pos.length k) =
        some c := by
      rw [← hidef]
      exact List.get?_eq_get hilt
    have hpres' : containsKey c k = true := by
      rw [containsKey_internal mn _ pos h cs [] lg k c hemp hget] at hpres
      exact hpres
    have hcmem : c ∈ cs := List.get_mem cs i hilt
    obtain ⟨herr, hcerase⟩ := ih c hcmem hpres'
    rw [insertEx_internal_err mn _ pos h cs [] lg k v c hemp hget herr]
    refine ⟨rfl, ?_⟩
    rw [eraseLargest_node, eraseLargest_node]
    have hmapset : (cs.set (childNumF mn (mn + 2 ^ (128 - 3 * pos.length)) pos.length k)
        (insertEx c k v).1).map eraseLargest =
        (cs.map eraseLargest).set (childNumF mn (mn + 2 ^ (128 - 3 * pos.length)) pos.length k)
          (eraseLargest (insertEx c k v).1) := List.map_set
    rw [hmapset, hcerase]
    have hgetm : (cs.map eraseLargest).get? i = some (eraseLargest c) := by
      rw [List.get?_map, hget]
      rfl
    rw [← hidef, set_get_self (cs.map eraseLargest) i (eraseLargest c) hgetm]

/-- **C5.** Merkle tree store contract: on every (well-formed) tree and every
in-range key, `Insert(k, v)` followed by `Lookup(k)` returns `v`;
`Insert(k, v)` then `Delete(k)` then `Lookup(k)` raises an error;
`Insert(k, v)` raises an error when `k` is already present; and `Update(k, v)`
and `Delete(k)` raise an error (and leave the tree untouched) when `k` is
absent. -/
theorem c5_merkle_store_contract (t : MTree V) (k : Nat) (v : V)
    (hwf : WF t) (hk1 : minKeyv t ≤ k) (hk2 : k < maxKeyv t) :
    (containsKey t k = false →
      (insertEx t k v).2 = false ∧ lookup (insertEx t k v).1 k = .ok v) ∧
    (containsKey t k = false →
      (deleteEx (insertEx t k v).1 k).2 = false ∧
      lookup (deleteEx (insertEx t k v).1 k).1 k = .error ()) ∧
    (containsKey t k = true → (insertEx t k v).2 = true) ∧
    (containsKey t k = false →
      updateEx t k v = (t, true) ∧ deleteEx t k = (t, true)) := by
  refine ⟨?_, ?_, ?_, ?_⟩
  · intro habs
    obtain ⟨h1, _, _, _, _, h6, _⟩ := insert_fresh t hwf k v hk1 hk2 habs
    exact ⟨h1, h6⟩
  · intro habs
    obtain ⟨_, hwf', _, _, _, _, h7⟩ := insert_fresh t hwf k v hk1 hk2 habs
    obtain ⟨hd1, hd2, _⟩ := delete_present _ hwf' k h7
    exact ⟨hd1, hd2⟩
  · intro hpres
    exact (insert_dup t hwf k v hpres).1
  · intro habs
    exact ⟨update_absent t hwf k v habs, delete_absent t hwf k habs⟩

theorem c5_merkle_store_contract_witness :
    (insertEx (.node 0 (2 ^ 128) [] .zero [] ([] : List (Nat × Nat)) none) 5 7).2 = false ∧
    lookup (insertEx (.node 0 (2 ^ 128) [] .zero [] ([] : List (Nat × Nat)) none) 5 7).1 5 =
      .ok 7 := by
  have hwf : WF (.node 0 (2 ^ 128) [] .zero [] ([] : List (Nat × Nat)) none) :=
    WF.leaf 0 [] .zero [] none (by norm_num) (by norm_num) (by norm_num)
      (by simp) (by simp) rfl
  have habs : containsKey (.node 0 (2 ^ 128) [] .zero [] ([] : List (Nat × Nat)) none) 5 = false := by
    rw [containsKey_leaf]
    rfl
  exact (c5_merkle_store_contract
    (.node 0 (2 ^ 128) [] .zero [] ([] : List (Nat × Nat)) none) 5 7 hwf
    (by norm_num [minKeyv]) (by norm_num [maxKeyv])).1 habs

/-! #### C9: hashes are computed from keys alone -/

/-- Two trees (possibly with different value types) have the same keys at the
same structural positions. -/
def sameKeys : MTree V → MTree W → Bool
  | .node _ _ _ _ cs d _, .node _ _ _ _ cs' d' _ =>
    decide (d.map Prod.fst = d'.map Prod.fst) &&
    decide (cs.length = cs'.length) &&
    ((cs.zip cs').attach.all fun p => sameKeys p.1.1 p.1.2)
termination_by t _ => sizeOf t
decreasing_by
  have hmem := List.of_mem_zip p.2
  have hsz : sizeOf p.1.1 < sizeOf cs := List.sizeOf_lt_of_mem hmem.1
  simp only [node.sizeOf_spec]
  omega

theorem all_attach {α : Type _} (l : List α) (f : α → Bool) :
    (l.attach.all fun p => f p.1) = l.all f := by
  by_cases h : l.all f = true
  · rw [h]
    rw [List.all_eq_true] at h ⊢
    intro p _
    exact h p.1 p.2
  · rw [Bool.not_eq_true] at h
    rw [h]
    rw [List.all_eq_false] at h ⊢
    rcases h with ⟨x, hx, hfx⟩
    exact ⟨⟨x, hx⟩, List.mem_attach l ⟨x, hx⟩, hfx⟩

theorem sameKeys_node (mn mx : Nat) (pos : List Nat) (h : MHash)
    (cs : List (MTree V)) (d : List (Nat × V)) (lg : Option Nat)
    (mn' mx' : Nat) (pos' : List Nat) (h' : MHash)
    (cs' : List (MTree W)) (d' : List (Nat × W)) (lg' : Option Nat) :
    sameKeys (.node mn mx pos h cs d lg) (.node mn' mx' pos' h' cs' d' lg') =
      (decide (d.map Prod.fst = d'.map Prod.fst) &&
       decide (cs.length = cs'.length) &&
       ((cs.zip cs').all fun p => sameKeys p.1 p.2)) := by
  rw [sameKeys]
  rw [all_attach (cs.zip cs') (fun p => sameKeys p.1 p.2)]

theorem hashStrOfKeys_congr (d : List (Nat × V)) (d' : List (Nat × W))
    (h : d.map Prod.fst = d'.map Prod.fst) :
    hashStrOfKeys d = hashStrOfKeys d' := by
  unfold hashStrOfKeys
  have h1 : d.map (fun kv => hexStr kv.1) = (d.map Prod.fst).map hexStr := by
    rw [List.map_map]; rfl
  have h2 : d'.map (fun kv => hexStr kv.1) = (d'.map Prod.fst).map hexStr := by
    rw [List.map_map]; rfl
  rw [h1, h2, h]

/-- **C9.** The hash of every Merkle tree node is computed from the stored
keys alone: two well-formed trees holding the same key set at the same
positions have equal hashes, however much the associated values differ
(hash-based subtree comparison cannot see values). -/
theorem c9_hash_key_only (t₁ : MTree V) (t₂ : MTree W) (hwf1 : WF t₁) :
    WF t₂ → sameKeys t₁ t₂ = true → hashv t₁ = hashv t₂ := by
  induction hwf1 generalizing t₂ with
  | leaf mn pos h d lg hp hal hub hsort hrange hhash =>
    intro hwf2 hsk
    cases hwf2 with
    | leaf mn2 pos2 h2 d2 lg2 hp2 hal2 hub2 hsort2 hrange2 hhash2 =>
      rw [sameKeys_node] at hsk
      simp only [Bool.and_eq_true, decide_eq_true_eq] at hsk
      obtain ⟨⟨hkeys, -⟩, -⟩ := hsk
      simp only [hashv, hhash, hhash2]
      have hlen : d.length = d2.length := by
        rw [← List.length_map d Prod.fst, hkeys, List.length_map]
      unfold rehashVal
      simp only [List.isEmpty_nil, if_true]
      cases d with
      | nil =>
        cases d2 with
        | nil => rfl
        | cons a t => simp at hlen
      | cons a t =>
        cases d2 with
        | nil => simp at hlen
        | cons a2 t2 =>
          simp only [List.isEmpty_cons, Bool.false_eq_true, if_false]
          rw [hashStrOfKeys_congr _ _ hkeys]
    | internal mn2 pos2 h2 cs2 lg2 hp2 hal2 hub2 hlen2 hspec2 hwfc2 hhash2 =>
      rw [sameKeys_node] at hsk
      simp only [Bool.and_eq_true, decide_eq_true_eq] at hsk
      obtain ⟨⟨-, hlens⟩, -⟩ := hsk
      rw [hlen2] at hlens
      simp at hlens
  | internal mn pos h cs lg hdep hal hub hlen hspec hwfc hhash ih =>
    intro hwf2 hsk
    cases hwf2 with
    | leaf mn2 pos2 h2 d2 lg2 hp2 hal2 hub2 hsort2 hrange2 hhash2 =>
      rw [sameKeys_node] at hsk
      simp only [Bool.and_eq_true, decide_eq_true_eq] at hsk
      obtain ⟨⟨-, hlens⟩, -⟩ := hsk
      rw [hlen] at hlens
      simp at hlens
    | internal mn2 pos2 h2 cs2 lg2 hp2 hal2 hub2 hlen2 hspec2 hwfc2 hhash2 =>
      rw [sameKeys_node] at hsk
      simp only [Bool.and_eq_true, decide_eq_true_eq] at hsk
      obtain ⟨⟨-, hlens⟩, hall⟩ := hsk
      have hmaps : cs.map hashv = cs2.map hashv := by
        apply List.ext_get
        · simp [hlens]
        · intro i hi1 hi2
          simp only [List.get_eq_getElem, List.getElem_map]
          have hizlt : i < (cs.zip cs2).length := by
            rw [List.length_zip]
            simp only [List.length_map] at hi1 hi2
            omega
          have hci : i < cs.length := by simpa using hi1
          have hc2i : i < cs2.length := by simpa using hi2
          have hpmem : (cs[i], cs2[i]) ∈ cs.zip cs2 := by
            have hz := List.getElem_zip (h := hizlt)
            rw [← hz]
            exact List.getElem_mem hizlt
          have hski := List.all_eq_true.mp hall _ hpmem
          exact ih _ (by
              have := List.of_mem_zip hpmem
              exact this.1) _
            (hwfc2 _ (List.of_mem_zip hpmem).2) hski
      simp only [hashv, hhash, hhash2]
      unfold rehashVal
      have hemp : cs.isEmpty = false := by
        cases hck : cs with
        | nil => rw [hck] at hlen; simp at hlen
        | cons a t => rfl
      have hemp2 : cs2.isEmpty = false := by
        cases hck : cs2 with
        | nil => rw [hck] at hlen2; simp at hlen2
        | cons a t => rfl
      simp only [hemp, hemp2, Bool.false_eq_true, if_false, hmaps]

theorem c9_hash_key_only_witness :
    sameKeys
      (.node 0 (2 ^ 128) [] (rehashVal [] [(1, 10), (2, 20)]) []
        ([(1, 10), (2, 20)] : List (Nat × Nat)) none)
      (.node 0 (2 ^ 128) [] (rehashVal [] [(1, 99), (2, 98)]) []
        ([(1, 99), (2, 98)] : List (Nat × Nat)) none) = true ∧
    hashv (.node 0 (2 ^ 128) [] (rehashVal [] [(1, 10), (2, 20)]) []
        ([(1, 10), (2, 20)] : List (Nat × Nat)) none) =
      hashv (.node 0 (2 ^ 128) [] (rehashVal [] [(1, 99), (2, 98)]) []
        ([(1, 99), (2, 98)] : List (Nat × Nat)) none) := by
  have hwf1 : WF (.node 0 (2 ^ 128) [] (rehashVal [] [(1, 10), (2, 20)]) []
      ([(1, 10), (2, 20)] : List (Nat × Nat)) none) :=
    WF.leaf 0 [] _ [(1, 10), (2, 20)] none (by norm_num) (by norm_num)
      (by norm_num) (by norm_num [List.chain'_cons]) (by decide) rfl
  have hwf2 : WF (.node 0 (2 ^ 128) [] (rehashVal [] [(1, 99), (2, 98)]) []
      ([(1, 99), (2, 98)] : List (Nat × Nat)) none) :=
    WF.leaf 0 [] _ [(1, 99), (2, 98)] none (by norm_num) (by norm_num)
      (by norm_num) (by norm_num [List.chain'_cons]) (by decide) rfl
  have hsk : sameKeys
      (.node 0 (2 ^ 128) [] (rehashVal [] [(1, 10), (2, 20)]) []
        ([(1, 10), (2, 20)] : List (Nat × Nat)) none)
      (.node 0 (2 ^ 128) [] (rehashVal [] [(1, 99), (2, 98)]) []
        ([(1, 99), (2, 98)] : List (Nat × Nat)) none) = true := by
    rw [sameKeys_node]
    rfl
  exact ⟨hsk, c9_hash_key_only _ _ hwf1 hwf2 hsk⟩

/-! #### C10: failed inserts and the largest-key caches -/

theorem hashv_eraseLargest (t : MTree V) : hashv (eraseLargest t) = hashv t := by
  cases t with
  | node mn mx pos h cs d lg =>
    rw [eraseLargest_node]
    rfl

theorem entries_eraseLargest (t : MTree V) :
    entries (eraseLargest t) = entries t := by
  have H : ∀ n (t : MTree V), sizeOf t = n → entries (eraseLargest t) = entries t := by
    intro n
    induction n using Nat.strong_induction_on with
    | _ n ih =>
      intro t hn
      cases t with
      | node mn mx pos h cs d lg =>
        rw [eraseLargest_node, entries_node, entries_node]
        have hie : (cs.map eraseLargest).isEmpty = cs.isEmpty := by
          cases cs <;> rfl
        rw [hie]
        split_ifs with h1 h2
        · rfl
        · rfl
        · rw [List.map_map]
          apply congrArg List.flatten
          apply List.map_congr_left
          intro c hc
          have hsz := List.sizeOf_lt_of_mem hc
          simp only [node.sizeOf_spec] at hn
          exact ih (sizeOf c) (by omega) c rfl
  exact H (sizeOf t) t rfl

/-- **C10 (counterexample).** A failed `Insert` is *not* cache-neutral: on the
leaf `[0, 2^128) ↦ {5 ↦ 7}` with an empty largest-key cache (exactly the
state `CreateChildren` leaves split-created children in), re-inserting key 5
raises the key-already-present error *and* sets the cache to `some 5`. -/
theorem c10_insert_counterexample :
    WF (.node 0 (2 ^ 128) [] (rehashVal [] [(5, 7)]) []
      ([(5, 7)] : List (Nat × Nat)) none) ∧
    (insertEx (.node 0 (2 ^ 128) [] (rehashVal [] [(5, 7)]) []
      ([(5, 7)] : List (Nat × Nat)) none) 5 9).2 = true ∧
    largestv (insertEx (.node 0 (2 ^ 128) [] (rehashVal [] [(5, 7)]) []
      ([(5, 7)] : List (Nat × Nat)) none) 5 9).1 = some 5 ∧
    largestv (.node 0 (2 ^ 128) [] (rehashVal [] [(5, 7)]) []
      ([(5, 7)] : List (Nat × Nat)) none) = none := by
  refine ⟨WF.leaf 0 [] _ [(5, 7)] none (by norm_num) (by norm_num) (by norm_num)
    (by simp) (by decide) rfl, ?_, ?_, rfl⟩
  · rw [insertEx_leaf_dup 0 (2 ^ 128) [] (rehashVal [] [(5, 7)]) [(5, 7)] none 5 9
      (by rfl)]
  · rw [insertEx_leaf_dup 0 (2 ^ 128) [] (rehashVal [] [(5, 7)]) [(5, 7)] none 5 9
      (by rfl)]
    rfl

/-- **C10 (amended).** `Insert` of an already-present key on a well-formed
tree raises the error, and the tree is unchanged *except possibly for the
largest-key caches along the descent path* (which the code updates before
the duplicate check): stripping the caches gives back exactly the original
tree, and in particular the entries and every node hash are unchanged.  The
claim's justification — "a present key never exceeds the recorded largest
key" — fails because split-created children carry an empty cache. -/
theorem c10_insert_atomic_amended (t : MTree V) (hwf : WF t) (k : Nat) (v : V)
    (hpres : containsKey t k = true) :
    (insertEx t k v).2 = true ∧
    eraseLargest (insertEx t k v).1 = eraseLargest t ∧
    entries (insertEx t k v).1 = entries t ∧
    hashv (insertEx t k v).1 = hashv t := by
  obtain ⟨herr, hel⟩ := insert_dup t hwf k v hpres
  refine ⟨herr, hel, ?_, ?_⟩
  · rw [← entries_eraseLargest (insertEx t k v).1, hel, entries_eraseLargest]
  · rw [← hashv_eraseLargest (insertEx t k v).1, hel, hashv_eraseLargest]

theorem c10_insert_atomic_amended_witness :
    (insertEx (.node 0 (2 ^ 128) [] (rehashVal [] [(5, 7)]) []
      ([(5, 7)] : List (Nat × Nat)) none) 5 9).2 = true ∧
    eraseLargest (insertEx (.node 0 (2 ^ 128) [] (rehashVal [] [(5, 7)]) []
      ([(5, 7)] : List (Nat × Nat)) none) 5 9).1 =
      eraseLargest (.node 0 (2 ^ 128) [] (rehashVal [] [(5, 7)]) []
        ([(5, 7)] : List (Nat × Nat)) none) ∧
    entries (insertEx (.node 0 (2 ^ 128) [] (rehashVal [] [(5, 7)]) []
      ([(5, 7)] : List (Nat × Nat)) none) 5 9).1 =
      entries (.node 0 (2 ^ 128) [] (rehashVal [] [(5, 7)]) []
        ([(5, 7)] : List (Nat × Nat)) none) ∧
    hashv (insertEx (.node 0 (2 ^ 128) [] (rehashVal [] [(5, 7)]) []
      ([(5, 7)] : List (Nat × Nat)) none) 5 9).1 =
      hashv (.node 0 (2 ^ 128) [] (rehashVal [] [(5, 7)]) []
        ([(5, 7)] : List (Nat × Nat)) none) := by
  have hwf : WF (.node 0 (2 ^ 128) [] (rehashVal [] [(5, 7)]) []
      ([(5, 7)] : List (Nat × Nat)) none) :=
    WF.leaf 0 [] _ [(5, 7)] none (by norm_num) (by norm_num) (by norm_num)
      (by simp) (by decide) rfl
  have hpres : containsKey (.node 0 (2 ^ 128) [] (rehashVal [] [(5, 7)]) []
      ([(5, 7)] : List (Nat × Nat)) none) 5 = true := by
    rw [containsKey_leaf]
    rfl
  exact c10_insert_atomic_amended _ hwf 5 9 hpres

/-! ### Claim C1: IDA (Rabin information dispersal, ida.cpp / matrix_math.h)

All C++ `int` arithmetic is modelled by `Int` (the values involved stay far
below any overflow for the sizes the library handles, and the claim is about
the mathematical algorithm).  C++ `%` is truncated division, `Int.tmod`. -/

namespace IDA

/-- `Modulo`: `(lhs % rhs + rhs) % rhs` with C++ truncated `%`. -/
def cppMod (l r : Int) : Int := ((l.tmod r) + r).tmod r

/-- Truncated remainder by a positive divisor exceeds `-r`. -/
theorem tmod_gt_neg (l r : Int) (hr : 0 < r) : -r < l.tmod r := by
  cases l with
  | ofNat m =>
    have h0 : (0 : Int) ≤ Int.ofNat m := Int.ofNat_nonneg m
    have := Int.tmod_nonneg r h0
    omega
  | negSucc m =>
    cases r with
    | ofNat n =>
      have he : (Int.negSucc m).tmod (Int.ofNat n) = -Int.ofNat ((m + 1) % n) := rfl
      rw [he]
      simp only [Int.ofNat_eq_coe] at hr ⊢
      have hn : 0 < n := by exact_mod_cast hr
      have hlt : (m + 1) % n < n := Nat.mod_lt _ hn
      have h1 : ((((m + 1) % n : Nat)) : Int) < (n : Int) := by exact_mod_cast hlt
      omega
    | negSucc n => exact absurd hr (by exact of_decide_eq_false rfl)

theorem cppMod_eq_emod (l r : Int) (hr : 0 < r) : cppMod l r = l % r := by
  unfold cppMod
  have h1 : 0 ≤ l.tmod r + r := by
    have := tmod_gt_neg l r hr
    omega
  rw [Int.tmod_eq_emod h1 (le_of_lt hr)]
  have h2 : l.tmod r = l - r * l.tdiv r := Int.tmod_def l r
  rw [h2]
  have h3 : l - r * l.tdiv r + r = l + r * (1 - l.tdiv r) := by ring
  rw [h3, Int.add_mul_emod_self_left]

theorem cppMod_nonneg (l r : Int) (hr : 0 < r) : 0 ≤ cppMod l r := by
  rw [cppMod_eq_emod l r hr]
  exact Int.emod_nonneg l (by omega)

theorem cppMod_lt (l r : Int) (hr : 0 < r) : cppMod l r < r := by
  rw [cppMod_eq_emod l r hr]
  exact Int.emod_lt_of_pos l hr

/-- `InnerProduct`: sum the pairwise products over the common prefix, reduce
once. -/
def innerProduct (lhs rhs : List Int) (p : Int) : Int :=
  cppMod ((List.zipWith (· * ·) lhs rhs).sum) p

/-- `MatrixProduct`; the inner bound is `lhs[0].size()` as in the source. -/
def matrixProduct (lhs rhs : List (List Int)) (p : Int) : List (List Int) :=
  lhs.map fun lrow =>
    (List.range ((rhs.headD []).length)).map fun j =>
      (List.range ((lhs.headD []).length)).foldl
        (fun cell k => cppMod (cell + lrow.getD k 0 * ((rhs.getD k []).getD j 0)) p) 0

/-- `Transpose` (square matrices only, exactly as the source). -/
def transpose (mat : List (List Int)) : List (List Int) :=
  (List.range mat.length).map fun i =>
    (List.range mat.length).map fun j => ((mat.getD j []).getD i 0)

theorem natAbs_tmod_lt (a b : Int) (hb : b ≠ 0) : (a.tmod b).natAbs < b.natAbs := by
  rcases lt_or_gt_of_ne hb with h | h
  · have h2 : (0 : Int) < -b := by omega
    have hlow := tmod_gt_neg a (-b) h2
    have hhigh := Int.tmod_lt_of_pos a h2
    rw [Int.tmod_neg] at hlow hhigh
    omega
  · have hlow := tmod_gt_neg a b h
    have hhigh := Int.tmod_lt_of_pos a h
    omega

/-- The extended-Euclid loop of `ModInverse`; returns the final `(r, t)`. -/
def egcd (r newr t newt : Int) : Int × Int :=
  if newr = 0 then (r, t)
  else egcd newr (r.tmod newr) newt (t - (r.tdiv newr) * newt)
termination_by newr.natAbs
decreasing_by
  rename_i hnz
  exact natAbs_tmod_lt r newr hnz

/-- `ModInverse`'s return value (`t`, shifted into `[0, p)` when negative). -/
def modInverseVal (n p : Int) : Int :=
  if (egcd p n 0 1).2 < 0 then (egcd p n 0 1).2 + p else (egcd p n 0 1).2

/-- `ModInverse` throws iff the final remainder exceeds 1. -/
def modInvertible (n p : Int) : Bool := decide ((egcd p n 0 1).1 ≤ 1)

/-- The `ElementarySymmetricTransform` DP table (`el[i][j]`), as a recursive
cell function; cells below the diagonal stay 0, exactly like the untouched
zero-initialised entries of the C++ table. -/
def elCell (v : List Int) : Nat → Nat → Int
  | _, 0 => 0
  | 0, _ + 1 => 0
  | 1, j + 1 => elCell v 1 j + v.getD j 0
  | i + 2, j + 1 =>
    if j + 1 < i + 2 then 0
    else elCell v (i + 1) j * v.getD j 0 + elCell v (i + 2) j

/-- `ElementarySymmetricTransform`: the last column of the DP table. -/
def elementarySymmetricTransform (v : List Int) (m : Nat) : List Int :=
  (List.range (m + 1)).map fun i => elCell v i v.length

/-- The row loop of `ConstructEncodingMatrix`: `[1, a, a^2, ...] mod p`. -/
def powRow (a p : Int) : Nat → Int → List Int
  | 0, _ => []
  | k + 1, elt => elt :: powRow a p k (cppMod (elt * a) p)

/-- `ConstructEncodingMatrix`: row `a` for `a = 1..n`. -/
def constructEncodingMatrix (m n : Nat) (p : Int) : List (List Int) :=
  (List.range n).map fun (a0 : Nat) => powRow ((a0 : Int) + 1) p m 1

/-- The `denominators` loop of `VandermondeInverse`. -/
def denomAt (basis : List Int) (p : Int) (i : Nat) : Int :=
  (List.range basis.length).foldl
    (fun prod j => if j = i then prod
      else cppMod (prod * (basis.getD i 0 - basis.getD j 0)) p) 1

/-- The synthetic-division cells of a `numerators` row (`row.back()` before
each push, with the alternating `sign`). -/
def numCell (bi p : Int) (el : List Int) : Nat → Int
  | 0 => 1
  | k + 1 =>
    cppMod (cppMod (numCell bi p el k * bi) p +
      (if (k + 1) % 2 = 1 then -1 else 1) * el.getD (k + 1) 0) p

/-- A full `numerators` row after the `std::reverse`. -/
def numRow (bi p : Int) (el : List Int) (m : Nat) : List Int :=
  ((List.range m).map (numCell bi p el)).reverse

/-- `VandermondeInverse` (the `inverses` memoisation map caches a pure
function and is semantically transparent, so it is omitted). -/
def vandermondeInverse (basis : List Int) (p : Int) : List (List Int) :=
  transpose ((List.range basis.length).map fun i =>
    (numRow (basis.getD i 0) p
        (elementarySymmetricTransform basis basis.length) basis.length).map
      fun num => cppMod (num * modInverseVal (denomAt basis p i) p) p)

/-- `SplitToSegments` (faithful for `m ≥ 1`, which the constructor's
`n > m` check plus nonzero `m` guarantee): chunks of `m`, the last one
zero-padded to length `m`. -/
def splitToSegments (m : Nat) : List Int → List (List Int)
  | [] => []
  | x :: rest =>
    ((x :: rest).take m ++ List.replicate (m - ((x :: rest).take m).length) 0) ::
      splitToSegments m (rest.drop (m - 1))
termination_by l => l.length
decreasing_by
  simp only [List.length_drop, List.length_cons]
  omega

/-- `IDA::Encode`. -/
def encode (n m : Nat) (p : Int) (v : List Int) : List (List Int) :=
  (constructEncodingMatrix m n p).map fun row =>
    (splitToSegments m v).map fun seg => innerProduct row seg p

/-- `AllZeroes`. -/
def allZeroes (v : List Int) : Bool := v.all fun x => decide (x = 0)

/-- `IDA::Decode`.  The three error exits model the "`m` frags are required"
throw, the `ModInverse` "not invertible" throw, and the undefined `back()`
on an emptied segment list (reached when every reconstructed segment is
all-zero). -/
def decode (m : Nat) (p : Int) (encoded : List (List Int))
    (fragIndices : List Int) : Except Unit (List Int) :=
  if encoded.length < m then .error ()
  else
    let firstM := fragIndices.take m
    if ¬ ((List.range firstM.length).all fun i =>
        modInvertible (denomAt firstM p i) p) then .error ()
    else
      let output := matrixProduct (vandermondeInverse firstM p) encoded p
      let segs := (List.range ((output.headD []).length)).map fun i =>
        (List.range output.length).map fun j => (output.getD j []).getD i 0
      let segs' := (segs.reverse.dropWhile allZeroes).reverse
      match segs'.getLast? with
      | none => .error ()
      | some lastSeg =>
        .ok ((segs'.dropLast ++
          [(lastSeg.reverse.dropWhile (fun x => decide (x = 0))).reverse]).flatten)

end IDA

namespace IDA

unseal splitToSegments egcd in
/-- **C1 (counterexample).** The decoder's zero-stripping eats *content*
zeros, not just padding: `v = [1, 0]` (its length 2 is a multiple of
`m = 2`, so there is no padding at all) encodes under `n = 3, m = 2, p = 5`
to three fragments, and decoding from fragments 1 and 2 returns `[1]`,
not `[1, 0]`. -/
theorem c1_round_trip_counterexample :
    encode 3 2 5 [1, 0] = [[1], [1], [1]] ∧
    decode 2 5 ((encode 3 2 5 [1, 0]).take 2) [1, 2] = .ok [1] ∧
    ¬ (([1] : List Int) = [1, 0]) := by
  refine ⟨by decide, by rfl, by decide⟩

theorem splitToSegments_small (m : Nat) (v : List Int) (hv : v ≠ [])
    (hlen : v.length ≤ m) :
    splitToSegments m v = [v ++ List.replicate (m - v.length) 0] := by
  cases v with
  | nil => exact absurd rfl hv
  | cons x rest =>
    rw [splitToSegments]
    have h1 : (x :: rest).take m = x :: rest := List.take_of_length_le hlen
    have h2 : rest.drop (m - 1) = [] := List.drop_eq_nil_of_le (by
      simp only [List.length_cons] at hlen
      omega)
    rw [h1, h2, splitToSegments]

theorem splitToSegments_big (m : Nat) (hm : 0 < m) (v : List Int)
    (hlen : m < v.length) :
    splitToSegments m v = v.take m :: splitToSegments m (v.drop m) := by
  cases v with
  | nil => simp at hlen
  | cons x rest =>
    rw [splitToSegments]
    have h1 : ((x :: rest).take m).length = m := by
      rw [List.length_take]
      simp only [List.length_cons] at hlen ⊢
      omega
    rw [h1]
    simp only [Nat.sub_self, List.replicate_zero, List.append_nil]
    congr 1
    cases m with
    | zero => omega
    | succ m' => simp [List.drop_succ_cons]

theorem splitToSegments_ne_nil (m : Nat) (v : List Int) (hv : v ≠ []) :
    splitToSegments m v ≠ [] := by
  cases v with
  | nil => exact absurd rfl hv
  | cons x rest =>
    rw [splitToSegments]
    simp

theorem dropWhile_replicate_zero (k : Nat) (w : List Int) :
    (List.replicate k (0 : Int) ++ w).dropWhile (fun x => decide (x = 0)) =
      w.dropWhile (fun x => decide (x = 0)) := by
  induction k with
  | zero => rfl
  | succ k ih => simpa [List.replicate_succ, List.dropWhile_cons] using ih

theorem dropWhile_head_false {α : Type} (p : α → Bool) (l : List α)
    (h : ∀ a t, l = a :: t → p a = false) : l.dropWhile p = l := by
  cases l with
  | nil => rfl
  | cons a t => rw [List.dropWhile_cons, h a t rfl]; simp

/-- The stripping phase of `Decode`, run on the exact segment list of a
vector with a nonzero final element, reconstructs the vector: the trailing
all-zero-segment loop drops nothing and the in-segment loop removes exactly
the padding. -/
theorem strip_split (m : Nat) (hm : 0 < m) :
    ∀ N (v : List Int) (hv : v ≠ []), v.getLast hv ≠ 0 → v.length ≤ N →
    ((splitToSegments m v).reverse.dropWhile allZeroes).reverse = splitToSegments m v ∧
    ∃ L, (splitToSegments m v).getLast? = some L ∧
      ((splitToSegments m v).dropLast ++
        [(L.reverse.dropWhile (fun x => decide (x = 0))).reverse]).flatten = v := by
  intro N
  induction N with
  | zero =>
    intro v hv _ hN
    cases v with
    | nil => exact absurd rfl hv
    | cons x rest => simp at hN
  | succ N ih =>
    intro v hv hlast hN
    by_cases hsmall : v.length ≤ m
    · rw [splitToSegments_small m v hv hsmall]
      have hGL : v.getLast hv ∈ v := List.getLast_mem hv
      have haz : allZeroes (v ++ List.replicate (m - v.length) 0) = false := by
        cases hc : allZeroes (v ++ List.replicate (m - v.length) 0) with
        | false => rfl
        | true =>
          have := List.all_eq_true.mp hc (v.getLast hv) (by
            simp only [List.mem_append]
            exact Or.inl hGL)
          simp at this
          exact absurd this hlast
      have hstrip : ((v ++ List.replicate (m - v.length) 0).reverse.dropWhile
          (fun x => decide (x = 0))).reverse = v := by
        rw [List.reverse_append, List.reverse_replicate, dropWhile_replicate_zero]
        have hvr : v.reverse.dropWhile (fun x => decide (x = 0)) = v.reverse := by
          apply dropWhile_head_false
          intro a t hat
          have h0 : v.reverse.head? = some a := by rw [hat]; rfl
          rw [List.head?_reverse] at h0
          have h1 := List.getLast?_eq_getLast v hv
          rw [h1] at h0
          injection h0 with h2
          simp [← h2, hlast]
        rw [hvr, List.reverse_reverse]
      refine ⟨?_, ⟨v ++ List.replicate (m - v.length) 0, rfl, ?_⟩⟩
      · simp only [List.reverse_cons, List.reverse_nil, List.nil_append,
          List.dropWhile_cons, haz]
        rfl
      · simp only [List.dropLast_single, List.nil_append, hstrip]
        simp
    · push_neg at hsmall
      rw [splitToSegments_big m hm v hsmall]
      have hdne : v.drop m ≠ [] := by
        have : (v.drop m).length = v.length - m := List.length_drop m v
        intro hc
        rw [hc] at this
        simp only [List.length_nil] at this
        omega
      have hdl : (v.drop m).getLast hdne = v.getLast hv := by
        have h1 := List.getLast?_eq_getLast (v.drop m) hdne
        have h2 := List.getLast?_eq_getLast v hv
        have h3 : (v.drop m).getLast? = v.getLast? := by
          rw [List.getLast?_drop]
          rw [if_neg (by omega)]
        rw [h1, h2] at h3
        injection h3
      have ihm := ih (v.drop m) hdne (by rw [hdl]; exact hlast) (by
        have := List.length_drop m v
        omega)
      obtain ⟨ih1, L, ihL, ih2⟩ := ihm
      have hSne : splitToSegments m (v.drop m) ≠ [] :=
        splitToSegments_ne_nil m (v.drop m) hdne
      have hrevdw : (splitToSegments m (v.drop m)).reverse.dropWhile allZeroes =
          (splitToSegments m (v.drop m)).reverse := by
        have := congrArg List.reverse ih1
        rwa [List.reverse_reverse] at this
      constructor
      · rw [List.reverse_cons, List.dropWhile_append]
        rw [hrevdw]
        have hrne : ((splitToSegments m (v.drop m)).reverse).isEmpty = false := by
          cases hce : (splitToSegments m (v.drop m)).reverse with
          | nil =>
            have := congrArg List.reverse hce
            rw [List.reverse_reverse] at this
            exact absurd this hSne
          | cons a t => rfl
        rw [hrne]
        simp only [Bool.false_eq_true, if_false]
        rw [← List.reverse_cons]
        rw [List.reverse_reverse]
      · refine ⟨L, ?_, ?_⟩
        · cases hce : splitToSegments m (v.drop m) with
          | nil => exact absurd hce hSne
          | cons b t =>
            rw [List.getLast?_cons_cons, ← hce, ihL]
        · have hdlc : (v.take m :: splitToSegments m (v.drop m)).dropLast =
              v.take m :: (splitToSegments m (v.drop m)).dropLast := by
            cases hce : splitToSegments m (v.drop m) with
            | nil => exact absurd hce hSne
            | cons a t => rfl
          rw [hdlc]
          simp only [List.cons_append, List.flatten_cons]
          rw [ih2, List.take_append_drop]

theorem int_gcd_step (r newr : Int) (hr : 0 ≤ r) (hnr : 0 ≤ newr) :
    Int.gcd newr (r % newr) = Int.gcd r newr := by
  obtain ⟨a, rfl⟩ : ∃ a : Nat, r = (a : Int) := ⟨r.toNat, (Int.toNat_of_nonneg hr).symm⟩
  obtain ⟨b, rfl⟩ : ∃ b : Nat, newr = (b : Int) := ⟨newr.toNat, (Int.toNat_of_nonneg hnr).symm⟩
  have he : ((a : Int) % (b : Int)) = ((a % b : Nat) : Int) := by omega
  rw [he]
  unfold Int.gcd
  simp only [Int.natAbs_ofNat]
  rw [Nat.gcd_comm b (a % b), ← Nat.gcd_rec b a, Nat.gcd_comm b a]

/-- Invariants of the `ModInverse` loop: the final remainder is the gcd and
every remainder stays congruent to `t * n` modulo `p`. -/
theorem egcd_spec (n pp : Int) :
    ∀ k, ∀ r newr t newt : Int, newr.natAbs = k →
      0 ≤ r → 0 ≤ newr →
      Int.ModEq pp r (t * n) → Int.ModEq pp newr (newt * n) →
      ((egcd r newr t newt).1 = (Int.gcd r newr : Int)) ∧
      Int.ModEq pp (egcd r newr t newt).1 ((egcd r newr t newt).2 * n) := by
  intro k
  induction k using Nat.strong_induction_on with
  | _ k ih =>
    intro r newr t newt hk hr hnr hmr hmnr
    rw [egcd]
    split_ifs with h0
    · subst h0
      constructor
      · rw [Int.gcd_zero_right]
        exact (Int.natAbs_of_nonneg hr).symm
      · exact hmr
    · have htm : r.tmod newr = r % newr := Int.tmod_eq_emod hr hnr
      have hnr' : 0 ≤ r.tmod newr := by
        rw [htm]
        exact Int.emod_nonneg r h0
      have hdec : (r.tmod newr).natAbs < k := by
        rw [← hk]
        exact natAbs_tmod_lt r newr h0
      have hstep : Int.ModEq pp (r.tmod newr) ((t - r.tdiv newr * newt) * n) := by
        have h1 : r.tmod newr = r - newr * (r.tdiv newr) := Int.tmod_def r newr
        rw [h1]
        calc r - newr * r.tdiv newr
            ≡ t * n - newt * n * r.tdiv newr [ZMOD pp] :=
              hmr.sub (hmnr.mul_right (r.tdiv newr))
          _ = (t - r.tdiv newr * newt) * n := by ring
      obtain ⟨g1, g2⟩ := ih (r.tmod newr).natAbs hdec newr (r.tmod newr) newt
        (t - r.tdiv newr * newt) rfl hnr hnr' hmnr hstep
      refine ⟨?_, g2⟩
      rw [g1, htm]
      exact_mod_cast congrArg (fun x : Nat => (x : Int)) (int_gcd_step r newr hr hnr)

/-- `ModInverse` on a unit mod a prime-like modulus: no throw, and the result
is a modular inverse. -/
theorem modInverse_spec (n p : Int) (hp : 1 < p) (hn : 0 ≤ n)
    (hgcd : Int.gcd n p = 1) :
    modInvertible n p = true ∧
    Int.ModEq p (modInverseVal n p * n) 1 := by
  have hm1 : Int.ModEq p p ((0 : Int) * n) := by
    unfold Int.ModEq
    simp
  have hm2 : Int.ModEq p n ((1 : Int) * n) := by rw [one_mul]
  obtain ⟨g1, g2⟩ := egcd_spec n p n.natAbs p n 0 1 rfl (by omega) hn hm1 hm2
  have hg : Int.gcd p n = 1 := by rw [Int.gcd_comm]; exact hgcd
  rw [hg] at g1
  constructor
  · unfold modInvertible
    rw [g1]
    simp
  · rw [g1] at g2
    push_cast at g2
    unfold modInverseVal
    have hnp0 : Int.ModEq p (n * p) 0 := Int.modEq_zero_iff_dvd.mpr ⟨n, mul_comm n p⟩
    split_ifs with hneg
    · calc ((egcd p n 0 1).2 + p) * n
          = (egcd p n 0 1).2 * n + n * p := by ring
        _ ≡ (egcd p n 0 1).2 * n + 0 [ZMOD p] := (Int.ModEq.refl _).add hnp0
        _ = (egcd p n 0 1).2 * n := by ring
        _ ≡ 1 [ZMOD p] := g2.symm
    · exact g2.symm

/-! The mathematical ledger for `ElementarySymmetricTransform` and the
synthetic-division `numerators`: elementary symmetric functions of a list,
and the coefficients of `∏ (X - C xᵢ)`. -/

def esymmL {R : Type} [CommRing R] : List R → Nat → R
  | _, 0 => 1
  | [], _ + 1 => 0
  | x :: t, k + 1 => esymmL t (k + 1) + x * esymmL t k

theorem esymmL_zero {R : Type} [CommRing R] (l : List R) : esymmL l 0 = 1 := by
  cases l <;> rfl

theorem esymmL_eq_zero_of_lt {R : Type} [CommRing R] (l : List R) :
    ∀ k, l.length < k → esymmL l k = 0 := by
  induction l with
  | nil =>
    intro k hk
    cases k with
    | zero => simp at hk
    | succ k' => rfl
  | cons x t ih =>
    intro k hk
    cases k with
    | zero => simp at hk
    | succ k' =>
      simp only [List.length_cons] at hk
      rw [esymmL, ih (k' + 1) (by omega)]
      cases k' with
      | zero => omega
      | succ k'' =>
        rw [ih (k'' + 1) (by omega)]
        ring

theorem esymmL_cons {R : Type} [CommRing R] (x : R) (t : List R) (k : Nat) :
    esymmL (x :: t) (k + 1) = esymmL t (k + 1) + x * esymmL t k := rfl

theorem esymmL_append {R : Type} [CommRing R] (l : List R) (x : R) :
    ∀ k, esymmL (l ++ [x]) (k + 1) = esymmL l (k + 1) + x * esymmL l k := by
  induction l with
  | nil =>
    intro k
    cases k with
    | zero => rfl
    | succ k' => rfl
  | cons y t ih =>
    intro k
    cases k with
    | zero =>
      simp only [List.cons_append, esymmL_cons, esymmL_zero, ih 0]
      ring
    | succ k' =>
      simp only [List.cons_append, esymmL_cons, ih (k' + 1), ih k']
      ring

theorem esymmL_middle {R : Type} [CommRing R] (b : R) (post : List R) :
    ∀ (pre : List R) (k : Nat),
      esymmL (pre ++ b :: post) (k + 1) =
        esymmL (pre ++ post) (k + 1) + b * esymmL (pre ++ post) k := by
  intro pre
  induction pre with
  | nil => intro k; rfl
  | cons y t ih =>
    intro k
    cases k with
    | zero =>
      simp only [List.cons_append, esymmL_cons, esymmL_zero, ih 0]
      ring
    | succ k' =>
      simp only [List.cons_append, esymmL_cons, ih (k' + 1), ih k']
      ring

theorem esymmL_hom {R S : Type} [CommRing R] [CommRing S] (f : R →+* S)
    (l : List R) : ∀ k, f (esymmL l k) = esymmL (l.map f) k := by
  induction l with
  | nil =>
    intro k
    cases k with
    | zero => simp [esymmL_zero]
    | succ k' => show f 0 = _; simp; rfl
  | cons x t ih =>
    intro k
    cases k with
    | zero => simp [esymmL_zero]
    | succ k' =>
      show f (esymmL t (k' + 1) + x * esymmL t k') = _
      rw [map_add, map_mul, ih, ih]
      rfl

open Polynomial in
/-- Coefficients of `∏ (X - C xᵢ)` are signed elementary symmetric
functions. -/
theorem psi_coeff {R : Type} [CommRing R] (l : List R) :
    ∀ j, ((l.map fun x => (X : R[X]) - C x).prod).coeff j =
      if j ≤ l.length then (-1) ^ (l.length - j) * esymmL l (l.length - j)
      else 0 := by
  induction l with
  | nil =>
    intro j
    simp only [List.map_nil, List.prod_nil, List.length_nil]
    cases j with
    | zero => simp [esymmL_zero]
    | succ j' => simp [Polynomial.coeff_one]
  | cons x t ih =>
    intro j
    simp only [List.map_cons, List.prod_cons, List.length_cons]
    rw [sub_mul, Polynomial.coeff_sub, Polynomial.coeff_C_mul]
    cases j with
    | zero =>
      rw [Polynomial.mul_coeff_zero, Polynomial.coeff_X_zero, zero_mul]
      rw [ih 0]
      simp only [Nat.zero_le, if_true, Nat.sub_zero]
      rw [esymmL_cons, esymmL_eq_zero_of_lt t (t.length + 1) (by omega)]
      ring_nf
    | succ j' =>
      rw [Polynomial.coeff_X_mul, ih j', ih (j' + 1)]
      by_cases h1 : j' + 1 ≤ t.length
      · rw [if_pos (by omega), if_pos h1, if_pos (by omega)]
        have hd : t.length + 1 - (j' + 1) = t.length - j' := by omega
        rw [hd]
        have hpos : 1 ≤ t.length - j' := by omega
        have hd2 : t.length - j' = (t.length - (j' + 1)) + 1 := by omega
        rw [hd2, esymmL_cons]
        rw [pow_succ]
        ring
      · by_cases h2 : j' ≤ t.length
        · have hj : j' = t.length := by omega
          rw [if_pos h2, if_neg h1, if_pos (by omega)]
          rw [hj, Nat.sub_self, show t.length + 1 - (t.length + 1) = 0 by omega]
          rw [esymmL_zero, esymmL_zero]
          ring
        · rw [if_neg h2, if_neg h1, if_neg (by omega)]
          ring

/-- The `ElementarySymmetricTransform` DP cells compute the elementary
symmetric functions of the prefixes (row `i`, column `j` holds `eᵢ` of the
first `j` values). -/
theorem elCell_eq (v : List Int) : ∀ j i, 1 ≤ i →
    elCell v i j = esymmL (v.take j) i := by
  intro j
  induction j with
  | zero =>
    intro i hi
    cases i with
    | zero => omega
    | succ i' =>
      cases i' with
      | zero => rfl
      | succ i'' => rfl
  | succ j ihj =>
    intro i hi
    cases i with
    | zero => omega
    | succ i' =>
      cases i' with
      | zero =>
        rw [show elCell v 1 (j + 1) = elCell v 1 j + v.getD j 0 from rfl]
        rw [ihj 1 (by omega)]
        by_cases hjlen : j < v.length
        · have htake : v.take (j + 1) = v.take j ++ [v.getD j 0] := by
            rw [List.take_succ]
            congr 1
            rw [List.getElem?_eq_getElem hjlen, List.getD_eq_getElem v 0 hjlen]
            rfl
          rw [htake, esymmL_append _ _ 0, esymmL_zero]
          ring
        · have h1 : v.take (j + 1) = v.take j := by
            rw [List.take_of_length_le (by omega), List.take_of_length_le (by omega)]
          have h2 : v.getD j 0 = 0 := List.getD_eq_default v 0 (by omega)
          rw [h1, h2]
          ring
      | succ i'' =>
        rw [show elCell v (i'' + 2) (j + 1) =
          (if j + 1 < i'' + 2 then 0
           else elCell v (i'' + 1) j * v.getD j 0 + elCell v (i'' + 2) j) from rfl]
        split_ifs with hlt
        · rw [esymmL_eq_zero_of_lt _ _ (by
            rw [List.length_take]
            omega)]
        · by_cases hjlen : j < v.length
          · have htake : v.take (j + 1) = v.take j ++ [v.getD j 0] := by
              rw [List.take_succ]
              congr 1
              rw [List.getElem?_eq_getElem hjlen, List.getD_eq_getElem v 0 hjlen]
              rfl
            rw [htake, esymmL_append _ _ (i'' + 1)]
            rw [ihj (i'' + 2) (by omega), ihj (i'' + 1) (by omega)]
            ring
          · have h1 : v.take (j + 1) = v.take j := by
              rw [List.take_of_length_le (by omega), List.take_of_length_le (by omega)]
            have h2 : v.getD j 0 = 0 := List.getD_eq_default v 0 (by omega)
            rw [h1, h2, ihj (i'' + 2) (by omega)]
            ring

theorem elST_getD (v : List Int) (mm k : Nat) (hk : k < mm + 1) :
    (elementarySymmetricTransform v mm).getD k 0 = elCell v k v.length := by
  unfold elementarySymmetricTransform
  rw [List.getD_eq_getElem?_getD, List.getElem?_map, List.getElem?_range hk]
  rfl

theorem cppMod_modeq (x p : Int) (hp : 0 < p) : Int.ModEq p (cppMod x p) x := by
  rw [cppMod_eq_emod x p hp]
  exact Int.emod_emod_of_dvd x dvd_rfl

/-- A `numerators` cell is congruent to the synthetic-division partial sum
`∑ (-1)^t e_t b^(k-t)` over the full basis. -/
theorem numCell_modeq (bb p : Int) (hp : 0 < p) (basis : List Int) :
    ∀ k, k ≤ basis.length →
      Int.ModEq p
        (numCell bb p (elementarySymmetricTransform basis basis.length) k)
        (∑ t ∈ Finset.range (k + 1),
          (-1) ^ t * esymmL basis t * bb ^ (k - t)) := by
  intro k
  induction k with
  | zero =>
    intro _
    simp [numCell, esymmL_zero]
  | succ k ih =>
    intro hk1
    have hsgn : (if (k + 1) % 2 = 1 then (-1 : Int) else 1) = (-1) ^ (k + 1) := by
      rcases Nat.even_or_odd (k + 1) with he | ho
      · rw [if_neg (by
          have := Nat.even_iff.mp he
          omega), he.neg_one_pow]
      · rw [if_pos (Nat.odd_iff.mp ho), Odd.neg_one_pow ho]
    have hel : (elementarySymmetricTransform basis basis.length).getD (k + 1) 0 =
        esymmL basis (k + 1) := by
      rw [elST_getD basis basis.length (k + 1) (by omega)]
      rw [elCell_eq basis basis.length (k + 1) (by omega), List.take_length]
    have hstep : Int.ModEq p
        (numCell bb p (elementarySymmetricTransform basis basis.length) (k + 1))
        (numCell bb p (elementarySymmetricTransform basis basis.length) k * bb +
          (-1) ^ (k + 1) * esymmL basis (k + 1)) := by
      rw [show numCell bb p (elementarySymmetricTransform basis basis.length) (k + 1) =
        cppMod (cppMod (numCell bb p (elementarySymmetricTransform basis basis.length) k * bb) p +
          (if (k + 1) % 2 = 1 then -1 else 1) *
            (elementarySymmetricTransform basis basis.length).getD (k + 1) 0) p from rfl]
      rw [hsgn, hel]
      calc cppMod (cppMod (numCell bb p (elementarySymmetricTransform basis basis.length) k * bb) p +
            (-1) ^ (k + 1) * esymmL basis (k + 1)) p
          ≡ cppMod (numCell bb p (elementarySymmetricTransform basis basis.length) k * bb) p +
            (-1) ^ (k + 1) * esymmL basis (k + 1) [ZMOD p] := cppMod_modeq _ p hp
        _ ≡ numCell bb p (elementarySymmetricTransform basis basis.length) k * bb +
            (-1) ^ (k + 1) * esymmL basis (k + 1) [ZMOD p] :=
            (cppMod_modeq _ p hp).add (Int.ModEq.refl _)
    have hsum : (∑ t ∈ Finset.range (k + 1),
          (-1 : Int) ^ t * esymmL basis t * bb ^ (k - t)) * bb =
        ∑ t ∈ Finset.range (k + 1), (-1 : Int) ^ t * esymmL basis t * bb ^ (k + 1 - t) := by
      rw [Finset.sum_mul]
      apply Finset.sum_congr rfl
      intro t ht
      have htk := Finset.mem_range.mp ht
      rw [show k + 1 - t = (k - t) + 1 by omega, pow_succ]
      ring
    calc numCell bb p (elementarySymmetricTransform basis basis.length) (k + 1)
        ≡ numCell bb p (elementarySymmetricTransform basis basis.length) k * bb +
          (-1) ^ (k + 1) * esymmL basis (k + 1) [ZMOD p] := hstep
      _ ≡ (∑ t ∈ Finset.range (k + 1), (-1) ^ t * esymmL basis t * bb ^ (k - t)) * bb +
          (-1) ^ (k + 1) * esymmL basis (k + 1) [ZMOD p] :=
          ((ih (by omega)).mul_right bb).add (Int.ModEq.refl _)
      _ = ∑ t ∈ Finset.range (k + 1 + 1), (-1) ^ t * esymmL basis t * bb ^ (k + 1 - t) := by
          rw [hsum, Finset.sum_range_succ _ (k + 1)]
          rw [show k + 1 - (k + 1) = 0 by omega, pow_zero, mul_one]

theorem telescope_sum {R : Type} [CommRing R] (bb : R) (pre post : List R) :
    ∀ k, (∑ t ∈ Finset.range (k + 1),
        (-1) ^ t * esymmL (pre ++ bb :: post) t * bb ^ (k - t)) =
      (-1) ^ k * esymmL (pre ++ post) k := by
  intro k
  induction k with
  | zero => simp [esymmL_zero]
  | succ k ih =>
    rw [Finset.sum_range_succ]
    have hpull : ∑ t ∈ Finset.range (k + 1),
        (-1 : R) ^ t * esymmL (pre ++ bb :: post) t * bb ^ (k + 1 - t) =
        bb * ∑ t ∈ Finset.range (k + 1),
          (-1 : R) ^ t * esymmL (pre ++ bb :: post) t * bb ^ (k - t) := by
      rw [Finset.mul_sum]
      apply Finset.sum_congr rfl
      intro t ht
      have htk := Finset.mem_range.mp ht
      rw [show k + 1 - t = (k - t) + 1 by omega, pow_succ]
      ring
    rw [hpull, ih, esymmL_middle bb post pre k, pow_succ]
    simp
    ring

theorem intCast_cppMod (p : Nat) (hp : 0 < p) (x : Int) :
    ((cppMod x p : Int) : ZMod p) = (x : ZMod p) := by
  have h := cppMod_modeq x p (by exact_mod_cast hp)
  exact (ZMod.intCast_eq_intCast_iff _ _ _).mpr h

theorem list_range_prod {M : Type} [CommMonoid M] (n : Nat) (f : Nat → M) :
    ((List.range n).map f).prod = ∏ j ∈ Finset.range n, f j := by
  induction n with
  | zero => rfl
  | succ n ih =>
    rw [List.range_succ, List.map_append, List.prod_append, Finset.prod_range_succ, ih]
    simp

theorem list_range_sum {M : Type} [AddCommMonoid M] (n : Nat) (f : Nat → M) :
    ((List.range n).map f).sum = ∑ j ∈ Finset.range n, f j := by
  induction n with
  | zero => rfl
  | succ n ih =>
    rw [List.range_succ, List.map_append, List.sum_append, Finset.sum_range_succ, ih]
    simp

theorem zipWith_mul_sum_eq {R : Type} [CommRing R] :
    ∀ (l r : List R), l.length = r.length →
      (List.zipWith (· * ·) l r).sum =
        ∑ t ∈ Finset.range l.length, l.getD t 0 * r.getD t 0 := by
  intro l
  induction l with
  | nil =>
    intro r _
    simp
  | cons x t ih =>
    intro r hr
    cases r with
    | nil => simp at hr
    | cons y s =>
      simp only [List.length_cons] at hr
      rw [List.zipWith_cons_cons, List.sum_cons, ih s (by omega)]
      rw [List.length_cons, Finset.sum_range_succ']
      simp only [List.getD_cons_succ, List.getD_cons_zero]
      ring

theorem fold_cppMod_cast (p : Nat) (hp : 0 < p) (g : Nat → Int) :
    ∀ (L : List Nat) (acc : Int),
      (((L.foldl (fun cell k => cppMod (cell + g k) p) acc) : Int) : ZMod p) =
        (acc : ZMod p) + ((L.map fun k => ((g k : Int) : ZMod p)).sum) := by
  intro L
  induction L with
  | nil => intro acc; simp
  | cons j L' ih =>
    intro acc
    rw [List.foldl_cons, ih, List.map_cons, List.sum_cons, intCast_cppMod p hp]
    push_cast
    ring

theorem powRow_length (a p : Int) : ∀ cnt elt, (powRow a p cnt elt).length = cnt := by
  intro cnt
  induction cnt with
  | zero => intro elt; rfl
  | succ c ih => intro elt; rw [powRow, List.length_cons, ih]

theorem powRow_cast (a : Int) (p : Nat) (hp : 0 < p) :
    ∀ cnt (elt : Int) (t : Nat), t < cnt →
      (((powRow a p cnt elt).getD t 0 : Int) : ZMod p) =
        (elt : ZMod p) * (a : ZMod p) ^ t := by
  intro cnt
  induction cnt with
  | zero => intro elt t ht; omega
  | succ c ih =>
    intro elt t ht
    rw [powRow]
    cases t with
    | zero => simp
    | succ t' =>
      rw [List.getD_cons_succ, ih _ t' (by omega), intCast_cppMod p hp]
      push_cast
      ring

theorem encMatrix_getD (m n : Nat) (p : Int) (a : Nat) (ha1 : 1 ≤ a) (ha2 : a ≤ n) :
    (constructEncodingMatrix m n p).getD (a - 1) [] = powRow (a : Int) p m 1 := by
  unfold constructEncodingMatrix
  rw [List.getD_eq_getElem?_getD, List.getElem?_map, List.getElem?_range (by omega)]
  show powRow (((a - 1 : Nat) : Int) + 1) p m 1 = powRow (a : Int) p m 1
  congr 1
  omega

theorem splitToSegments_props (m : Nat) (hm : 0 < m) (pb : Int) :
    ∀ N (v : List Int), v.length ≤ N → (∀ x ∈ v, 0 ≤ x ∧ x < pb) → 0 < pb →
      ∀ seg ∈ splitToSegments m v, seg.length = m ∧ ∀ x ∈ seg, 0 ≤ x ∧ x < pb := by
  intro N
  induction N with
  | zero =>
    intro v hN _ _ seg hseg
    cases v with
    | nil => simp [splitToSegments] at hseg
    | cons x rest => simp at hN
  | succ N ih =>
    intro v hN hv hpb seg hseg
    by_cases hune : v = []
    · rw [hune] at hseg
      simp [splitToSegments] at hseg
    · by_cases hsmall : v.length ≤ m
      · rw [splitToSegments_small m v hune hsmall] at hseg
        simp only [List.mem_singleton] at hseg
        subst hseg
        constructor
        · rw [List.length_append, List.length_replicate]
          omega
        · intro y hy
          rcases List.mem_append.mp hy with h | h
          · exact hv y h
          · rw [List.eq_of_mem_replicate h]
            omega
      · push_neg at hsmall
        rw [splitToSegments_big m hm v hsmall] at hseg
        rcases List.mem_cons.mp hseg with rfl | hseg'
        · constructor
          · rw [List.length_take]
            omega
          · intro y hy
            exact hv y (List.mem_of_mem_take hy)
        · exact ih (v.drop m) (by
            rw [List.length_drop]
            omega) (fun y hy => hv y (List.mem_of_mem_drop hy)) hpb seg hseg'

theorem denomAt_nonneg (basis : List Int) (p : Int) (hp : 0 < p) (i : Nat) :
    0 ≤ denomAt basis p i := by
  unfold denomAt
  have H : ∀ (L : List Nat) (acc : Int), 0 ≤ acc →
      0 ≤ L.foldl (fun prod j => if j = i then prod
        else cppMod (prod * (basis.getD i 0 - basis.getD j 0)) p) acc := by
    intro L
    induction L with
    | nil => intro acc h; exact h
    | cons j L' ih =>
      intro acc h
      rw [List.foldl_cons]
      apply ih
      split_ifs
      · exact h
      · exact cppMod_nonneg _ p hp
  exact H _ 1 (by norm_num)

theorem denomAt_cast (p : Nat) (hp : 0 < p) (basis : List Int) (i : Nat)
    (hi : i < basis.length) :
    ((denomAt basis (p : Int) i : Int) : ZMod p) =
      ∏ j ∈ (Finset.range basis.length).erase i,
        (((basis.getD i 0 : Int) : ZMod p) - ((basis.getD j 0 : Int) : ZMod p)) := by
  have H : ∀ (L : List Nat) (acc : Int),
      ((L.foldl (fun prod j => if j = i then prod
        else cppMod (prod * (basis.getD i 0 - basis.getD j 0)) (p : Int)) acc : Int) : ZMod p) =
      (acc : ZMod p) * ((L.map fun j => if j = i then (1 : ZMod p)
        else (((basis.getD i 0 : Int) : ZMod p) - ((basis.getD j 0 : Int) : ZMod p))).prod) := by
    intro L
    induction L with
    | nil => intro acc; simp
    | cons j L' ih =>
      intro acc
      rw [List.foldl_cons, List.map_cons, List.prod_cons, ih]
      by_cases hj : j = i
      · rw [if_pos hj, if_pos hj]
        ring
      · rw [if_neg hj, if_neg hj, intCast_cppMod p hp]
        push_cast
        ring
  unfold denomAt
  rw [H _ 1]
  rw [list_range_prod basis.length]
  rw [← Finset.mul_prod_erase _ _ (Finset.mem_range.mpr hi), if_pos rfl]
  rw [Finset.prod_congr rfl (fun j hj => if_neg (Finset.mem_erase.mp hj).1)]
  push_cast
  ring

theorem denomAt_invertible (p : Nat) (hpp : p.Prime) (basis : List Int) (i : Nat)
    (hnz : ((denomAt basis (p : Int) i : Int) : ZMod p) ≠ 0) :
    modInvertible (denomAt basis (p : Int) i) (p : Int) = true ∧
    ((modInverseVal (denomAt basis (p : Int) i) (p : Int) : Int) : ZMod p) =
      (((denomAt basis (p : Int) i : Int) : ZMod p))⁻¹ := by
  have hp1 : 1 < p := hpp.one_lt
  have hd0 : 0 ≤ denomAt basis (p : Int) i :=
    denomAt_nonneg basis (p : Int) (by exact_mod_cast Nat.lt_of_lt_of_le Nat.zero_lt_one hp1.le) i
  have hndvd : ¬ ((p : Int) ∣ denomAt basis (p : Int) i) := by
    intro hdvd
    exact hnz ((ZMod.intCast_zmod_eq_zero_iff_dvd _ _).mpr hdvd)
  have hgcd : Int.gcd (denomAt basis (p : Int) i) (p : Int) = 1 := by
    have h2 : ¬ (p ∣ (denomAt basis (p : Int) i).natAbs) := by
      intro hc
      exact hndvd (Int.natCast_dvd.mpr hc)
    have hco := (Nat.Prime.coprime_iff_not_dvd hpp).mpr h2
    unfold Int.gcd
    rw [Int.natAbs_ofNat]
    exact Nat.coprime_comm.mp hco
  obtain ⟨g1, g2⟩ := modInverse_spec (denomAt basis (p : Int) i) (p : Int)
    (by exact_mod_cast hp1) hd0 hgcd
  refine ⟨g1, ?_⟩
  have hc : ((modInverseVal (denomAt basis (p : Int) i) (p : Int) : Int) : ZMod p) *
      ((denomAt basis (p : Int) i : Int) : ZMod p) = 1 := by
    have h3 := (ZMod.intCast_eq_intCast_iff _ _ _).mpr g2
    push_cast at h3
    exact h3
  haveI : Fact p.Prime := ⟨hpp⟩
  rw [mul_comm] at hc
  exact eq_inv_of_mul_eq_one_left ((mul_comm _ _).trans hc)

open Polynomial in
/-- A (reversed) `numerators` row is, modulo `p`, the coefficient list of
`∏_{l ≠ c} (X - C b_l)`: synthetic division of the full basis polynomial by
`(X - b_c)`. -/
theorem numRow_cast (p : Nat) (hp : 0 < p) (basis : List Int) (c j : Nat)
    (hc : c < basis.length) (hj : j < basis.length) :
    (((numRow (basis.getD c 0) (p : Int)
        (elementarySymmetricTransform basis basis.length) basis.length).getD j 0 : Int) : ZMod p) =
      (((basis.eraseIdx c).map fun x =>
        (X : Polynomial (ZMod p)) - C ((x : Int) : ZMod p)).prod).coeff j := by
  have h1 : (numRow (basis.getD c 0) (p : Int)
      (elementarySymmetricTransform basis basis.length) basis.length).getD j 0 =
      numCell (basis.getD c 0) (p : Int)
        (elementarySymmetricTransform basis basis.length) (basis.length - 1 - j) := by
    unfold numRow
    rw [List.getD_eq_getElem?_getD]
    rw [List.getElem?_reverse (by rw [List.length_map, List.length_range]; omega)]
    rw [List.length_map, List.length_range]
    rw [List.getElem?_map, List.getElem?_range (by omega)]
    rfl
  have h2 := (ZMod.intCast_eq_intCast_iff _ _ _).mpr
    (numCell_modeq (basis.getD c 0) (p : Int) (by exact_mod_cast hp) basis
      (basis.length - 1 - j) (by omega))
  have hsplit : basis = basis.take c ++ basis.getD c 0 :: basis.drop (c + 1) := by
    conv_lhs => rw [← List.take_append_drop c basis]
    congr 1
    rw [← List.getElem_cons_drop basis c hc]
    congr 1
    exact (List.getD_eq_getElem basis 0 hc).symm
  have h3 : (∑ t ∈ Finset.range ((basis.length - 1 - j) + 1),
      (-1 : Int) ^ t * esymmL basis t * (basis.getD c 0) ^ ((basis.length - 1 - j) - t)) =
      (-1) ^ (basis.length - 1 - j) *
        esymmL (basis.take c ++ basis.drop (c + 1)) (basis.length - 1 - j) := by
    have ht := telescope_sum (basis.getD c 0) (basis.take c) (basis.drop (c + 1))
      (basis.length - 1 - j)
    rw [← hsplit] at ht
    exact ht
  have h4 : basis.eraseIdx c = basis.take c ++ basis.drop (c + 1) :=
    List.eraseIdx_eq_take_drop_succ basis c
  have h5 : ((basis.eraseIdx c).map fun x =>
      (X : Polynomial (ZMod p)) - C ((x : Int) : ZMod p)) =
      (((basis.eraseIdx c).map fun x : Int => ((x : Int) : ZMod p)).map
        fun y => (X : Polynomial (ZMod p)) - C y) := by
    rw [List.map_map]
    rfl
  rw [h1, h2, h3, h5, psi_coeff]
  rw [List.length_map, h4, List.length_append, List.length_take, List.length_drop]
  rw [if_pos (by omega)]
  have hexp : min c basis.length + (basis.length - (c + 1)) - j = basis.length - 1 - j := by
    omega
  rw [hexp]
  have h6 : esymmL ((basis.take c ++ basis.drop (c + 1)).map
      fun x : Int => ((x : Int) : ZMod p)) (basis.length - 1 - j) =
      ((esymmL (basis.take c ++ basis.drop (c + 1)) (basis.length - 1 - j) : Int) : ZMod p) := by
    have h7 := esymmL_hom (Int.castRingHom (ZMod p)) (basis.take c ++ basis.drop (c + 1))
      (basis.length - 1 - j)
    simpa using h7.symm
  rw [h6]
  push_cast
  ring

theorem eraseIdx_map_prod_mul {α M : Type} [CommMonoid M] (L : List α) (c : Nat)
    (hc : c < L.length) (g : α → M) (d : α) :
    ((L.eraseIdx c).map g).prod * g (L.getD c d) = (L.map g).prod := by
  rw [List.eraseIdx_eq_take_drop_succ, List.getD_eq_getElem _ _ hc]
  conv_rhs => rw [← List.take_append_drop c L, ← List.getElem_cons_drop L c hc]
  rw [List.map_append, List.prod_append, List.map_append, List.prod_append,
    List.map_cons, List.prod_cons]
  ring_nf
  rw [mul_comm (g L[c]) _, ← mul_assoc]

theorem prod_univ_erase_eq {M : Type} [CommMonoid M] (m : Nat) (c : Fin m)
    (f : Nat → M) :
    ∏ j ∈ Finset.univ.erase c, f j.val = ∏ j ∈ (Finset.range m).erase c.val, f j := by
  have e1 : (∏ j ∈ Finset.univ.erase c, (if j = c then (1 : M) else f j.val)) =
      ∏ j ∈ (Finset.univ : Finset (Fin m)), (if j = c then 1 else f j.val) :=
    Finset.prod_erase Finset.univ (if_pos rfl)
  have e2 : ∏ j ∈ Finset.univ.erase c, f j.val =
      ∏ j ∈ Finset.univ.erase c, (if j = c then (1 : M) else f j.val) :=
    Finset.prod_congr rfl fun j hj => (if_neg (Finset.mem_erase.mp hj).1).symm
  have e3 : (∏ j ∈ (Finset.range m).erase c.val, (if j = c.val then (1 : M) else f j)) =
      ∏ j ∈ Finset.range m, (if j = c.val then 1 else f j) :=
    Finset.prod_erase (Finset.range m) (if_pos rfl)
  have e4 : ∏ j ∈ (Finset.range m).erase c.val, f j =
      ∏ j ∈ (Finset.range m).erase c.val, (if j = c.val then (1 : M) else f j) :=
    Finset.prod_congr rfl fun j hj => (if_neg (Finset.mem_erase.mp hj).1).symm
  rw [e2, e1, e4, e3]
  rw [← Fin.prod_univ_eq_prod_range (fun j => if j = c.val then 1 else f j) m]
  apply Finset.prod_congr rfl
  intro j _
  congr 1
  simp [Fin.ext_iff]

open Polynomial in
/-- `VandermondeInverse`'s row `c` data matches Mathlib's Lagrange basis
polynomial: the denominator is `∏_{j ≠ c} (b_c - b_j)` and the numerator
polynomial is `∏_{j ≠ c} (X - C b_j)`. -/
theorem lagrange_basis_eq (p : Nat) [Fact p.Prime] (basis : List Int)
    (c : Fin basis.length) :
    Lagrange.basis Finset.univ
      (fun i : Fin basis.length => ((basis.getD i.val 0 : Int) : ZMod p)) c =
      C ((∏ j ∈ (Finset.range basis.length).erase c.val,
          (((basis.getD c.val 0 : Int) : ZMod p) - ((basis.getD j 0 : Int) : ZMod p)))⁻¹) *
        ((basis.eraseIdx c.val).map fun x =>
          (X : Polynomial (ZMod p)) - C ((x : Int) : ZMod p)).prod := by
  rw [Lagrange.basis]
  simp only [Lagrange.basisDivisor]
  rw [Finset.prod_mul_distrib]
  congr 1
  · rw [← map_prod, ← Finset.prod_inv_distrib]
    congr 1
    exact prod_univ_erase_eq basis.length c
      (fun j => (((basis.getD c.val 0 : Int) : ZMod p) - ((basis.getD j 0 : Int) : ZMod p))⁻¹)
  · have hne : (X : Polynomial (ZMod p)) - C ((basis.getD c.val 0 : Int) : ZMod p) ≠ 0 :=
      Polynomial.X_sub_C_ne_zero _
    apply mul_right_cancel₀ hne
    rw [mul_comm]
    rw [Finset.mul_prod_erase Finset.univ
      (fun j : Fin basis.length =>
        (X : Polynomial (ZMod p)) - C ((basis.getD j.val 0 : Int) : ZMod p))
      (Finset.mem_univ c)]
    rw [eraseIdx_map_prod_mul basis c.val c.isLt
      (fun x => (X : Polynomial (ZMod p)) - C ((x : Int) : ZMod p)) 0]
    have hcongr : ∀ j ∈ (Finset.univ : Finset (Fin basis.length)),
        (X : Polynomial (ZMod p)) - C ((basis.getD j.val 0 : Int) : ZMod p) =
        (X : Polynomial (ZMod p)) - C ((basis[j.val] : Int) : ZMod p) := by
      intro j _
      rw [List.getD_eq_getElem basis 0 j.isLt]
    rw [Finset.prod_congr rfl hcongr]
    exact Fin.prod_univ_get' basis
      (fun x => (X : Polynomial (ZMod p)) - C ((x : Int) : ZMod p))

theorem numRow_length (bi p : Int) (el : List Int) (m : Nat) :
    (numRow bi p el m).length = m := by
  unfold numRow
  rw [List.length_reverse, List.length_map, List.length_range]

theorem range_map_getD {beta : Type} (n : Nat) (f : Nat → beta) (i : Nat) (d : beta)
    (hi : i < n) : ((List.range n).map f).getD i d = f i := by
  rw [List.getD_eq_getElem?_getD, List.getElem?_map, List.getElem?_range hi]
  rfl

theorem map_getD_of_lt {α beta : Type} (f : α → beta) (l : List α) (i : Nat)
    (d : beta) (e : α) (hi : i < l.length) :
    (l.map f).getD i d = f (l.getD i e) := by
  rw [List.getD_eq_getElem?_getD, List.getElem?_map, List.getElem?_eq_getElem hi]
  simp only [Option.map_some', Option.getD_some]
  rw [List.getD_eq_getElem _ _ hi]

theorem transpose_entry (mat : List (List Int)) (i k : Nat) (hi : i < mat.length)
    (hk : k < mat.length) :
    ((transpose mat).getD i []).getD k 0 = (mat.getD k []).getD i 0 := by
  unfold transpose
  have h1 : ((List.range mat.length).map (fun i0 => (List.range mat.length).map
      (fun j => (mat.getD j []).getD i0 0))).getD i [] =
      (List.range mat.length).map (fun j => (mat.getD j []).getD i 0) :=
    range_map_getD mat.length _ i [] hi
  rw [h1]
  exact range_map_getD mat.length _ k 0 hk

theorem vandermondeInverse_entry (basis : List Int) (p : Int) (i k : Nat)
    (hi : i < basis.length) (hk : k < basis.length) :
    ((vandermondeInverse basis p).getD i []).getD k 0 =
      cppMod ((numRow (basis.getD k 0) p
          (elementarySymmetricTransform basis basis.length) basis.length).getD i 0 *
        modInverseVal (denomAt basis p k) p) p := by
  unfold vandermondeInverse
  rw [transpose_entry _ i k (by simp [hi]) (by simp [hk])]
  rw [range_map_getD basis.length _ k [] hk]
  exact map_getD_of_lt _ _ i 0 0 (by rw [numRow_length]; exact hi)

theorem headD_eq_getD_zero {α : Type} (l : List α) (d : α) : l.headD d = l.getD 0 d := by
  cases l <;> rfl

theorem fold_cppMod_bounds (p : Int) (hp : 0 < p) (g : Nat → Int) :
    ∀ (L : List Nat) (acc : Int), 0 ≤ acc → acc < p →
      0 ≤ L.foldl (fun cell k => cppMod (cell + g k) p) acc ∧
      L.foldl (fun cell k => cppMod (cell + g k) p) acc < p := by
  intro L
  induction L with
  | nil =>
    intro acc h1 h2
    exact ⟨h1, h2⟩
  | cons j L' ih =>
    intro acc h1 h2
    rw [List.foldl_cons]
    exact ih _ (cppMod_nonneg _ p hp) (cppMod_lt _ p hp)

theorem encoded_entry_cast (p : Nat) (hp : 0 < p) (mm : Nat) (a : Int)
    (segs : List (List Int)) (hsegs : ∀ seg ∈ segs, seg.length = mm)
    (s : Nat) (hs : s < segs.length) :
    (((segs.map fun seg => innerProduct (powRow a (p : Int) mm 1) seg (p : Int)).getD s 0 : Int) : ZMod p) =
      ∑ t ∈ Finset.range mm,
        (((segs.getD s []).getD t 0 : Int) : ZMod p) * ((a : Int) : ZMod p) ^ t := by
  rw [map_getD_of_lt _ _ s 0 [] hs]
  unfold innerProduct
  rw [intCast_cppMod p hp]
  have hmem : segs.getD s [] ∈ segs := by
    rw [List.getD_eq_getElem _ _ hs]
    exact List.getElem_mem hs
  have hlen1 : (powRow a (p : Int) mm 1).length = mm := powRow_length a (p : Int) mm 1
  have hlen2 : (segs.getD s []).length = mm := hsegs _ hmem
  rw [zipWith_mul_sum_eq _ _ (by rw [hlen1, hlen2])]
  rw [hlen1]
  push_cast
  apply Finset.sum_congr rfl
  intro t ht
  rw [powRow_cast a p hp mm 1 t (Finset.mem_range.mp ht)]
  push_cast
  ring

open Polynomial in
/-- An entry of the computed `VandermondeInverse` is the matching coefficient
of the Lagrange basis polynomial. -/
theorem inv_entry_coeff (p : Nat) [Fact p.Prime] (basis : List Int)
    (hinj : ∀ a, a < basis.length → ∀ b, b < basis.length →
      ((basis.getD a 0 : Int) : ZMod p) = ((basis.getD b 0 : Int) : ZMod p) → a = b)
    (i : Nat) (hi : i < basis.length) (k : Fin basis.length) :
    ((((vandermondeInverse basis (p : Int)).getD i []).getD k.val 0 : Int) : ZMod p) =
      (Lagrange.basis Finset.univ
        (fun t : Fin basis.length => ((basis.getD t.val 0 : Int) : ZMod p)) k).coeff i := by
  have hp : 0 < p := (Fact.out : p.Prime).pos
  rw [vandermondeInverse_entry basis (p : Int) i k.val hi k.isLt]
  rw [intCast_cppMod p hp]
  push_cast
  rw [numRow_cast p hp basis k.val i k.isLt hi]
  have hdnz : ((denomAt basis (p : Int) k.val : Int) : ZMod p) ≠ 0 := by
    rw [denomAt_cast p hp basis k.val k.isLt]
    apply Finset.prod_ne_zero_iff.mpr
    intro j hj
    have hjm := Finset.mem_erase.mp hj
    have hjr := Finset.mem_range.mp hjm.2
    apply sub_ne_zero.mpr
    intro heq
    exact hjm.1 (hinj k.val k.isLt j hjr heq).symm
  obtain ⟨hg1, hg2⟩ := denomAt_invertible p Fact.out basis k.val hdnz
  rw [hg2, denomAt_cast p hp basis k.val k.isLt]
  rw [lagrange_basis_eq p basis k]
  rw [Polynomial.coeff_C_mul]
  ring

theorem transpose_length (mat : List (List Int)) :
    (transpose mat).length = mat.length := by
  unfold transpose
  rw [List.length_map, List.length_range]

theorem transpose_row_length (mat : List (List Int)) (i : Nat) (hi : i < mat.length) :
    ((transpose mat).getD i []).length = mat.length := by
  unfold transpose
  rw [range_map_getD mat.length _ i [] hi, List.length_map, List.length_range]

theorem vandermondeInverse_length (basis : List Int) (p : Int) :
    (vandermondeInverse basis p).length = basis.length := by
  unfold vandermondeInverse
  rw [transpose_length, List.length_map, List.length_range]

theorem vandermondeInverse_head_length (basis : List Int) (p : Int)
    (h : 0 < basis.length) :
    ((vandermondeInverse basis p).headD []).length = basis.length := by
  rw [headD_eq_getD_zero]
  unfold vandermondeInverse
  rw [transpose_row_length _ 0 (by rw [List.length_map, List.length_range]; exact h)]
  rw [List.length_map, List.length_range]

theorem range_map_getD_self {α : Type} (l : List α) (d : α) :
    (List.range l.length).map (fun j => l.getD j d) = l := by
  apply List.ext_getElem
  · rw [List.length_map, List.length_range]
  · intro n h1 h2
    rw [List.getElem_map, List.getElem_range]
    exact List.getD_eq_getElem l d h2

open Polynomial in
/-- The core algebraic fact of `Decode`: multiplying the computed Vandermonde
inverse by the encoded fragment matrix recovers every original segment entry
exactly (as integers), via Lagrange interpolation over `ZMod p`. -/
theorem output_entry (p : Nat) [Fact p.Prime] (basis : List Int)
    (hinj : ∀ a, a < basis.length → ∀ b, b < basis.length →
      ((basis.getD a 0 : Int) : ZMod p) = ((basis.getD b 0 : Int) : ZMod p) → a = b)
    (segs : List (List Int))
    (hsegs : ∀ seg ∈ segs, seg.length = basis.length)
    (hbnd : ∀ seg ∈ segs, ∀ x ∈ seg, 0 ≤ x ∧ x < (p : Int))
    (M E : List (List Int))
    (hM : M = vandermondeInverse basis (p : Int))
    (hE : E = basis.map fun b => segs.map fun seg =>
      innerProduct (powRow b (p : Int) basis.length 1) seg (p : Int))
    (i s : Nat) (hi : i < basis.length) (hs : s < segs.length) :
    ((matrixProduct M E (p : Int)).getD i []).getD s 0 = (segs.getD s []).getD i 0 := by
  have hpp : p.Prime := Fact.out
  have hp : 0 < p := hpp.pos
  have hpi : (0 : Int) < (p : Int) := by exact_mod_cast hp
  have hmm0 : 0 < basis.length := by omega
  have hMlen : M.length = basis.length := by
    rw [hM]; exact vandermondeInverse_length basis (p : Int)
  have hMhead : (M.headD []).length = basis.length := by
    rw [hM]; exact vandermondeInverse_head_length basis (p : Int) hmm0
  have hEhead : (E.headD []).length = segs.length := by
    rw [hE, headD_eq_getD_zero, map_getD_of_lt _ basis 0 [] 0 hmm0]
    simp only [List.length_map]
  have e1 : (matrixProduct M E (p : Int)).getD i [] =
      (List.range ((E.headD []).length)).map fun j =>
        (List.range ((M.headD []).length)).foldl
          (fun cell k => cppMod (cell + (M.getD i []).getD k 0 *
            ((E.getD k []).getD j 0)) (p : Int)) 0 := by
    unfold matrixProduct
    exact map_getD_of_lt _ M i [] [] (by rw [hMlen]; exact hi)
  have e2 : ((matrixProduct M E (p : Int)).getD i []).getD s 0 =
      (List.range basis.length).foldl
        (fun cell k => cppMod (cell + (M.getD i []).getD k 0 *
          ((E.getD k []).getD s 0)) (p : Int)) 0 := by
    rw [e1, hMhead]
    exact range_map_getD ((E.headD []).length) _ s 0 (by rw [hEhead]; exact hs)
  have hAb : 0 ≤ ((matrixProduct M E (p : Int)).getD i []).getD s 0 ∧
      ((matrixProduct M E (p : Int)).getD i []).getD s 0 < (p : Int) := by
    rw [e2]
    exact fold_cppMod_bounds (p : Int) hpi _ (List.range basis.length) 0 le_rfl hpi
  have hsmem : segs.getD s [] ∈ segs := by
    rw [List.getD_eq_getElem _ _ hs]
    exact List.getElem_mem hs
  have hslen : (segs.getD s []).length = basis.length := hsegs _ hsmem
  have hBb : 0 ≤ (segs.getD s []).getD i 0 ∧ (segs.getD s []).getD i 0 < (p : Int) := by
    have hilt : i < (segs.getD s []).length := by rw [hslen]; exact hi
    have hmem2 : (segs.getD s []).getD i 0 ∈ segs.getD s [] := by
      rw [List.getD_eq_getElem (segs.getD s []) 0 hilt]
      exact List.getElem_mem hilt
    exact hbnd _ hsmem _ hmem2
  have hMentry : ∀ k : Fin basis.length,
      ((((M.getD i []).getD k.val 0 : Int)) : ZMod p) =
        (Lagrange.basis Finset.univ
          (fun t : Fin basis.length => ((basis.getD t.val 0 : Int) : ZMod p)) k).coeff i := by
    intro k
    rw [hM]
    exact inv_entry_coeff p basis hinj i hi k
  have hEentry : ∀ k : Fin basis.length,
      ((((E.getD k.val []).getD s 0 : Int)) : ZMod p) =
        ∑ t ∈ Finset.range basis.length,
          ((((segs.getD s []).getD t 0 : Int)) : ZMod p) *
            (((basis.getD k.val 0 : Int)) : ZMod p) ^ t := by
    intro k
    rw [hE, map_getD_of_lt _ basis k.val [] 0 k.isLt]
    exact encoded_entry_cast p hp basis.length (basis.getD k.val 0) segs hsegs s hs
  have heval : ∀ x : ZMod p,
      Polynomial.eval x (∑ t ∈ Finset.range basis.length,
        C ((((segs.getD s []).getD t 0 : Int)) : ZMod p) * X ^ t) =
      ∑ t ∈ Finset.range basis.length,
        ((((segs.getD s []).getD t 0 : Int)) : ZMod p) * x ^ t := by
    intro x
    rw [Polynomial.eval_finset_sum]
    apply Finset.sum_congr rfl
    intro t _
    rw [Polynomial.eval_mul, Polynomial.eval_C, Polynomial.eval_pow, Polynomial.eval_X]
  have hInj : Set.InjOn
      (fun t : Fin basis.length => ((basis.getD t.val 0 : Int) : ZMod p))
      (Finset.univ : Finset (Fin basis.length)) := by
    intro a _ b _ hab
    exact Fin.ext (hinj a.val a.isLt b.val b.isLt hab)
  have hdeg : (∑ t ∈ Finset.range basis.length,
      C ((((segs.getD s []).getD t 0 : Int)) : ZMod p) * X ^ t).degree <
      (((Finset.univ : Finset (Fin basis.length)).card : Nat) : WithBot Nat) := by
    rw [Finset.card_univ, Fintype.card_fin]
    apply lt_of_le_of_lt (Polynomial.degree_sum_le _ _)
    have hbot : (⊥ : WithBot Nat) < ((basis.length : Nat) : WithBot Nat) :=
      WithBot.bot_lt_coe _
    rw [Finset.sup_lt_iff hbot]
    intro t ht
    refine lt_of_le_of_lt (Polynomial.degree_C_mul_X_pow_le _ _) ?_
    exact_mod_cast Finset.mem_range.mp ht
  have hinterp := Lagrange.eq_interpolate hInj hdeg
  have h10 : (∑ t ∈ Finset.range basis.length,
      C ((((segs.getD s []).getD t 0 : Int)) : ZMod p) * X ^ t) =
      ∑ k : Fin basis.length,
        C (Polynomial.eval (((basis.getD k.val 0 : Int)) : ZMod p)
          (∑ t ∈ Finset.range basis.length,
            C ((((segs.getD s []).getD t 0 : Int)) : ZMod p) * X ^ t)) *
        Lagrange.basis Finset.univ
          (fun t : Fin basis.length => ((basis.getD t.val 0 : Int) : ZMod p)) k := by
    conv_lhs => rw [hinterp]
    rw [Lagrange.interpolate_apply]
  have hc : ((((List.range basis.length).foldl
      (fun cell k => cppMod (cell + (M.getD i []).getD k 0 *
        ((E.getD k []).getD s 0)) (p : Int)) 0 : Int)) : ZMod p) =
      (((0 : Int)) : ZMod p) + (((List.range basis.length).map fun k =>
        ((((M.getD i []).getD k 0 * ((E.getD k []).getD s 0) : Int)) : ZMod p)).sum) :=
    fold_cppMod_cast p hp _ (List.range basis.length) 0
  have hfin : (∑ k : Fin basis.length,
      ((((M.getD i []).getD k.val 0 : Int)) : ZMod p) *
        ((((E.getD k.val []).getD s 0 : Int)) : ZMod p)) =
      ∑ k ∈ Finset.range basis.length,
        ((((M.getD i []).getD k 0 : Int)) : ZMod p) *
          ((((E.getD k []).getD s 0 : Int)) : ZMod p) :=
    Fin.sum_univ_eq_sum_range
      (fun k => ((((M.getD i []).getD k 0 : Int)) : ZMod p) *
        ((((E.getD k []).getD s 0 : Int)) : ZMod p)) basis.length
  have hcast : ((((matrixProduct M E (p : Int)).getD i []).getD s 0 : Int) : ZMod p) =
      ((((segs.getD s []).getD i 0 : Int)) : ZMod p) := by
    calc ((((matrixProduct M E (p : Int)).getD i []).getD s 0 : Int) : ZMod p)
        = ∑ k ∈ Finset.range basis.length,
            ((((M.getD i []).getD k 0 : Int)) : ZMod p) *
              ((((E.getD k []).getD s 0 : Int)) : ZMod p) := by
          rw [e2, hc, list_range_sum basis.length
            (fun k => ((((M.getD i []).getD k 0 * ((E.getD k []).getD s 0) : Int)) : ZMod p))]
          rw [Int.cast_zero, zero_add]
          exact Finset.sum_congr rfl fun k _ => Int.cast_mul _ _
      _ = ∑ k : Fin basis.length,
            ((((M.getD i []).getD k.val 0 : Int)) : ZMod p) *
              ((((E.getD k.val []).getD s 0 : Int)) : ZMod p) := hfin.symm
      _ = ∑ k : Fin basis.length,
            (Lagrange.basis Finset.univ
              (fun t : Fin basis.length => ((basis.getD t.val 0 : Int) : ZMod p)) k).coeff i *
            Polynomial.eval (((basis.getD k.val 0 : Int)) : ZMod p)
              (∑ t ∈ Finset.range basis.length,
                C ((((segs.getD s []).getD t 0 : Int)) : ZMod p) * X ^ t) := by
          apply Finset.sum_congr rfl
          intro k _
          rw [hMentry k, hEentry k, heval (((basis.getD k.val 0 : Int)) : ZMod p)]
      _ = (∑ t ∈ Finset.range basis.length,
            C ((((segs.getD s []).getD t 0 : Int)) : ZMod p) * X ^ t).coeff i := by
          conv_rhs => rw [h10]
          rw [Polynomial.finset_sum_coeff]
          apply Finset.sum_congr rfl
          intro k _
          rw [Polynomial.coeff_C_mul]
          ring
      _ = ((((segs.getD s []).getD i 0 : Int)) : ZMod p) := by
          have h0 : ∀ t ∈ Finset.range basis.length, t ≠ i →
              (C ((((segs.getD s []).getD t 0 : Int)) : ZMod p) * X ^ t).coeff i = 0 := by
            intro t _ htne
            rw [Polynomial.coeff_C_mul, Polynomial.coeff_X_pow,
              if_neg (fun hh => htne hh.symm), mul_zero]
          have h1 : i ∉ Finset.range basis.length →
              (C ((((segs.getD s []).getD i 0 : Int)) : ZMod p) * X ^ i).coeff i = 0 :=
            fun hni => absurd (Finset.mem_range.mpr hi) hni
          rw [Polynomial.finset_sum_coeff, Finset.sum_eq_single i h0 h1,
            Polynomial.coeff_C_mul, Polynomial.coeff_X_pow, if_pos rfl, mul_one]
  have hmod : ((matrixProduct M E (p : Int)).getD i []).getD s 0 % (p : Int) =
      (segs.getD s []).getD i 0 % (p : Int) :=
    (ZMod.intCast_eq_intCast_iff _ _ _).mp hcast
  have hAe : ((matrixProduct M E (p : Int)).getD i []).getD s 0 % (p : Int) =
      ((matrixProduct M E (p : Int)).getD i []).getD s 0 :=
    Int.emod_eq_of_lt hAb.1 hAb.2
  have hBe : (segs.getD s []).getD i 0 % (p : Int) = (segs.getD s []).getD i 0 :=
    Int.emod_eq_of_lt hBb.1 hBb.2
  rw [← hAe, ← hBe]
  exact hmod

theorem matrixProduct_length (lhs rhs : List (List Int)) (p : Int) :
    (matrixProduct lhs rhs p).length = lhs.length := by
  unfold matrixProduct
  rw [List.length_map]

theorem matrixProduct_head_length (lhs rhs : List (List Int)) (p : Int)
    (h : 0 < lhs.length) :
    ((matrixProduct lhs rhs p).headD []).length = (rhs.headD []).length := by
  rw [headD_eq_getD_zero]
  unfold matrixProduct
  rw [map_getD_of_lt _ lhs 0 [] [] h]
  simp only [List.length_map, List.length_range]

/-- Evaluating `Decode` on inputs passing both guards, with the reconstructed
segment list given explicitly. -/
theorem decode_eval (m : Nat) (p : Int) (encoded : List (List Int))
    (fragIndices : List Int)
    (hlen : ¬ encoded.length < m)
    (hall : ((List.range (fragIndices.take m).length).all fun i =>
      modInvertible (denomAt (fragIndices.take m) p i) p) = true)
    (S : List (List Int))
    (hS : S = (List.range (((matrixProduct (vandermondeInverse (fragIndices.take m) p)
        encoded p).headD []).length)).map fun i =>
      (List.range ((matrixProduct (vandermondeInverse (fragIndices.take m) p)
        encoded p).length)).map fun j =>
        ((matrixProduct (vandermondeInverse (fragIndices.take m) p)
          encoded p).getD j []).getD i 0)
    (L : List Int)
    (hL : ((S.reverse.dropWhile allZeroes).reverse).getLast? = some L) :
    decode m p encoded fragIndices = .ok
      (((S.reverse.dropWhile allZeroes).reverse.dropLast ++
        [(L.reverse.dropWhile (fun x => decide (x = 0))).reverse]).flatten) := by
  simp only [decode]
  rw [if_neg hlen, if_neg (not_not_intro hall), ← hS, hL]

theorem map_range_cols (output segs : List (List Int))
    (hslen : ∀ seg ∈ segs, seg.length = output.length)
    (hentry : ∀ j i, j < output.length → i < segs.length →
      (output.getD j []).getD i 0 = (segs.getD i []).getD j 0) :
    (List.range segs.length).map (fun i => (List.range output.length).map
      fun j => (output.getD j []).getD i 0) = segs := by
  apply List.ext_getElem
  · rw [List.length_map, List.length_range]
  · intro i hi1 hi2
    simp only [List.getElem_map, List.getElem_range]
    have hmem : segs.getD i [] ∈ segs := by
      rw [List.getD_eq_getElem _ _ hi2]
      exact List.getElem_mem hi2
    have hlen2 : (segs.getD i []).length = output.length := hslen _ hmem
    rw [← List.getD_eq_getElem segs [] hi2]
    apply List.ext_getElem
    · rw [List.length_map, List.length_range, hlen2]
    · intro t ht1 ht2
      simp only [List.getElem_map, List.getElem_range]
      rw [← List.getD_eq_getElem (segs.getD i []) 0 ht2]
      apply hentry
      · rw [List.length_map, List.length_range] at ht1
        exact ht1
      · exact hi2

/-- **C1 (amended).** The IDA round trip holds exactly up to the decoder's
zero-stripping: for `0 < m < n < p` with `p` prime, a vector `v` of entries
in `[0, p)` whose *last element is nonzero*, and any `m` distinct fragment
indices drawn from `1..n`, decoding those `m` rows of `Encode`'s output
together with their (1-based) indices returns exactly `v`.  (Without the
nonzero-tail condition the decoder can strip trailing content zeros, as the
counterexample shows.) -/
theorem c1_round_trip_amended (p m n : Nat) (hpp : p.Prime) (v : List Int)
    (sel : List Nat) (hm : 0 < m) (hmn : m < n) (hnp : n < p)
    (hv : ∀ x ∈ v, 0 ≤ x ∧ x < (p : Int)) (hvne : v ≠ [])
    (hlast : v.getLast hvne ≠ 0)
    (hsel : sel.length = m) (hseld : sel.Nodup)
    (hselr : ∀ a ∈ sel, 1 ≤ a ∧ a ≤ n) :
    decode m (p : Int) (sel.map fun a => (encode n m (p : Int) v).getD (a - 1) [])
      (sel.map fun a => ((a : Nat) : Int)) = .ok v := by
  haveI : Fact p.Prime := ⟨hpp⟩
  have hp : 0 < p := hpp.pos
  have hpi : (0 : Int) < (p : Int) := by exact_mod_cast hp
  have hblen : (sel.map fun a => ((a : Nat) : Int)).length = m := by
    rw [List.length_map, hsel]
  have htake : (sel.map fun a => ((a : Nat) : Int)).take m =
      sel.map fun a => ((a : Nat) : Int) :=
    List.take_of_length_le (by rw [hblen])
  have hgetDb : ∀ t, t < m →
      (sel.map fun a => ((a : Nat) : Int)).getD t 0 = ((sel.getD t 0 : Nat) : Int) := by
    intro t ht
    exact map_getD_of_lt _ sel t 0 0 (by rw [hsel]; exact ht)
  have hselmem : ∀ t, t < m → 1 ≤ sel.getD t 0 ∧ sel.getD t 0 ≤ n := by
    intro t ht
    have hmem : sel.getD t 0 ∈ sel := by
      rw [List.getD_eq_getElem sel 0 (by rw [hsel]; exact ht)]
      exact List.getElem_mem (by rw [hsel]; exact ht)
    exact hselr _ hmem
  have hinj : ∀ a, a < (sel.map fun x => ((x : Nat) : Int)).length →
      ∀ b, b < (sel.map fun x => ((x : Nat) : Int)).length →
      (((sel.map fun x => ((x : Nat) : Int)).getD a 0 : Int) : ZMod p) =
        (((sel.map fun x => ((x : Nat) : Int)).getD b 0 : Int) : ZMod p) → a = b := by
    intro a ha b hb hab
    rw [hblen] at ha hb
    rw [hgetDb a ha, hgetDb b hb] at hab
    push_cast at hab
    have h1 := hselmem a ha
    have h2 := hselmem b hb
    have hva : ((sel.getD a 0 : Nat) : ZMod p).val = sel.getD a 0 :=
      ZMod.val_natCast_of_lt (by omega)
    have hvb : ((sel.getD b 0 : Nat) : ZMod p).val = sel.getD b 0 :=
      ZMod.val_natCast_of_lt (by omega)
    have heq : sel.getD a 0 = sel.getD b 0 := by
      rw [← hva, ← hvb, hab]
    have ha' : a < sel.length := by rw [hsel]; exact ha
    have hb' : b < sel.length := by rw [hsel]; exact hb
    rw [List.getD_eq_getElem sel 0 ha', List.getD_eq_getElem sel 0 hb'] at heq
    exact (List.Nodup.getElem_inj_iff hseld).mp heq
  have hsegslen : ∀ seg ∈ splitToSegments m v, seg.length = m := by
    intro seg hseg
    exact (splitToSegments_props m hm (p : Int) v.length v le_rfl hv hpi seg hseg).1
  have hsegsbnd : ∀ seg ∈ splitToSegments m v, ∀ x ∈ seg, 0 ≤ x ∧ x < (p : Int) := by
    intro seg hseg
    exact (splitToSegments_props m hm (p : Int) v.length v le_rfl hv hpi seg hseg).2
  have hsegsblen : ∀ seg ∈ splitToSegments m v,
      seg.length = (sel.map fun a => ((a : Nat) : Int)).length := by
    intro seg hseg
    rw [hblen]
    exact hsegslen seg hseg
  have hCEMlen : (constructEncodingMatrix m n (p : Int)).length = n := by
    unfold constructEncodingMatrix
    rw [List.length_map, List.length_range]
  have hrow : ∀ a ∈ sel, (encode n m (p : Int) v).getD (a - 1) [] =
      (splitToSegments m v).map fun seg =>
        innerProduct (powRow ((a : Nat) : Int) (p : Int) m 1) seg (p : Int) := by
    intro a ha
    obtain ⟨ha1, ha2⟩ := hselr a ha
    unfold encode
    rw [map_getD_of_lt _ (constructEncodingMatrix m n (p : Int)) (a - 1) [] []
      (by rw [hCEMlen]; omega)]
    rw [encMatrix_getD m n (p : Int) a ha1 ha2]
  have hEeq : (sel.map fun a => (encode n m (p : Int) v).getD (a - 1) []) =
      (sel.map fun a => ((a : Nat) : Int)).map fun b =>
        (splitToSegments m v).map fun seg =>
          innerProduct (powRow b (p : Int)
            ((sel.map fun a => ((a : Nat) : Int)).length) 1) seg (p : Int) := by
    rw [hblen, List.map_map]
    apply List.map_congr_left
    intro a ha
    exact hrow a ha
  have hOlen : (matrixProduct
      (vandermondeInverse (sel.map fun a => ((a : Nat) : Int)) (p : Int))
      (sel.map fun a => (encode n m (p : Int) v).getD (a - 1) [])
      (p : Int)).length = m := by
    rw [matrixProduct_length, vandermondeInverse_length, hblen]
  have hOhead : ((matrixProduct
      (vandermondeInverse (sel.map fun a => ((a : Nat) : Int)) (p : Int))
      (sel.map fun a => (encode n m (p : Int) v).getD (a - 1) [])
      (p : Int)).headD []).length = (splitToSegments m v).length := by
    rw [matrixProduct_head_length _ _ _
      (by rw [vandermondeInverse_length, hblen]; exact hm)]
    rw [hEeq, headD_eq_getD_zero, map_getD_of_lt _ _ 0 [] 0 (by rw [hblen]; exact hm)]
    simp only [List.length_map]
  have hSeq : (List.range (((matrixProduct
      (vandermondeInverse (sel.map fun a => ((a : Nat) : Int)) (p : Int))
      (sel.map fun a => (encode n m (p : Int) v).getD (a - 1) [])
      (p : Int)).headD []).length)).map (fun i => (List.range ((matrixProduct
      (vandermondeInverse (sel.map fun a => ((a : Nat) : Int)) (p : Int))
      (sel.map fun a => (encode n m (p : Int) v).getD (a - 1) [])
      (p : Int)).length)).map fun j => ((matrixProduct
      (vandermondeInverse (sel.map fun a => ((a : Nat) : Int)) (p : Int))
      (sel.map fun a => (encode n m (p : Int) v).getD (a - 1) [])
      (p : Int)).getD j []).getD i 0) = splitToSegments m v := by
    rw [hOhead]
    apply map_range_cols
    · intro seg hseg
      rw [hOlen]
      exact hsegslen seg hseg
    · intro j i hj hi
      rw [hOlen] at hj
      exact output_entry p (sel.map fun a => ((a : Nat) : Int)) hinj
        (splitToSegments m v) hsegsblen hsegsbnd _ _ rfl hEeq j i
        (by rw [hblen]; exact hj) hi
  obtain ⟨hstr1, L, hL0, hflat⟩ := strip_split m hm v.length v hvne hlast le_rfl
  have hL : (((splitToSegments m v).reverse.dropWhile allZeroes).reverse).getLast? =
      some L := by
    rw [hstr1]
    exact hL0
  have hguard1 : ¬ (sel.map fun a => (encode n m (p : Int) v).getD (a - 1) []).length < m := by
    rw [List.length_map, hsel]
    omega
  have hall : ((List.range (((sel.map fun a => ((a : Nat) : Int)).take m).length)).all
      fun i => modInvertible
        (denomAt ((sel.map fun a => ((a : Nat) : Int)).take m) (p : Int) i) (p : Int)) =
      true := by
    rw [htake, hblen]
    apply List.all_eq_true.mpr
    intro i hi0
    have hi1 : i < m := List.mem_range.mp hi0
    have hdnz : ((denomAt (sel.map fun a => ((a : Nat) : Int)) (p : Int) i : Int) :
        ZMod p) ≠ 0 := by
      rw [denomAt_cast p hp _ i (by rw [hblen]; exact hi1)]
      apply Finset.prod_ne_zero_iff.mpr
      intro j hj
      have hjm := Finset.mem_erase.mp hj
      have hjr := Finset.mem_range.mp hjm.2
      apply sub_ne_zero.mpr
      intro heq
      exact hjm.1 (hinj i (by rw [hblen]; exact hi1) j hjr heq).symm
    exact (denomAt_invertible p hpp _ i hdnz).1
  have hdec := decode_eval m (p : Int)
    (sel.map fun a => (encode n m (p : Int) v).getD (a - 1) [])
    (sel.map fun a => ((a : Nat) : Int)) hguard1 hall
    (splitToSegments m v) (by rw [htake]; exact hSeq.symm) L hL
  rw [hdec, hstr1, hflat]

/-- Witness for the amended C1 theorem at `p = 5, m = 2, n = 3, v = [1, 2]`,
decoding from fragments 2 and 3. -/
theorem c1_round_trip_amended_witness :
    decode 2 ((5 : Nat) : Int)
      ([2, 3].map fun a => (encode 3 2 ((5 : Nat) : Int) [1, 2]).getD (a - 1) [])
      ([2, 3].map fun a => ((a : Nat) : Int)) = .ok [1, 2] :=
  c1_round_trip_amended 5 2 3 (by norm_num) [1, 2] [2, 3] (by decide) (by decide)
    (by decide) (by decide) (by decide) (by decide) (by decide) (by decide) (by decide)

end IDA
